import Mathlib

/-!
deepin-editor: the text-buffer edit / cursor model of `TextEditor`

A shallow embedding of `src/editor/src/texteditor.cpp`.

* The document is the plain-text view of the `QTextDocument`: a list of
  characters in which `'\n'` separates blocks (lines).  Positions are offsets
  into that list, `0 .. length`.
* A `QTextCursor` is the pair (anchor, position).
* The toolkit primitives the editor calls (`movePosition`, `setPosition`,
  `insertText`, `removeSelectedText`, `deleteChar`, `selectedText`, `find`)
  are modelled after the Qt 5 documentation; the editor's member functions are
  then translated statement by statement on top of them.
* Movements whose target depends on the rendered layout or on the toolkit's
  word-break tables (`Up`, `Down`, `NextWord`, `PreviousWord`) take their
  target from a `Layout` parameter, so every theorem holds for every layout.
* The toolkit's case mappings are a `CaseMap` parameter; the tab width and the
  word separators are parameters of the functions that read them; the
  keyword-search fields live in `SearchState`, passed next to the editor state.
* Blocks are named by their numbers: `findBlock` counts the line breaks before
  a position and `blockPosition` gives the offset at which a block starts.
* Loops without a bound in the source (`while (1)` in `replaceAll` and
  `replaceRest`, the scans of `getNextWordPosition`) take fuel and answer `none`
  when it runs out; the theorems show how much fuel is enough.  A read outside
  the text (`QString::at`) is `none` as well.
* What the scroll commands read from the widget (scroll bar, geometry) is a
  `Viewport` parameter; the word-under-pointer fields live in `WordState`.
-/

namespace DeepinEditor

/-! ## Toolkit model: characters -/

/-- Unicode paragraph separator U+2029, used by `selectedText` for line breaks. -/
def paragraphSeparator : Char := Char.ofNat 0x2029

/-- Frame delimiters U+FDD0 / U+FDD1 that `insertText` also turns into block breaks. -/
def textBeginningOfFrame : Char := Char.ofNat 0xFDD0

/-- Second frame delimiter, U+FDD1. -/
def textEndOfFrame : Char := Char.ofNat 0xFDD1

/-- The space character. -/
def spaceChar : Char := Char.ofNat 32

/-- The line break of the plain-text view. -/
def newlineChar : Char := Char.ofNat 10

/-- The carriage return. -/
def carriageReturn : Char := Char.ofNat 13

/-- Model of `QChar::isSpace`: tab .. carriage return, space, U+0085, U+00A0 and the
Unicode separator categories Zs, Zl, Zp. -/
def isSpace (c : Char) : Bool :=
  let n := c.toNat
  n == 0x20 || (0x09 ≤ n && n ≤ 0x0D) || n == 0x85 || n == 0xA0 || n == 0x1680 ||
    (0x2000 ≤ n && n ≤ 0x200A) || n == 0x2028 || n == 0x2029 || n == 0x202F ||
    n == 0x205F || n == 0x3000

/-- Model of `QString::trimmed`: whitespace removed from both ends. -/
def trimmed (t : List Char) : List Char :=
  ((t.dropWhile isSpace).reverse.dropWhile isSpace).reverse

/-! ## Toolkit model: cursor -/

/-- Model of `QTextCursor::MoveMode`. -/
inductive MoveMode where
  | MoveAnchor
  | KeepAnchor
  deriving DecidableEq, Repr

/-- Model of the `QTextCursor::MoveOperation` values the editor uses. -/
inductive MoveOperation where
  | NoMove
  | Start
  | StartOfBlock
  | PreviousBlock
  | PreviousCharacter
  | PreviousWord
  | Up
  | Left
  | End
  | EndOfBlock
  | NextBlock
  | NextCharacter
  | NextWord
  | Down
  | Right
  deriving DecidableEq, Repr

/-- A text cursor: anchor and active point (position). -/
structure QTextCursor where
  anchor : Nat
  position : Nat
  deriving DecidableEq, Repr

/-- Layout-dependent movement targets.  `up` / `down` answer `none` when the toolkit
reports that the move is impossible (first / last visual line). -/
structure Layout where
  up : List Char → Nat → Option Nat
  down : List Char → Nat → Option Nat
  nextWord : List Char → Nat → Nat
  previousWord : List Char → Nat → Nat
  /-- Offset of the first character of the visual line containing a position. -/
  lineStart : List Char → Nat → Nat

/-- Offset of the first character of the block containing position `p`. -/
def blockStart (doc : List Char) (p : Nat) : Nat :=
  p - ((doc.take p).reverse.takeWhile (fun c => c != newlineChar)).length

/-- Offset just before the separator that ends the block containing position `p`. -/
def blockEnd (doc : List Char) (p : Nat) : Nat :=
  p + ((doc.drop p).takeWhile (fun c => c != newlineChar)).length

/-- A layout without line wrapping: vertical moves keep the column (clamped to the
target line), word moves skip blanks and then non-blanks. -/
def plainLayout : Layout where
  up := fun doc p =>
    let bs := blockStart doc p
    if bs = 0 then none
    else
      let ps := blockStart doc (bs - 1)
      some (ps + min (p - bs) (bs - 1 - ps))
  down := fun doc p =>
    let be := blockEnd doc p
    if doc.length ≤ be then none
    else
      let ne := blockEnd doc (be + 1)
      some (be + 1 + min (p - blockStart doc p) (ne - (be + 1)))
  nextWord := fun doc p =>
    let rest := doc.drop p
    let w := rest.takeWhile (fun c => !isSpace c)
    p + w.length + ((rest.drop w.length).takeWhile isSpace).length
  previousWord := fun doc p =>
    let rest := (doc.take p).reverse
    let w := rest.takeWhile isSpace
    p - (w.length + ((rest.drop w.length).takeWhile (fun c => !isSpace c)).length)
  lineStart := fun doc p => blockStart doc p

namespace QTextCursor

/-- Model of `QTextCursor::hasSelection`. -/
def hasSelection (c : QTextCursor) : Bool := c.anchor != c.position

/-- Model of `QTextCursor::selectionStart`. -/
def selectionStart (c : QTextCursor) : Nat := min c.anchor c.position

/-- Model of `QTextCursor::selectionEnd`. -/
def selectionEnd (c : QTextCursor) : Nat := max c.anchor c.position

/-- Model of `QTextCursor::clearSelection`: the anchor joins the position. -/
def clearSelection (c : QTextCursor) : QTextCursor := { c with anchor := c.position }

/-- Model of `QTextCursor::columnNumber`: offset inside the visual line. -/
def columnNumber (L : Layout) (doc : List Char) (c : QTextCursor) : Nat :=
  c.position - max (L.lineStart doc c.position) (blockStart doc c.position)

/-- Model of `QTextCursor::atBlockStart`. -/
def atBlockStart (doc : List Char) (c : QTextCursor) : Bool :=
  c.position == blockStart doc c.position

/-- Model of `QTextCursor::atBlockEnd`. -/
def atBlockEnd (doc : List Char) (c : QTextCursor) : Bool :=
  c.position == blockEnd doc c.position

/-- Model of `QTextCursor::setPosition`: an out-of-range position is ignored. -/
def setPosition (doc : List Char) (pos : Nat) (mode : MoveMode) (c : QTextCursor) :
    QTextCursor :=
  if doc.length < pos then c
  else
    match mode with
    | MoveMode.MoveAnchor => { anchor := pos, position := pos }
    | MoveMode.KeepAnchor => { c with position := pos }

/-- Target of one `movePosition` step; `none` when the toolkit leaves the cursor
untouched (`NoMove`, or a move that fails). -/
def moveTarget (L : Layout) (doc : List Char) (op : MoveOperation) (mode : MoveMode)
    (c : QTextCursor) : Option Nat :=
  let p := c.position
  match op with
  | MoveOperation.NoMove => none
  | MoveOperation.Start => some 0
  | MoveOperation.End => some doc.length
  | MoveOperation.StartOfBlock => some (blockStart doc p)
  | MoveOperation.EndOfBlock => some (blockEnd doc p)
  | MoveOperation.PreviousBlock =>
      if blockStart doc p = 0 then none else some (blockStart doc (blockStart doc p - 1))
  | MoveOperation.NextBlock =>
      if doc.length ≤ blockEnd doc p then none else some (blockEnd doc p + 1)
  | MoveOperation.PreviousCharacter | MoveOperation.Left =>
      if mode = MoveMode.MoveAnchor ∧ c.anchor ≠ p then some (min c.anchor p)
      else some (p - 1)
  | MoveOperation.NextCharacter | MoveOperation.Right =>
      if mode = MoveMode.MoveAnchor ∧ c.anchor ≠ p then some (max c.anchor p)
      else some (min (p + 1) doc.length)
  | MoveOperation.PreviousWord => some (min (L.previousWord doc p) doc.length)
  | MoveOperation.NextWord => some (min (L.nextWord doc p) doc.length)
  | MoveOperation.Up => (L.up doc p).map (fun q => min q doc.length)
  | MoveOperation.Down => (L.down doc p).map (fun q => min q doc.length)

/-- Model of `QTextCursor::movePosition(op, mode)` (one step). -/
def movePosition (L : Layout) (doc : List Char) (op : MoveOperation) (mode : MoveMode)
    (c : QTextCursor) : QTextCursor :=
  match moveTarget L doc op mode c with
  | none => c
  | some q =>
    match mode with
    | MoveMode.MoveAnchor => { anchor := q, position := q }
    | MoveMode.KeepAnchor => { c with position := q }

/-- Model of `QTextCursor::movePosition(op, mode, n)`: the step is repeated `n` times. -/
def movePositionN (L : Layout) (doc : List Char) (op : MoveOperation) (mode : MoveMode) :
    Nat → QTextCursor → QTextCursor
  | 0, c => c
  | n + 1, c => movePositionN L doc op mode n (movePosition L doc op mode c)

end QTextCursor


/-! ## Toolkit model: editing through a cursor -/

/-- One change of the document, as the other live cursors see it. -/
inductive Change where
  | inserted (pos n : Nat)
  | removed (pos n : Nat)
  deriving DecidableEq, Repr

/-- Model of `QTextCursorPrivate::adjustPosition` for one offset: an insertion at or
before the offset pushes it right, a removal pulls it left (onto the start of the
removed range when the offset was inside it). -/
def Change.shift (x : Nat) : Change → Nat
  | Change.inserted pos n => if x < pos then x else x + n
  | Change.removed pos n => if x < pos then x else if x < pos + n then pos else x - n

/-- A cursor that was alive while `chs` were applied to the document. -/
def QTextCursor.adjust (c : QTextCursor) (chs : List Change) : QTextCursor :=
  chs.foldl (fun c ch => { anchor := ch.shift c.anchor, position := ch.shift c.position }) c

/-- Result of an editing primitive: new text, the editing cursor afterwards, and the
changes every other cursor has to follow. -/
structure Edit where
  doc : List Char
  cursor : QTextCursor
  changes : List Change
  deriving DecidableEq, Repr

/-- Model of `QTextCursor::selectedText`: the selected characters, each line break
given as U+2029. -/
def selectedText (doc : List Char) (c : QTextCursor) : List Char :=
  ((doc.drop c.selectionStart).take (c.selectionEnd - c.selectionStart)).map
    (fun ch => if ch = newlineChar then paragraphSeparator else ch)

/-- Model of `QTextCursor::selection().toPlainText()`: the selected characters with
`'\n'` line breaks. -/
def selectionPlainText (doc : List Char) (c : QTextCursor) : List Char :=
  (doc.drop c.selectionStart).take (c.selectionEnd - c.selectionStart)

/-- Model of `QTextCursor::removeSelectedText`. -/
def removeSelectedText (doc : List Char) (c : QTextCursor) : Edit :=
  if c.hasSelection then
    { doc := doc.take c.selectionStart ++ doc.drop c.selectionEnd
      cursor := { anchor := c.selectionStart, position := c.selectionStart }
      changes := [Change.removed c.selectionStart (c.selectionEnd - c.selectionStart)] }
  else
    { doc := doc, cursor := c, changes := [] }

/-- Block-break handling of `QTextCursor::insertText`: `"\r\n"` is one break, and each
of `'\n'`, `'\r'`, U+2029, U+FDD0, U+FDD1 starts a new block. -/
def normalizeText : List Char → List Char
  | [] => []
  | c :: t =>
    if c = carriageReturn ∧ t.head? = some newlineChar then normalizeText t
    else if c = newlineChar ∨ c = paragraphSeparator ∨ c = textBeginningOfFrame ∨
        c = textEndOfFrame ∨ c = carriageReturn then newlineChar :: normalizeText t
    else c :: normalizeText t

/-- Model of `QTextCursor::insertText`: the selection (if any) is removed, the text is
inserted at the cursor, the cursor ends behind it without selection. -/
def insertText (doc : List Char) (c : QTextCursor) (text : List Char) : Edit :=
  let r := removeSelectedText doc c
  let t := normalizeText text
  let p := r.cursor.position
  { doc := r.doc.take p ++ t ++ r.doc.drop p
    cursor := { anchor := p + t.length, position := p + t.length }
    changes := r.changes ++ [Change.inserted p t.length] }

/-- Model of `QTextCursor::deleteChar`: removes the selection, or else the character
behind the cursor (nothing at the end of the document). -/
def deleteChar (doc : List Char) (c : QTextCursor) : Edit :=
  if c.hasSelection then removeSelectedText doc c
  else if c.position < doc.length then
    { doc := doc.take c.position ++ doc.drop (c.position + 1)
      cursor := c
      changes := [Change.removed c.position 1] }
  else
    { doc := doc, cursor := c, changes := [] }

/-- Model of `QTextDocument::find` for a one-character class, forward: the first
offset at or after `start` whose character is in the class. -/
def findForward (doc : List Char) (cls : Char → Bool) (start : Nat) : Option Nat :=
  ((doc.drop start).findIdx? cls).map (fun i => start + i)

/-- Model of `QTextDocument::find` for a one-character class, backward: the last
offset before `start` whose character is in the class. -/
def findBackward (doc : List Char) (cls : Char → Bool) (start : Nat) : Option Nat :=
  (((doc.take start).reverse).findIdx? cls).map (fun i => min start doc.length - 1 - i)

/-- A document the toolkit can hold: the characters `insertText` turns into block
breaks never occur as ordinary characters. -/
def WellFormed (doc : List Char) : Prop :=
  ∀ c ∈ doc, c ≠ carriageReturn ∧ c ≠ paragraphSeparator ∧ c ≠ textBeginningOfFrame ∧
    c ≠ textEndOfFrame

/-- The text of a list of lines: the lines joined by line breaks. -/
def joinLn : List (List Char) → List Char
  | [] => []
  | l :: ls => l ++ (ls.map (fun x => newlineChar :: x)).flatten

/-- The text of the lines `pre` when another line follows: each line with its break. -/
def textBefore (pre : List (List Char)) : List Char :=
  (pre.map (fun x => x ++ [newlineChar])).flatten

/-- The text of the lines `post` when another line precedes: each line after a break. -/
def textAfter (post : List (List Char)) : List Char :=
  (post.map (fun x => newlineChar :: x)).flatten

/-- Offset of the first character of the line that follows the lines `pre`. -/
def lineOffset (pre : List (List Char)) : Nat :=
  (pre.map (fun x => x.length + 1)).sum

/-- A text after which a new line starts: empty, or ending in a line break. -/
def StartsLine (a : List Char) : Prop := a = [] ∨ ∃ b, a = b ++ [newlineChar]

/-- A text before which a line ends: empty, or starting with a line break. -/
def EndsLine (t : List Char) : Prop := t = [] ∨ ∃ u, t = newlineChar :: u

/-- Blank text in the sense of `trimmed().size() == 0`: only whitespace. -/
def isBlank (t : List Char) : Bool := t.all isSpace

/-- A line: a text without line break. -/
def IsLine (l : List Char) : Prop := newlineChar ∉ l

/-! ## Toolkit model: blocks, case mapping, string search -/

/-- The tab character. -/
def tabChar : Char := Char.ofNat 9

/-- The no-break space U+00A0. -/
def nbspChar : Char := Char.ofNat 0xA0

/-- Model of `QTextDocument::blockCount`: one block more than there are line breaks. -/
def blockCount (doc : List Char) : Nat := doc.count newlineChar + 1

/-- Model of `QTextDocument::findBlock(pos).blockNumber()`: the number of the block
that contains the position. -/
def findBlock (doc : List Char) (pos : Nat) : Nat := (doc.take pos).count newlineChar

/-- Offset of the first character of block number `b`, for a block that exists. -/
def blockStartOf : List Char → Nat → Nat
  | _, 0 => 0
  | doc, b + 1 =>
    let l := (doc.takeWhile (fun c => c != newlineChar)).length
    l + 1 + blockStartOf (doc.drop (l + 1)) b

/-- Model of `QTextBlock::position` for block number `b`; an invalid block answers 0. -/
def blockPosition (doc : List Char) (b : Nat) : Nat :=
  if b < blockCount doc then blockStartOf doc b else 0

/-- Model of `QTextDocument::characterAt`: the character at a position, U+2029 for a
block break (also the one that closes the last block), the null character outside. -/
def characterAt (doc : List Char) (pos : Nat) : Char :=
  match doc[pos]? with
  | some c => if c = newlineChar then paragraphSeparator else c
  | none => if pos = doc.length then paragraphSeparator else Char.ofNat 0

/-- Model of `QTextCursor::insertBlock`: the selection (if any) is removed and a block
break is inserted at the cursor, which ends behind it. -/
def insertBlock (doc : List Char) (c : QTextCursor) : Edit :=
  let r := removeSelectedText doc c
  let p := r.cursor.position
  { doc := r.doc.take p ++ newlineChar :: r.doc.drop p
    cursor := { anchor := p + 1, position := p + 1 }
    changes := r.changes ++ [Change.inserted p 1] }

/-- A layout that wraps every line after `w` columns; vertical and word moves as in
`plainLayout`. -/
def wrapLayout (w : Nat) : Layout where
  up := plainLayout.up
  down := plainLayout.down
  nextWord := plainLayout.nextWord
  previousWord := plainLayout.previousWord
  lineStart := fun doc p => blockStart doc p + ((p - blockStart doc p) / w) * w

/-- The toolkit's case mappings: `QString::toLower`, `QString::toUpper`,
`QChar::toUpper` and the case folding used by case-insensitive comparison. -/
structure CaseMap where
  toLower : List Char → List Char
  toUpper : List Char → List Char
  toUpperChar : Char → Char
  foldCase : Char → Char

/-- Case mappings restricted to the ASCII letters. -/
def asciiCase : CaseMap where
  toLower := fun t => t.map Char.toLower
  toUpper := fun t => t.map Char.toUpper
  toUpperChar := Char.toUpper
  foldCase := Char.toLower

/-- Value of the flag `QTextDocument::FindBackward`. -/
def FindBackward : Nat := 1

/-- Value of the flag `QTextDocument::FindCaseSensitively`. -/
def FindCaseSensitively : Nat := 2

/-- Comparison of one document character with one character of the search string in
`findInBlock`: a block break never matches, U+00A0 counts as a space, and the case is
folded unless `FindCaseSensitively` is set. -/
def charMatches (K : CaseMap) (flags : Nat) (d k : Char) : Bool :=
  let d2 := if d = nbspChar then spaceChar else d
  d != newlineChar &&
    (if flags &&& FindCaseSensitively != 0 then d2 == k else K.foldCase d2 == K.foldCase k)

/-- Whether the search string matches the document at offset `i`. -/
def matchesAt (K : CaseMap) (flags : Nat) (doc subString : List Char) (i : Nat) : Bool :=
  let span := (doc.drop i).take subString.length
  span.length == subString.length &&
    (List.zipWith (charMatches K flags) span subString).all (fun b => b)

/-- Forward scan of `QTextDocument::find`: the first offset at or after `i` where the
search string matches, looking at `fuel` offsets. -/
def findFrom (K : CaseMap) (flags : Nat) (doc subString : List Char) : Nat → Nat → Option Nat
  | 0, _ => none
  | fuel + 1, i =>
    if matchesAt K flags doc subString i then some i
    else findFrom K flags doc subString fuel (i + 1)

/-- Model of `QTextDocument::find(subString, cursor, options)` without `FindBackward`:
the search starts at the end of the cursor's selection and answers a cursor that selects
the match (anchor at its start, position at its end), or `none` (the null cursor). -/
def findString (K : CaseMap) (flags : Nat) (doc subString : List Char) (cursor : QTextCursor) :
    Option QTextCursor :=
  if subString.isEmpty then none
  else
    (findFrom K flags doc subString (doc.length + 1 - cursor.selectionEnd) cursor.selectionEnd).map
      (fun i => { anchor := i, position := i + subString.length })

/-- What the spec says `unindentText` does to one line: a leading tab is removed,
otherwise the first `min n k` spaces, `k` being the number of leading spaces. -/
def unindentedLine (n : Nat) (l : List Char) : List Char :=
  if l.head? = some tabChar then l.drop 1
  else l.drop (min n (l.takeWhile (fun c => c == spaceChar)).length)

/-- Model of `QString::at` with a C++ `int` index: `none` outside the text, where the
toolkit gives no character. -/
def textAt (doc : List Char) (i : Int) : Option Char :=
  if i < 0 then none else doc[i.toNat]?

/-- What the spec says `replaceAll` makes of a document: the text from offset `start`
on, with each span of the match set (in document order) replaced by the text `t` and
everything between the spans kept. -/
def replaceSpans (doc t : List Char) : Nat → List QTextCursor → List Char
  | start, [] => doc.drop start
  | start, m :: ms =>
    (doc.drop start).take (m.anchor - start) ++ t ++ replaceSpans doc t m.position ms

/-- Number of insertions among the changes of an edit sequence. -/
def insertionCount (chs : List Change) : Nat :=
  chs.countP (fun ch => match ch with
    | Change.inserted _ _ => true
    | Change.removed _ _ => false)

/-! ## Editor state -/

/-- The part of a `TextEditor` the modelled operations read and write. -/
structure TextEditor where
  /-- Plain text of `document()`. -/
  doc : List Char
  /-- Value of `textCursor()`. -/
  cursor : QTextCursor
  /-- Field `m_cursorMark`. -/
  m_cursorMark : Bool := false
  /-- Text held by the system clipboard (`none`: the clipboard holds no text). -/
  clipboard : Option (List Char) := none
  deriving DecidableEq, Repr

/-- The keyword-search fields of a `TextEditor`: the cursors of `m_keywordSelections`
and the cursor of `m_cursorKeywordSelection`. -/
structure SearchState where
  m_keywordSelections : List QTextCursor
  m_cursorKeywordSelection : QTextCursor
  deriving DecidableEq, Repr

/-- The word-under-pointer fields of a `TextEditor`: `m_haveWordUnderCursor` and
`m_wordUnderPointerCursor`. -/
structure WordState where
  m_haveWordUnderCursor : Bool
  m_wordUnderPointerCursor : QTextCursor
  deriving DecidableEq, Repr

/-- The enumeration `ConvertCase`. -/
inductive ConvertCase where
  | UPPER
  | LOWER
  | CAPITALIZE
  deriving DecidableEq, Repr

/-- What the scroll commands read from the widget: the vertical scroll bar (value and
maximum), the number of text lines that fit the widget
(`rect().height() / fontMetrics().height()`), whether the cursor rectangle lies below
the last full line or above the top for a scroll value and a cursor position, and the
position of the cursor built on `findBlockByLineNumber(n)` (`none`: no such line, the
null cursor). -/
structure Viewport where
  scrollValue : Nat
  scrollMaximum : Nat
  pageLines : Nat
  cursorBelowView : Nat → Nat → Bool
  cursorAboveView : Nat → Nat → Bool
  lineCursorPosition : Int → Option Nat

namespace TextEditor

/-- Translation of `TextEditor::setMark` (the `cursorMarkChanged` notification has no
effect on the modelled state). -/
def setMark (s : TextEditor) : TextEditor :=
  if s.m_cursorMark then
    if s.cursor.hasSelection then
      { s with cursor := s.cursor.clearSelection }
    else
      { s with m_cursorMark := false }
  else
    { s with m_cursorMark := true }


/-- Translation of `TextEditor::unsetMark`. -/
def unsetMark (s : TextEditor) : TextEditor :=
  { s with m_cursorMark := false }

/-- Translation of `TextEditor::tryUnsetMark`: the returned flag and the new state. -/
def tryUnsetMark (s : TextEditor) : Bool × TextEditor :=
  if s.m_cursorMark then
    (true, unsetMark { s with cursor := s.cursor.clearSelection })
  else
    (false, s)

/-- Translation of `TextEditor::moveCursorNoBlink`. -/
def moveCursorNoBlink (L : Layout) (operation : MoveOperation) (mode : MoveMode)
    (s : TextEditor) : TextEditor :=
  { s with cursor := s.cursor.movePosition L s.doc operation mode }

/-- Shared shape of the simple navigation commands: `KeepAnchor` while the mark is
set, `moveCursorNoBlink` otherwise. -/
def markedMove (L : Layout) (operation : MoveOperation) (s : TextEditor) : TextEditor :=
  if s.m_cursorMark then
    { s with cursor := s.cursor.movePosition L s.doc operation MoveMode.KeepAnchor }
  else
    moveCursorNoBlink L operation MoveMode.MoveAnchor s

/-- Translation of `TextEditor::forwardChar`. -/
def forwardChar (L : Layout) (s : TextEditor) : TextEditor :=
  markedMove L MoveOperation.NextCharacter s

/-- Translation of `TextEditor::backwardChar`. -/
def backwardChar (L : Layout) (s : TextEditor) : TextEditor :=
  markedMove L MoveOperation.PreviousCharacter s

/-- Translation of `TextEditor::forwardWord`. -/
def forwardWord (L : Layout) (s : TextEditor) : TextEditor :=
  if s.m_cursorMark then
    { s with cursor := s.cursor.movePosition L s.doc MoveOperation.NextWord MoveMode.KeepAnchor }
  else
    { s with cursor := s.cursor.movePosition L s.doc MoveOperation.NextWord MoveMode.MoveAnchor }

/-- Translation of `TextEditor::backwardWord`. -/
def backwardWord (L : Layout) (s : TextEditor) : TextEditor :=
  if s.m_cursorMark then
    { s with
      cursor := s.cursor.movePosition L s.doc MoveOperation.PreviousWord MoveMode.KeepAnchor }
  else
    { s with
      cursor := s.cursor.movePosition L s.doc MoveOperation.PreviousWord MoveMode.MoveAnchor }

/-- Character class of the regular expression in `forwardPair`: one of the five
closing delimiters. -/
def forwardPairClass (c : Char) : Bool :=
  c == Char.ofNat 34 || c == Char.ofNat 39 || c == Char.ofNat 62 || c == Char.ofNat 41 ||
    c == Char.ofNat 125

/-- Character class of the regular expression in `backwardPair`: one of the five
opening delimiters. -/
def backwardPairClass (c : Char) : Bool :=
  c == Char.ofNat 34 || c == Char.ofNat 39 || c == Char.ofNat 60 || c == Char.ofNat 40 ||
    c == Char.ofNat 123

/-- Model of `QPlainTextEdit::find` with a one-character class: on success the text
cursor selects the match and the flag is `true`; otherwise nothing changes. -/
def find (cls : Char → Bool) (backward : Bool) (s : TextEditor) : Bool × TextEditor :=
  let hit :=
    if backward then findBackward s.doc cls s.cursor.selectionStart
    else findForward s.doc cls s.cursor.selectionEnd
  match hit with
  | none => (false, s)
  | some i => (true, { s with cursor := { anchor := i, position := i + 1 } })

/-- Translation of `TextEditor::forwardPair`. -/
def forwardPair (s : TextEditor) : TextEditor :=
  let actionStartPos := s.cursor.position
  let selectionStartPos := s.cursor.selectionStart
  let selectionEndPos := s.cursor.selectionEnd
  let removeSelectionCursor := s.cursor.clearSelection
  let s := { s with cursor := removeSelectionCursor }
  let (found, s) := find forwardPairClass false s
  if found then
    let findPos := s.cursor.position
    let cursor := s.cursor
    let moveMode := if s.m_cursorMark then MoveMode.KeepAnchor else MoveMode.MoveAnchor
    if actionStartPos = selectionStartPos then
      let cursor := cursor.setPosition s.doc selectionEndPos MoveMode.MoveAnchor
      let cursor := cursor.setPosition s.doc findPos moveMode
      { s with cursor := cursor }
    else
      let cursor := cursor.setPosition s.doc selectionStartPos MoveMode.MoveAnchor
      let cursor := cursor.setPosition s.doc findPos moveMode
      { s with cursor := cursor }
  else s

/-- Translation of `TextEditor::backwardPair`. -/
def backwardPair (L : Layout) (s : TextEditor) : TextEditor :=
  let actionStartPos := s.cursor.position
  let selectionStartPos := s.cursor.selectionStart
  let selectionEndPos := s.cursor.selectionEnd
  let removeSelectionCursor := s.cursor.clearSelection
  let s := { s with cursor := removeSelectionCursor }
  let (found, s) := find backwardPairClass true s
  if found then
    let cursor := s.cursor
    let moveMode := if s.m_cursorMark then MoveMode.KeepAnchor else MoveMode.MoveAnchor
    let cursor := cursor.movePosition L s.doc MoveOperation.Left MoveMode.MoveAnchor
    let findPos := cursor.position
    if actionStartPos = selectionStartPos then
      let cursor := cursor.setPosition s.doc selectionEndPos MoveMode.MoveAnchor
      let cursor := cursor.setPosition s.doc findPos moveMode
      { s with cursor := cursor }
    else
      let cursor := cursor.setPosition s.doc selectionStartPos MoveMode.MoveAnchor
      let cursor := cursor.setPosition s.doc findPos moveMode
      { s with cursor := cursor }
  else s

/-- Translation of `TextEditor::moveToStart`. -/
def moveToStart (L : Layout) (s : TextEditor) : TextEditor :=
  markedMove L MoveOperation.Start s

/-- Translation of `TextEditor::moveToEnd`. -/
def moveToEnd (L : Layout) (s : TextEditor) : TextEditor :=
  markedMove L MoveOperation.End s

/-- Translation of `TextEditor::moveToStartOfLine`. -/
def moveToStartOfLine (L : Layout) (s : TextEditor) : TextEditor :=
  markedMove L MoveOperation.StartOfBlock s

/-- Translation of `TextEditor::moveToEndOfLine`. -/
def moveToEndOfLine (L : Layout) (s : TextEditor) : TextEditor :=
  markedMove L MoveOperation.EndOfBlock s

/-- The `while (column < endColumn)` loop of `moveToLineIndentation`; it runs at most
`endColumn - column` times, which is the fuel. -/
def indentationLoop (L : Layout) (doc : List Char) (moveMode : MoveMode) :
    Nat → QTextCursor → QTextCursor
  | 0, cursor => cursor
  | fuel + 1, cursor =>
    let currentChar := doc.getD (cursor.position - 1) spaceChar
    if !isSpace currentChar then
      cursor.movePosition L doc MoveOperation.PreviousCharacter moveMode
    else
      indentationLoop L doc moveMode fuel
        (cursor.movePosition L doc MoveOperation.NextCharacter moveMode)

/-- Translation of `TextEditor::moveToLineIndentation`. -/
def moveToLineIndentation (L : Layout) (s : TextEditor) : TextEditor :=
  let cursor := s.cursor
  let moveMode := if s.m_cursorMark then MoveMode.KeepAnchor else MoveMode.MoveAnchor
  let cursor := cursor.movePosition L s.doc MoveOperation.StartOfBlock moveMode
  let startColumn := cursor.columnNumber L s.doc
  let cursor := cursor.movePosition L s.doc MoveOperation.EndOfBlock moveMode
  let endColumn := cursor.columnNumber L s.doc
  let cursor := cursor.movePosition L s.doc MoveOperation.StartOfBlock moveMode
  let cursor := indentationLoop L s.doc moveMode (endColumn - startColumn) cursor
  { s with cursor := cursor }

/-- Translation of `TextEditor::nextLine`. -/
def nextLine (L : Layout) (s : TextEditor) : TextEditor :=
  if s.doc.isEmpty then s
  else markedMove L MoveOperation.Down s

/-- Translation of `TextEditor::prevLine`. -/
def prevLine (L : Layout) (s : TextEditor) : TextEditor :=
  if s.doc.isEmpty then s
  else markedMove L MoveOperation.Up s

/-- Translation of `TextEditor::newline`. -/
def newline (s : TextEditor) : TextEditor :=
  let s := (tryUnsetMark s).2
  let e := insertText s.doc s.cursor [newlineChar]
  { s with doc := e.doc, cursor := e.cursor }

/-- Translation of `TextEditor::openNewlineAbove`. -/
def openNewlineAbove (L : Layout) (s : TextEditor) : TextEditor :=
  let s := (tryUnsetMark s).2
  let cursor := s.cursor
  let cursor := cursor.movePosition L s.doc MoveOperation.StartOfBlock MoveMode.MoveAnchor
  let e := insertText s.doc cursor [newlineChar]
  let cursor := e.cursor.movePosition L e.doc MoveOperation.Up MoveMode.MoveAnchor
  { s with doc := e.doc, cursor := cursor }

/-- Translation of `TextEditor::openNewlineBelow`; the insertion goes through a
temporary copy of the text cursor, which the widget's cursor follows. -/
def openNewlineBelow (L : Layout) (s : TextEditor) : TextEditor :=
  let s := (tryUnsetMark s).2
  let s := moveCursorNoBlink L MoveOperation.EndOfBlock MoveMode.MoveAnchor s
  let e := insertText s.doc s.cursor [newlineChar]
  { s with doc := e.doc, cursor := s.cursor.adjust e.changes }

/-- Translation of `TextEditor::copySelectedText`. -/
def copySelectedText (s : TextEditor) : TextEditor :=
  { s with clipboard := some (selectionPlainText s.doc s.cursor) }

/-- Translation of `TextEditor::cutSelectedText`. -/
def cutSelectedText (s : TextEditor) : TextEditor :=
  let s := { s with clipboard := some (selectionPlainText s.doc s.cursor) }
  let e := removeSelectedText s.doc s.cursor
  let s := { s with doc := e.doc, cursor := e.cursor }
  unsetMark s

/-- Model of `QPlainTextEdit::paste`: clipboard text replaces the selection; when the
clipboard holds no text, or an empty one, nothing is inserted and nothing is removed. -/
def paste (s : TextEditor) : TextEditor :=
  match s.clipboard with
  | none => s
  | some text =>
    if text.isEmpty then s
    else
      let e := insertText s.doc s.cursor text
      { s with doc := e.doc, cursor := e.cursor }

/-- Translation of `TextEditor::pasteText`. -/
def pasteText (s : TextEditor) : TextEditor :=
  unsetMark (paste s)


/-- Translation of `TextEditor::duplicateLine`. -/
def duplicateLine (L : Layout) (s : TextEditor) : TextEditor :=
  if s.cursor.hasSelection then
    let cursorAtSelectionStart := s.cursor.position == s.cursor.selectionStart
    let column := s.cursor.columnNumber L s.doc
    let startPos := s.cursor.selectionStart
    let endPos := s.cursor.selectionEnd
    let startCursor := s.cursor.setPosition s.doc startPos MoveMode.MoveAnchor
    let startCursor :=
      startCursor.movePosition L s.doc MoveOperation.StartOfBlock MoveMode.MoveAnchor
    let endCursor := s.cursor.setPosition s.doc endPos MoveMode.MoveAnchor
    let endCursor := endCursor.movePosition L s.doc MoveOperation.EndOfBlock MoveMode.MoveAnchor
    let cursor := s.cursor.setPosition s.doc startCursor.position MoveMode.MoveAnchor
    let cursor := cursor.setPosition s.doc endCursor.position MoveMode.KeepAnchor
    let selectionLines := selectedText s.doc cursor
    if cursorAtSelectionStart then
      let cursor := cursor.setPosition s.doc startCursor.position MoveMode.MoveAnchor
      let e1 := insertText s.doc cursor [newlineChar]
      let startCursor := startCursor.adjust e1.changes
      let cursor := e1.cursor.movePosition L e1.doc MoveOperation.Up MoveMode.MoveAnchor
      let e2 := insertText e1.doc cursor selectionLines
      let startCursor := startCursor.adjust e2.changes
      let cursor := e2.cursor.setPosition e2.doc startCursor.position MoveMode.MoveAnchor
      let cursor :=
        cursor.movePositionN L e2.doc MoveOperation.Right MoveMode.MoveAnchor column
      unsetMark { s with doc := e2.doc, cursor := cursor }
    else
      let cursor := cursor.setPosition s.doc endCursor.position MoveMode.MoveAnchor
      let cursor := cursor.movePosition L s.doc MoveOperation.Right MoveMode.MoveAnchor
      let e1 := insertText s.doc cursor selectionLines
      let e2 := insertText e1.doc e1.cursor [newlineChar]
      let cursor := e2.cursor.movePosition L e2.doc MoveOperation.Up MoveMode.MoveAnchor
      let cursor := cursor.movePosition L e2.doc MoveOperation.StartOfBlock MoveMode.MoveAnchor
      let cursor :=
        cursor.movePositionN L e2.doc MoveOperation.Right MoveMode.MoveAnchor column
      unsetMark { s with doc := e2.doc, cursor := cursor }
  else
    let column := s.cursor.columnNumber L s.doc
    let cursor : QTextCursor :=
      { anchor := blockStart s.doc s.cursor.position
        position := blockStart s.doc s.cursor.position }
    let cursor := cursor.movePosition L s.doc MoveOperation.StartOfBlock MoveMode.MoveAnchor
    let cursor := cursor.movePosition L s.doc MoveOperation.EndOfBlock MoveMode.KeepAnchor
    let text := selectedText s.doc cursor
    let cursor := cursor.movePosition L s.doc MoveOperation.EndOfBlock MoveMode.MoveAnchor
    let e1 := insertText s.doc cursor [newlineChar]
    let e2 := insertText e1.doc e1.cursor text
    let cursor := e2.cursor.movePosition L e2.doc MoveOperation.StartOfBlock MoveMode.MoveAnchor
    let cursor :=
      cursor.movePositionN L e2.doc MoveOperation.Right MoveMode.MoveAnchor column
    { s with doc := e2.doc, cursor := cursor }

/-- Translation of `TextEditor::joinLines`. -/
def joinLines (L : Layout) (s : TextEditor) : TextEditor :=
  let s :=
    if s.cursor.hasSelection then
      let startPos := s.cursor.anchor
      let endPos := s.cursor.position
      let (startPos, endPos) := if startPos > endPos then (endPos, startPos) else (startPos, endPos)
      let startCursor := s.cursor.setPosition s.doc startPos MoveMode.MoveAnchor
      let startCursor :=
        startCursor.movePosition L s.doc MoveOperation.StartOfBlock MoveMode.MoveAnchor
      let endCursor := s.cursor.setPosition s.doc endPos MoveMode.MoveAnchor
      let endCursor :=
        endCursor.movePosition L s.doc MoveOperation.EndOfBlock MoveMode.MoveAnchor
      let cursor := s.cursor.setPosition s.doc startCursor.position MoveMode.MoveAnchor
      let cursor := cursor.setPosition s.doc endCursor.position MoveMode.KeepAnchor
      let selectedLines := selectedText s.doc cursor
      let e1 := removeSelectedText s.doc cursor
      let e2 := insertText e1.doc e1.cursor
        (selectedLines.map (fun ch => if ch = paragraphSeparator then spaceChar else ch))
      { s with doc := e2.doc, cursor := e2.cursor }
    else
      let cursor := s.cursor
      let cursor := cursor.movePosition L s.doc MoveOperation.EndOfBlock MoveMode.MoveAnchor
      let e1 := insertText s.doc cursor [spaceChar]
      let e2 := deleteChar e1.doc e1.cursor
      let cursor := e2.cursor.movePosition L e2.doc MoveOperation.EndOfBlock MoveMode.MoveAnchor
      { s with doc := e2.doc, cursor := cursor }
  (tryUnsetMark s).2

/-- Translation of `TextEditor::killLine`. -/
def killLine (L : Layout) (s : TextEditor) : TextEditor :=
  let (unset, s) := tryUnsetMark s
  if unset then s
  else if s.cursor.hasSelection then
    let e := removeSelectedText s.doc s.cursor
    { s with doc := e.doc, cursor := s.cursor.adjust e.changes }
  else
    let selectionCursor := s.cursor
    let selectionCursor :=
      selectionCursor.movePosition L s.doc MoveOperation.StartOfBlock MoveMode.MoveAnchor
    let selectionCursor :=
      selectionCursor.movePosition L s.doc MoveOperation.EndOfBlock MoveMode.KeepAnchor
    let text := selectedText s.doc selectionCursor
    let isEmptyLine := text.length == 0
    let isBlankLine := (trimmed text).length == 0
    let cursor := s.cursor
    if isEmptyLine || s.cursor.atBlockEnd s.doc then
      let cursor := cursor.movePosition L s.doc MoveOperation.EndOfBlock MoveMode.MoveAnchor
      let e := deleteChar s.doc cursor
      { s with doc := e.doc, cursor := e.cursor }
    else if isBlankLine && s.cursor.atBlockStart s.doc then
      let cursor := cursor.movePosition L s.doc MoveOperation.StartOfBlock MoveMode.MoveAnchor
      let cursor := cursor.movePosition L s.doc MoveOperation.EndOfBlock MoveMode.KeepAnchor
      let e1 := removeSelectedText s.doc cursor
      let e2 := deleteChar e1.doc e1.cursor
      { s with doc := e2.doc, cursor := e2.cursor }
    else
      let cursor := cursor.movePosition L s.doc MoveOperation.NoMove MoveMode.MoveAnchor
      let cursor := cursor.movePosition L s.doc MoveOperation.EndOfBlock MoveMode.KeepAnchor
      let e := removeSelectedText s.doc cursor
      { s with doc := e.doc, cursor := e.cursor }

/-- Translation of `TextEditor::killCurrentLine`. -/
def killCurrentLine (L : Layout) (s : TextEditor) : TextEditor :=
  let (unset, s) := tryUnsetMark s
  if unset then s
  else
    let cursor := s.cursor
    let cursor := cursor.movePosition L s.doc MoveOperation.StartOfBlock MoveMode.MoveAnchor
    let cursor := cursor.movePosition L s.doc MoveOperation.EndOfBlock MoveMode.KeepAnchor
    let text := selectedText s.doc cursor
    let isBlankLine := (trimmed text).length == 0
    let e1 := removeSelectedText s.doc cursor
    let e2 := if isBlankLine then deleteChar e1.doc e1.cursor else e1
    { s with doc := e2.doc, cursor := e2.cursor }


/-- Translation of `TextEditor::moveLineDownUp`. -/
def moveLineDownUp (L : Layout) (up : Bool) (s : TextEditor) : TextEditor :=
  let cursor := s.cursor
  let move := cursor
  let hasSelection := cursor.hasSelection
  let move :=
    if hasSelection then
      let move := move.setPosition s.doc cursor.selectionStart MoveMode.MoveAnchor
      let move := move.movePosition L s.doc MoveOperation.StartOfBlock MoveMode.MoveAnchor
      let move := move.setPosition s.doc cursor.selectionEnd MoveMode.KeepAnchor
      move.movePosition L s.doc
        (if move.atBlockStart s.doc then MoveOperation.Left else MoveOperation.EndOfBlock)
        MoveMode.KeepAnchor
    else
      let move := move.movePosition L s.doc MoveOperation.StartOfBlock MoveMode.MoveAnchor
      move.movePosition L s.doc MoveOperation.EndOfBlock MoveMode.KeepAnchor
  let text := selectedText s.doc move
  let move := move.movePosition L s.doc MoveOperation.Right MoveMode.KeepAnchor
  let e1 := removeSelectedText s.doc move
  let e2 : Edit :=
    if up then
      let move := e1.cursor.movePosition L e1.doc MoveOperation.PreviousBlock MoveMode.MoveAnchor
      let e := insertBlock e1.doc move
      { e with cursor := e.cursor.movePosition L e.doc MoveOperation.Left MoveMode.MoveAnchor }
    else
      let move := e1.cursor.movePosition L e1.doc MoveOperation.EndOfBlock MoveMode.MoveAnchor
      if move.atBlockStart e1.doc then
        let move := move.movePosition L e1.doc MoveOperation.NextBlock MoveMode.MoveAnchor
        let e := insertBlock e1.doc move
        { e with cursor := e.cursor.movePosition L e.doc MoveOperation.Left MoveMode.MoveAnchor }
      else
        insertBlock e1.doc move
  let start := e2.cursor.position
  let move := e2.cursor.clearSelection
  let e3 := insertText e2.doc move text
  let endPos := e3.cursor.position
  let move :=
    if hasSelection then
      (e3.cursor.setPosition e3.doc endPos MoveMode.MoveAnchor).setPosition e3.doc start
        MoveMode.KeepAnchor
    else
      e3.cursor.setPosition e3.doc start MoveMode.MoveAnchor
  { s with doc := e3.doc, cursor := move }

/-- The `while (block != end)` loop of `indentText`, blocks named by their numbers: it
runs for `block`, `block + 1`, ... and the fuel is the number of blocks up to `end`.
The result is the new text and the changes made. -/
def indentLoop (spaces : List Char) :
    Nat → Nat → List Char → QTextCursor → List Change → List Char × List Change
  | 0, _, doc, _, chs => (doc, chs)
  | fuel + 1, block, doc, cursor, chs =>
    let cursor := cursor.setPosition doc (blockPosition doc block) MoveMode.MoveAnchor
    let e := insertText doc cursor spaces
    indentLoop spaces fuel (block + 1) e.doc e.cursor (chs ++ e.changes)

/-- Translation of `TextEditor::indentText`; the tab width `m_tabSpaceNumber` is a
parameter. The edits go through a copy of the text cursor, which the widget's cursor
follows. -/
def indentText (m_tabSpaceNumber : Nat) (s : TextEditor) : TextEditor :=
  let s := (tryUnsetMark s).2
  let cursor := s.cursor
  if cursor.hasSelection then
    let block := findBlock s.doc cursor.selectionStart
    let endBlock := findBlock s.doc cursor.selectionEnd + 1
    let r := indentLoop (List.replicate m_tabSpaceNumber spaceChar) (endBlock - block) block s.doc
      cursor []
    { s with doc := r.1, cursor := s.cursor.adjust r.2 }
  else
    let indent := m_tabSpaceNumber - ((cursor.position - blockStart s.doc cursor.position) %
      m_tabSpaceNumber)
    let e := insertText s.doc cursor (List.replicate indent spaceChar)
    { s with doc := e.doc, cursor := s.cursor.adjust e.changes }

/-- The inner `while` loop of `unindentText`: deletes spaces at the cursor while
`pos < m_tabSpaceNumber`; the fuel is `m_tabSpaceNumber - pos`. -/
def unindentSpaces : Nat → List Char → QTextCursor → List Change → List Char × List Change
  | 0, doc, _, chs => (doc, chs)
  | fuel + 1, doc, cursor, chs =>
    if characterAt doc cursor.position = spaceChar then
      let e := deleteChar doc cursor
      unindentSpaces fuel e.doc e.cursor (chs ++ e.changes)
    else (doc, chs)

/-- The `while (block != end)` loop of `unindentText`, blocks named by their numbers. -/
def unindentLoop (m_tabSpaceNumber : Nat) :
    Nat → Nat → List Char → QTextCursor → List Change → List Char × List Change
  | 0, _, doc, _, chs => (doc, chs)
  | fuel + 1, block, doc, cursor, chs =>
    let cursor := cursor.setPosition doc (blockPosition doc block) MoveMode.MoveAnchor
    if characterAt doc cursor.position = tabChar then
      let e := deleteChar doc cursor
      unindentLoop m_tabSpaceNumber fuel (block + 1) e.doc e.cursor (chs ++ e.changes)
    else
      let r := unindentSpaces m_tabSpaceNumber doc cursor chs
      unindentLoop m_tabSpaceNumber fuel (block + 1) r.1 cursor r.2

/-- Translation of `TextEditor::unindentText`; the tab width `m_tabSpaceNumber` is a
parameter. -/
def unindentText (m_tabSpaceNumber : Nat) (s : TextEditor) : TextEditor :=
  let s := (tryUnsetMark s).2
  let cursor := s.cursor
  let block :=
    if cursor.hasSelection then findBlock s.doc cursor.selectionStart
    else findBlock s.doc cursor.position
  let endBlock :=
    if cursor.hasSelection then findBlock s.doc cursor.selectionEnd + 1
    else findBlock s.doc cursor.position + 1
  let r := unindentLoop m_tabSpaceNumber (endBlock - block) block s.doc cursor []
  { s with doc := r.1, cursor := s.cursor.adjust r.2 }

/-- The `for` loop of `capitalizeText` over the lowercased text: the first character
that is neither whitespace nor a word separator is replaced by its upper case and the
loop stops. -/
def capitalizeLoop (K : CaseMap) (m_wordSepartors : List Char) : List Char → List Char
  | [] => []
  | currentChar :: rest =>
    if !isSpace currentChar && !m_wordSepartors.contains currentChar then
      K.toUpperChar currentChar :: rest
    else currentChar :: capitalizeLoop K m_wordSepartors rest

/-- Translation of `TextEditor::capitalizeText`; the field `m_wordSepartors` is a
parameter. -/
def capitalizeText (K : CaseMap) (m_wordSepartors : List Char) (text : List Char) :
    List Char :=
  let newText := K.toLower text
  capitalizeLoop K m_wordSepartors newText

/-- Translation of `TextEditor::transposeChar`. -/
def transposeChar (L : Layout) (s : TextEditor) : TextEditor :=
  let s := (tryUnsetMark s).2
  let cursor := s.cursor
  let cursor := cursor.clearSelection
  let cursor := cursor.movePosition L s.doc MoveOperation.NextCharacter MoveMode.KeepAnchor
  let nextChar := selectedText s.doc cursor
  let e1 := removeSelectedText s.doc cursor
  let cursor := e1.cursor.movePosition L e1.doc MoveOperation.PreviousCharacter MoveMode.KeepAnchor
  let prevChar := selectedText e1.doc cursor
  let e2 := removeSelectedText e1.doc cursor
  let e3 := insertText e2.doc e2.cursor nextChar
  let e4 := insertText e3.doc e3.cursor prevChar
  let cursor :=
    if !nextChar.isEmpty then
      e4.cursor.movePosition L e4.doc MoveOperation.PreviousCharacter MoveMode.MoveAnchor
    else e4.cursor
  { s with doc := e4.doc, cursor := cursor }

/-- Translation of `TextEditor::jumpToLine` (cursor part): the text cursor goes to the
start of block `line - 1`, or to offset 0 when there is no such block. -/
def jumpToLine (line : Nat) (s : TextEditor) : TextEditor :=
  { s with cursor := { anchor := blockPosition s.doc (line - 1),
                       position := blockPosition s.doc (line - 1) } }

/-- The `while (!cursor.isNull())` loop of `updateKeywordSelections`: every found
cursor is appended and the search goes on behind it. -/
def keywordLoop (K : CaseMap) (flags : Nat) (doc keyword : List Char) :
    Nat → Option QTextCursor → List QTextCursor → List QTextCursor
  | _, none, acc => acc
  | 0, some _, acc => acc
  | fuel + 1, some cursor, acc =>
    keywordLoop K flags doc keyword fuel (findString K flags doc keyword cursor) (acc ++ [cursor])

/-- Translation of `TextEditor::updateKeywordSelections`: the new content of
`m_keywordSelections`. The flags are computed as in the source, `flags &= ...` on the
empty flag set. A match is at least one character long and the search goes on behind
it, so the loop runs at most `length` times, which is the fuel. -/
def updateKeywordSelections (K : CaseMap) (keyword : List Char) (doc : List Char) :
    List QTextCursor :=
  if !keyword.isEmpty then
    let cursor : QTextCursor := { anchor := 0, position := 0 }
    let flags := (0 : Nat) &&& FindCaseSensitively
    let cursor := findString K flags doc keyword cursor
    keywordLoop K flags doc keyword doc.length cursor []
  else []

/-- The forward `for` loop of `setCursorKeywordSeletoin` over the keyword selections
from index `i` on. -/
def selectNextKeyword (position : Nat) (s : TextEditor) (k : SearchState) :
    List QTextCursor → Bool × TextEditor × SearchState
  | [] => (false, s, k)
  | m :: rest =>
    if m.position > position then
      let k := { k with m_cursorKeywordSelection := m }
      let s := jumpToLine (findBlock s.doc m.position + 3) s
      let cursor := s.cursor.setPosition s.doc m.position MoveMode.MoveAnchor
      (true, { s with cursor := cursor }, k)
    else selectNextKeyword position s k rest

/-- The backward `for` loop of `setCursorKeywordSeletoin`, over the keyword selections
in reverse order. -/
def selectPrevKeyword (position : Nat) (s : TextEditor) (k : SearchState) :
    List QTextCursor → Bool × TextEditor × SearchState
  | [] => (false, s, k)
  | m :: rest =>
    if m.position < position then
      let k := { k with m_cursorKeywordSelection := m }
      let s := jumpToLine (findBlock s.doc m.position + 3) s
      let cursor := s.cursor.setPosition s.doc m.position MoveMode.MoveAnchor
      (true, { s with cursor := cursor }, k)
    else selectPrevKeyword position s k rest

/-- Translation of `TextEditor::setCursorKeywordSeletoin`: the returned flag and the
new state. -/
def setCursorKeywordSeletoin (position : Nat) (findNext : Bool) (s : TextEditor)
    (k : SearchState) : Bool × TextEditor × SearchState :=
  if findNext then selectNextKeyword position s k k.m_keywordSelections
  else selectPrevKeyword position s k k.m_keywordSelections.reverse

/-- Translation of `TextEditor::getPosition`. -/
def getPosition (s : TextEditor) : Nat := s.cursor.position

/-- Translation of `TextEditor::getCurrentLine`. -/
def getCurrentLine (s : TextEditor) : Nat := findBlock s.doc s.cursor.position + 1

/-- Translation of `TextEditor::updateCursorKeywordSelection`. -/
def updateCursorKeywordSelection (L : Layout) (position : Nat) (findNext : Bool)
    (s : TextEditor) (k : SearchState) : TextEditor × SearchState :=
  let r := setCursorKeywordSeletoin position findNext s k
  let findOne := r.1
  if !findOne then
    if findNext then
      let r2 := setCursorKeywordSeletoin 0 findNext r.2.1 r.2.2
      if !r2.1 then
        (r2.2.1, { m_cursorKeywordSelection := r2.2.1.cursor, m_keywordSelections := [] })
      else (r2.2.1, r2.2.2)
    else
      let cursor := r.2.1.cursor
      let cursor := cursor.movePosition L r.2.1.doc MoveOperation.End MoveMode.MoveAnchor
      let k1 := { r.2.2 with
        m_cursorKeywordSelection := r.2.2.m_cursorKeywordSelection.clearSelection }
      let r2 := setCursorKeywordSeletoin cursor.position findNext r.2.1 k1
      (r2.2.1, r2.2.2)
  else (r.2.1, r.2.2)

/-- Translation of `TextEditor::highlightKeyword` (the selections it computes; the
rendering is left out). -/
def highlightKeyword (K : CaseMap) (L : Layout) (keyword : List Char) (position : Nat)
    (s : TextEditor) (k : SearchState) : TextEditor × SearchState :=
  let k := { k with m_keywordSelections := updateKeywordSelections K keyword s.doc }
  updateCursorKeywordSelection L position true s k

/-- Translation of `TextEditor::removeKeywords` (the search fields). -/
def removeKeywords (s : TextEditor) : SearchState :=
  { m_cursorKeywordSelection := s.cursor.clearSelection, m_keywordSelections := [] }

/-- Translation of `TextEditor::replaceNext`. The offset
`m_cursorKeywordSelection.cursor.position() - replaceText.size()` is a C++ `int`; a
negative one is out of range and `setPosition` ignores it. The search cursors are live
and follow the insertion. -/
def replaceNext (K : CaseMap) (L : Layout) (replaceText withText : List Char)
    (s : TextEditor) (k : SearchState) : TextEditor × SearchState :=
  if replaceText.isEmpty || !k.m_cursorKeywordSelection.hasSelection then
    highlightKeyword K L replaceText (getPosition s) s k
  else
    let cursor := s.cursor
    let cursor :=
      if k.m_cursorKeywordSelection.position < replaceText.length then cursor
      else cursor.setPosition s.doc (k.m_cursorKeywordSelection.position - replaceText.length)
        MoveMode.MoveAnchor
    let cursor := cursor.movePosition L s.doc MoveOperation.NoMove MoveMode.MoveAnchor
    let cursor := cursor.movePositionN L s.doc MoveOperation.NextCharacter MoveMode.KeepAnchor
      replaceText.length
    let e := insertText s.doc cursor withText
    let k := { m_keywordSelections := k.m_keywordSelections.map (fun c => c.adjust e.changes),
               m_cursorKeywordSelection := k.m_cursorKeywordSelection.adjust e.changes }
    let s := { s with doc := e.doc, cursor := e.cursor }
    highlightKeyword K L replaceText (getPosition s) s k

/-- The `while (1)` loop of `replaceAll` and `replaceRest`: one unit of fuel for every
call of `find`; `none` when the fuel runs out before `find` answers the null cursor.
The result is the new text and the changes made. -/
def replaceLoop (K : CaseMap) (flags : Nat) (replaceText withText : List Char) :
    Nat → List Char → QTextCursor → List Change → Option (List Char × List Change)
  | 0, _, _, _ => none
  | fuel + 1, doc, cursor, chs =>
    match findString K flags doc replaceText cursor with
    | some cursor =>
      let e := insertText doc cursor withText
      replaceLoop K flags replaceText withText fuel e.doc e.cursor (chs ++ e.changes)
    | none => some (doc, chs)

/-- Translation of `TextEditor::replaceAll`, the loop run with `fuel`. The flags are
computed as in the source; `startCursor` is a copy of the text cursor that follows the
edits and becomes the text cursor. -/
def replaceAll (K : CaseMap) (L : Layout) (fuel : Nat) (replaceText withText : List Char)
    (s : TextEditor) : Option TextEditor :=
  if replaceText.isEmpty then some s
  else
    let flags := (0 : Nat) &&& FindCaseSensitively
    let cursor := s.cursor
    let cursor := cursor.movePosition L s.doc MoveOperation.Start MoveMode.MoveAnchor
    let startCursor := s.cursor
    (replaceLoop K flags replaceText withText fuel s.doc cursor []).map
      (fun r => { s with doc := r.1, cursor := startCursor.adjust r.2 })

/-- Translation of `TextEditor::replaceRest`, the loop run with `fuel`. -/
def replaceRest (K : CaseMap) (fuel : Nat) (replaceText withText : List Char)
    (s : TextEditor) : Option TextEditor :=
  if replaceText.isEmpty then some s
  else
    let flags := (0 : Nat) &&& FindCaseSensitively
    let cursor := s.cursor
    let startCursor := s.cursor
    (replaceLoop K flags replaceText withText fuel s.doc cursor []).map
      (fun r => { s with doc := r.1, cursor := startCursor.adjust r.2 })

/-- Translation of `TextEditor::atWordSeparator`; `none` when the position is outside
the text. The field `m_wordSepartors` is a parameter. -/
def atWordSeparator (m_wordSepartors : List Char) (doc : List Char) (position : Nat) :
    Option Bool :=
  (textAt doc position).map (fun c => m_wordSepartors.contains c)

/-- The first `while` loop of `getNextWordPosition` (current character is a space);
`none` for a read outside the text or when the fuel runs out. -/
def nextWordSpaceLoop (L : Layout) (doc : List Char) (moveMode : MoveMode) :
    Nat → QTextCursor → Char → Option QTextCursor
  | 0, _, _ => none
  | fuel + 1, cursor, currentChar =>
    if cursor.position < doc.length ∧ isSpace currentChar = true then
      let cursor := cursor.movePosition L doc MoveOperation.NextCharacter moveMode
      match textAt doc ((cursor.position : Int) - 1) with
      | none => none
      | some currentChar => nextWordSpaceLoop L doc moveMode fuel cursor currentChar
    else some cursor

/-- The second `while` loop of `getNextWordPosition` (current character is no space);
`none` for a read outside the text or when the fuel runs out. -/
def nextWordLoop (L : Layout) (m_wordSepartors : List Char) (doc : List Char)
    (moveMode : MoveMode) : Nat → QTextCursor → Option QTextCursor
  | 0, _ => none
  | fuel + 1, cursor =>
    if cursor.position < doc.length then
      match atWordSeparator m_wordSepartors doc cursor.position with
      | none => none
      | some true => some cursor
      | some false =>
        nextWordLoop L m_wordSepartors doc moveMode fuel
          (cursor.movePosition L doc MoveOperation.NextCharacter moveMode)
    else some cursor

/-- Translation of `TextEditor::getNextWordPosition`; `none` for a read outside the
text. Every turn of a loop moves the cursor one character towards the end, so
`length + 1` units of fuel are enough. -/
def getNextWordPosition (L : Layout) (m_wordSepartors : List Char) (doc : List Char)
    (cursor : QTextCursor) (moveMode : MoveMode) : Option Nat :=
  if doc.isEmpty then some 0
  else
    let cursor := cursor.movePosition L doc MoveOperation.NextCharacter moveMode
    match textAt doc ((cursor.position : Int) - 1) with
    | none => none
    | some currentChar =>
      if isSpace currentChar then
        (nextWordSpaceLoop L doc moveMode (doc.length + 1) cursor currentChar).map
          (fun c => c.position)
      else
        (nextWordLoop L m_wordSepartors doc moveMode (doc.length + 1) cursor).map
          (fun c => c.position)

/-- Translation of `TextEditor::killBackwardWord`. -/
def killBackwardWord (L : Layout) (s : TextEditor) : TextEditor :=
  let s := (tryUnsetMark s).2
  if s.cursor.hasSelection then
    let e := removeSelectedText s.doc s.cursor
    { s with doc := e.doc, cursor := s.cursor.adjust e.changes }
  else
    let cursor := s.cursor
    let cursor := cursor.movePosition L s.doc MoveOperation.PreviousWord MoveMode.KeepAnchor
    let e := removeSelectedText s.doc cursor
    { s with doc := e.doc, cursor := e.cursor }

/-- Translation of `TextEditor::killForwardWord`. -/
def killForwardWord (L : Layout) (s : TextEditor) : TextEditor :=
  let s := (tryUnsetMark s).2
  if s.cursor.hasSelection then
    let e := removeSelectedText s.doc s.cursor
    { s with doc := e.doc, cursor := s.cursor.adjust e.changes }
  else
    let cursor := s.cursor
    let cursor := cursor.movePosition L s.doc MoveOperation.NextWord MoveMode.KeepAnchor
    let e := removeSelectedText s.doc cursor
    { s with doc := e.doc, cursor := e.cursor }

/-- Translation of `TextEditor::convertWordCase`; `none` when `getNextWordPosition`
reads outside the text. -/
def convertWordCase (K : CaseMap) (L : Layout) (m_wordSepartors : List Char)
    (convertCase : ConvertCase) (s : TextEditor) (w : WordState) :
    Option (TextEditor × WordState) :=
  let convert := fun (text : List Char) =>
    match convertCase with
    | ConvertCase.UPPER => K.toUpper text
    | ConvertCase.LOWER => K.toLower text
    | ConvertCase.CAPITALIZE => capitalizeText K m_wordSepartors text
  if s.cursor.hasSelection then
    let text := selectedText s.doc s.cursor
    let e := insertText s.doc s.cursor (convert text)
    some ({ s with doc := e.doc, cursor := s.cursor.adjust e.changes },
      { w with m_wordUnderPointerCursor := w.m_wordUnderPointerCursor.adjust e.changes })
  else
    let s := if w.m_haveWordUnderCursor then { s with cursor := w.m_wordUnderPointerCursor } else s
    let cursor := s.cursor
    let cursor := cursor.movePosition L s.doc MoveOperation.NoMove MoveMode.MoveAnchor
    match getNextWordPosition L m_wordSepartors s.doc cursor MoveMode.KeepAnchor with
    | none => none
    | some q =>
      let cursor := cursor.setPosition s.doc q MoveMode.KeepAnchor
      let text := selectedText s.doc cursor
      let e := insertText s.doc cursor (convert text)
      some ({ s with doc := e.doc, cursor := e.cursor },
        { m_haveWordUnderCursor := false,
          m_wordUnderPointerCursor := w.m_wordUnderPointerCursor.adjust e.changes })

/-- Translation of `TextEditor::upcaseWord`. -/
def upcaseWord (K : CaseMap) (L : Layout) (m_wordSepartors : List Char) (s : TextEditor)
    (w : WordState) : Option (TextEditor × WordState) :=
  convertWordCase K L m_wordSepartors ConvertCase.UPPER (tryUnsetMark s).2 w

/-- Translation of `TextEditor::downcaseWord`. -/
def downcaseWord (K : CaseMap) (L : Layout) (m_wordSepartors : List Char) (s : TextEditor)
    (w : WordState) : Option (TextEditor × WordState) :=
  convertWordCase K L m_wordSepartors ConvertCase.LOWER (tryUnsetMark s).2 w

/-- Translation of `TextEditor::capitalizeWord`. -/
def capitalizeWord (K : CaseMap) (L : Layout) (m_wordSepartors : List Char) (s : TextEditor)
    (w : WordState) : Option (TextEditor × WordState) :=
  convertWordCase K L m_wordSepartors ConvertCase.CAPITALIZE (tryUnsetMark s).2 w

/-- Model of `QAbstractSlider::setValue` on the vertical scroll bar: the value is
bounded by 0 and the maximum. -/
def scrollBarSetValue (V : Viewport) (value : Int) : Nat :=
  min value.toNat V.scrollMaximum

/-- Translation of `TextEditor::scrollLineUp` (the text cursor; the scroll bar belongs
to the viewport). -/
def scrollLineUp (L : Layout) (V : Viewport) (s : TextEditor) : TextEditor :=
  let value := scrollBarSetValue V ((V.scrollValue : Int) - 1)
  if V.cursorBelowView value s.cursor.position then
    let moveMode := if s.m_cursorMark then MoveMode.KeepAnchor else MoveMode.MoveAnchor
    let cursor := s.cursor
    let cursor := cursor.movePosition L s.doc MoveOperation.Up moveMode
    { s with cursor := cursor }
  else s

/-- Translation of `TextEditor::scrollLineDown`. -/
def scrollLineDown (L : Layout) (V : Viewport) (s : TextEditor) : TextEditor :=
  let value := scrollBarSetValue V ((V.scrollValue : Int) + 1)
  if V.cursorAboveView value s.cursor.position then
    let moveMode := if s.m_cursorMark then MoveMode.KeepAnchor else MoveMode.MoveAnchor
    let cursor := s.cursor
    let cursor := cursor.movePosition L s.doc MoveOperation.Down moveMode
    { s with cursor := cursor }
  else s

/-- Translation of `TextEditor::scrollUp`. The cursor built on an invalid block is
null, its position is out of range and `setPosition` ignores it. -/
def scrollUp (V : Viewport) (s : TextEditor) : TextEditor :=
  let lines := V.pageLines
  let value := scrollBarSetValue V ((V.scrollValue : Int) + lines)
  if value ≥ getCurrentLine s then
    let moveMode := if s.m_cursorMark then MoveMode.KeepAnchor else MoveMode.MoveAnchor
    let line := value
    match V.lineCursorPosition ((line : Int) - 1) with
    | none => s
    | some p => { s with cursor := s.cursor.setPosition s.doc p moveMode }
  else s

/-- Translation of `TextEditor::scrollDown`. -/
def scrollDown (V : Viewport) (s : TextEditor) : TextEditor :=
  let lines := V.pageLines
  let value := scrollBarSetValue V ((V.scrollValue : Int) - lines)
  let moveMode := if s.m_cursorMark then MoveMode.KeepAnchor else MoveMode.MoveAnchor
  let line := value + lines
  match V.lineCursorPosition ((line : Int) - 1) with
  | none => s
  | some p => { s with cursor := s.cursor.setPosition s.doc p moveMode }

/-- Translation of `TextEditor::copyLines`. -/
def copyLines (L : Layout) (s : TextEditor) : TextEditor :=
  let currentCursor := s.cursor
  let copyCursor := s.cursor
  let copyCursor :=
    if s.cursor.hasSelection then
      let startPos := s.cursor.anchor
      let endPos := s.cursor.position
      let startPos2 := if startPos > endPos then endPos else startPos
      let endPos2 := if startPos > endPos then startPos else endPos
      let startCursor := s.cursor
      let startCursor := startCursor.setPosition s.doc startPos2 MoveMode.MoveAnchor
      let startCursor :=
        startCursor.movePosition L s.doc MoveOperation.StartOfBlock MoveMode.MoveAnchor
      let endCursor := s.cursor
      let endCursor := endCursor.setPosition s.doc endPos2 MoveMode.MoveAnchor
      let endCursor := endCursor.movePosition L s.doc MoveOperation.EndOfBlock MoveMode.MoveAnchor
      let copyCursor := copyCursor.setPosition s.doc startCursor.position MoveMode.MoveAnchor
      copyCursor.setPosition s.doc endCursor.position MoveMode.KeepAnchor
    else
      let copyCursor :=
        copyCursor.movePosition L s.doc MoveOperation.StartOfBlock MoveMode.MoveAnchor
      copyCursor.movePosition L s.doc MoveOperation.EndOfBlock MoveMode.KeepAnchor
  let s := { s with cursor := copyCursor }
  let s := copySelectedText s
  let copyCursor := copyCursor.setPosition s.doc currentCursor.position MoveMode.MoveAnchor
  { s with cursor := copyCursor }

/-- Translation of `TextEditor::toggleReadOnlyMode`: the new value of
`m_readOnlyMode`. -/
def toggleReadOnlyMode (m_readOnlyMode : Bool) : Bool :=
  if m_readOnlyMode then false else true

/-- Translation of the `if (m_readOnlyMode)` branch of `TextEditor::keyPressEvent`,
which runs when `m_readOnlyMode` is `true`: the key string that
`Utils::getKeyshortcut` resolved is compared with the fixed table and with the keymap
entry `togglereadonlymode`; a key that matches nothing is dropped. The result is the
editor state and the new value of `m_readOnlyMode`. -/
def keyPressEventReadOnly (L : Layout) (V : Viewport) (togglereadonlymode : String)
    (key : String) (s : TextEditor) : TextEditor × Bool :=
  if key = "J" then (nextLine L s, true)
  else if key = "K" then (prevLine L s, true)
  else if key = "," then (moveToEnd L s, true)
  else if key = "." then (moveToStart L s, true)
  else if key = "H" then (backwardChar L s, true)
  else if key = "L" then (forwardChar L s, true)
  else if key = "Space" then (scrollUp V s, true)
  else if key = "V" then (scrollDown V s, true)
  else if key = "F" then (forwardWord L s, true)
  else if key = "B" then (backwardWord L s, true)
  else if key = "A" then (moveToStartOfLine L s, true)
  else if key = "E" then (moveToEndOfLine L s, true)
  else if key = "M" then (moveToLineIndentation L s, true)
  else if key = "Q" then (s, toggleReadOnlyMode true)
  else if key = "Shfit+J" then (scrollLineUp L V s, true)
  else if key = "Shift+K" then (scrollLineDown L V s, true)
  else if key = "P" then (forwardPair s, true)
  else if key = "N" then (backwardPair L s, true)
  else if key = "Shift+:" then (copyLines L s, true)
  else if key = togglereadonlymode then (s, toggleReadOnlyMode true)
  else (s, true)

/-- Editor state with the text given as a string, for concrete evaluations. -/
def ofText (text : String) (anchor position : Nat) (mark : Bool) : TextEditor :=
  { doc := text.toList, cursor := { anchor := anchor, position := position },
    m_cursorMark := mark }

end TextEditor

/-! ## Theorems -/

/-- C1: `setMark` toggles the mark. From Unset it sets the mark and leaves the cursor
alone; from Set without selection it unsets the mark; from Set with a selection it keeps
the mark Set and moves the anchor onto the active point. The document text and the
active point never change. -/
theorem setMark_toggle (s : TextEditor) :
    (s.m_cursorMark = false →
        (s.setMark).m_cursorMark = true ∧ (s.setMark).cursor = s.cursor) ∧
    (s.m_cursorMark = true → s.cursor.hasSelection = false →
        (s.setMark).m_cursorMark = false) ∧
    (s.m_cursorMark = true → s.cursor.hasSelection = true →
        (s.setMark).m_cursorMark = true ∧
        (s.setMark).cursor.anchor = s.cursor.position ∧
        (s.setMark).cursor.hasSelection = false) ∧
    (s.setMark).doc = s.doc ∧ (s.setMark).cursor.position = s.cursor.position := by
  unfold TextEditor.setMark
  refine ⟨?_, ?_, ?_, ?_, ?_⟩
  · intro h; simp [h]
  · intro h1 h2; simp [h1, h2]
  · intro h1 h2
    simp only [h1, h2, if_true]
    simp [QTextCursor.clearSelection, QTextCursor.hasSelection]
  · split_ifs <;> rfl
  · split_ifs <;> rfl


/-! ### Mark and navigation -/

/-- A `KeepAnchor` move never touches the anchor. -/
theorem movePosition_keepAnchor_anchor (L : Layout) (doc : List Char) (op : MoveOperation)
    (c : QTextCursor) :
    (c.movePosition L doc op MoveMode.KeepAnchor).anchor = c.anchor := by
  unfold QTextCursor.movePosition
  cases QTextCursor.moveTarget L doc op MoveMode.KeepAnchor c <;> rfl

/-- While the mark is set, the simple navigation commands keep anchor and mark. -/
theorem markedMove_keeps_anchor (L : Layout) (op : MoveOperation) (s : TextEditor)
    (h : s.m_cursorMark = true) :
    (TextEditor.markedMove L op s).cursor.anchor = s.cursor.anchor ∧
      (TextEditor.markedMove L op s).m_cursorMark = true := by
  simp [TextEditor.markedMove, h, movePosition_keepAnchor_anchor]

/-- The scanning loop of `moveToLineIndentation` keeps the anchor in `KeepAnchor` mode. -/
theorem indentationLoop_keeps_anchor (L : Layout) (doc : List Char) (fuel : Nat) :
    ∀ c : QTextCursor,
      (TextEditor.indentationLoop L doc MoveMode.KeepAnchor fuel c).anchor = c.anchor := by
  induction fuel with
  | zero => intro c; rfl
  | succ n ih =>
    intro c
    unfold TextEditor.indentationLoop
    by_cases hsp : isSpace (doc.getD (c.position - 1) spaceChar) = true
    · simp only [hsp, Bool.not_true, Bool.false_eq_true, if_false, ih,
        movePosition_keepAnchor_anchor]
    · have hsp2 : isSpace (doc.getD (c.position - 1) spaceChar) = false := by simpa using hsp
      simp only [hsp2, Bool.not_false, if_true, movePosition_keepAnchor_anchor]

/-- While the mark is set, the eleven navigation commands that move through
`movePosition` keep the anchor where it was and leave the mark set. -/
theorem navigation_keeps_anchor (L : Layout) (s : TextEditor) (h : s.m_cursorMark = true) :
    ∀ f ∈ [TextEditor.forwardChar L, TextEditor.backwardChar L, TextEditor.forwardWord L,
        TextEditor.backwardWord L, TextEditor.nextLine L, TextEditor.prevLine L,
        TextEditor.moveToStart L, TextEditor.moveToEnd L, TextEditor.moveToStartOfLine L,
        TextEditor.moveToEndOfLine L, TextEditor.moveToLineIndentation L],
      (f s).cursor.anchor = s.cursor.anchor ∧ (f s).m_cursorMark = true := by
  intro f hf
  simp only [List.mem_cons, List.mem_singleton, List.not_mem_nil, or_false] at hf
  rcases hf with rfl | rfl | rfl | rfl | rfl | rfl | rfl | rfl | rfl | rfl | rfl
  · exact markedMove_keeps_anchor L _ s h
  · exact markedMove_keeps_anchor L _ s h
  · simp [TextEditor.forwardWord, h, movePosition_keepAnchor_anchor]
  · simp [TextEditor.backwardWord, h, movePosition_keepAnchor_anchor]
  · unfold TextEditor.nextLine
    split_ifs
    · exact ⟨rfl, h⟩
    · exact markedMove_keeps_anchor L _ s h
  · unfold TextEditor.prevLine
    split_ifs
    · exact ⟨rfl, h⟩
    · exact markedMove_keeps_anchor L _ s h
  · exact markedMove_keeps_anchor L _ s h
  · exact markedMove_keeps_anchor L _ s h
  · exact markedMove_keeps_anchor L _ s h
  · exact markedMove_keeps_anchor L _ s h
  · simp [TextEditor.moveToLineIndentation, h, indentationLoop_keeps_anchor,
      movePosition_keepAnchor_anchor]

/-- C2: with the mark set and the selection 0..2 of "abc" (active point 2), no
closing delimiter follows, and `forwardPair` leaves the anchor at 2 instead of 0; with
the selection 3..1 (active point 1) no opening delimiter precedes, and `backwardPair`
leaves the anchor at 1 instead of 3. The mark stays set in both cases. When a delimiter
is found ("a)c", "a(c") the same calls keep the anchor. -/
theorem pair_jump_not_found_moves_anchor :
    (TextEditor.ofText "abc" 0 2 true).cursor.anchor = 0 ∧
    (TextEditor.forwardPair (TextEditor.ofText "abc" 0 2 true)).cursor.anchor = 2 ∧
    (TextEditor.forwardPair (TextEditor.ofText "abc" 0 2 true)).m_cursorMark = true ∧
    (TextEditor.ofText "abc" 3 1 true).cursor.anchor = 3 ∧
    (TextEditor.backwardPair plainLayout (TextEditor.ofText "abc" 3 1 true)).cursor.anchor = 1 ∧
    (TextEditor.backwardPair plainLayout (TextEditor.ofText "abc" 3 1 true)).m_cursorMark
      = true ∧
    (TextEditor.forwardPair (TextEditor.ofText "a)c" 0 1 true)).cursor
      = { anchor := 0, position := 2 } ∧
    (TextEditor.backwardPair plainLayout (TextEditor.ofText "a(c" 3 2 true)).cursor
      = { anchor := 3, position := 1 } := by
  decide

/-! ### Destructive operations and the mark -/

/-- Removing the selection leaves a cursor without selection. -/
theorem removeSelectedText_no_selection (doc : List Char) (c : QTextCursor) :
    (removeSelectedText doc c).cursor.hasSelection = false := by
  unfold removeSelectedText
  by_cases h : c.hasSelection = true
  · simp only [h, if_true]
    simp [QTextCursor.hasSelection]
  · simp only [h, if_false]
    simpa using h

/-- A `MoveAnchor` move of a cursor without selection yields a cursor without selection. -/
theorem movePosition_moveAnchor_no_selection (L : Layout) (doc : List Char)
    (op : MoveOperation) (c : QTextCursor) (h : c.hasSelection = false) :
    (c.movePosition L doc op MoveMode.MoveAnchor).hasSelection = false := by
  unfold QTextCursor.movePosition
  cases QTextCursor.moveTarget L doc op MoveMode.MoveAnchor c with
  | none => exact h
  | some q => simp [QTextCursor.hasSelection]

/-- C3 (counterexample): mark set, "ab" fully selected, clipboard without text:
`pasteText` unsets the mark but the selection 0..2 is still there. -/
theorem pasteText_empty_clipboard_keeps_selection :
    (TextEditor.ofText "ab" 0 2 true).m_cursorMark = true ∧
    (TextEditor.pasteText (TextEditor.ofText "ab" 0 2 true)).m_cursorMark = false ∧
    (TextEditor.pasteText (TextEditor.ofText "ab" 0 2 true)).cursor.hasSelection = true := by
  decide

/-- C3 (amended): from every state with the mark set, `newline`, `openNewlineAbove`,
`openNewlineBelow` and `cutSelectedText` end with the mark unset and no selection;
`pasteText` ends with the mark unset, and with no selection whenever the clipboard
holds a non-empty text. -/
theorem destructive_ops_unset_mark (L : Layout) (s : TextEditor)
    (h : s.m_cursorMark = true) :
    ((TextEditor.newline s).m_cursorMark = false ∧
        (TextEditor.newline s).cursor.hasSelection = false) ∧
    ((TextEditor.openNewlineAbove L s).m_cursorMark = false ∧
        (TextEditor.openNewlineAbove L s).cursor.hasSelection = false) ∧
    ((TextEditor.openNewlineBelow L s).m_cursorMark = false ∧
        (TextEditor.openNewlineBelow L s).cursor.hasSelection = false) ∧
    ((TextEditor.cutSelectedText s).m_cursorMark = false ∧
        (TextEditor.cutSelectedText s).cursor.hasSelection = false) ∧
    ((TextEditor.pasteText s).m_cursorMark = false ∧
        ∀ t, s.clipboard = some t → t ≠ [] →
          (TextEditor.pasteText s).cursor.hasSelection = false) := by
  refine ⟨⟨?_, ?_⟩, ⟨?_, ?_⟩, ⟨?_, ?_⟩, ⟨?_, ?_⟩, ?_, ?_⟩
  · simp [TextEditor.newline, TextEditor.tryUnsetMark, TextEditor.unsetMark, h]
  · simp [TextEditor.newline, insertText, QTextCursor.hasSelection]
  · simp [TextEditor.openNewlineAbove, TextEditor.tryUnsetMark, TextEditor.unsetMark, h]
  · simp only [TextEditor.openNewlineAbove]
    apply movePosition_moveAnchor_no_selection
    simp [insertText, QTextCursor.hasSelection]
  · simp [TextEditor.openNewlineBelow, TextEditor.tryUnsetMark, TextEditor.unsetMark, h,
      TextEditor.moveCursorNoBlink]
  · have hm : ∀ c : QTextCursor, c.hasSelection = false →
        (c.adjust (insertText s.doc c [newlineChar]).changes).hasSelection = false := by
      intro c hc
      have hc2 : c.anchor = c.position := by simpa [QTextCursor.hasSelection] using hc
      simp [insertText, removeSelectedText, hc, QTextCursor.adjust, QTextCursor.hasSelection,
        hc2]
    simp only [TextEditor.openNewlineBelow, TextEditor.tryUnsetMark, TextEditor.unsetMark, h,
      TextEditor.moveCursorNoBlink, if_true]
    apply hm
    apply movePosition_moveAnchor_no_selection
    simp [QTextCursor.clearSelection, QTextCursor.hasSelection]
  · simp [TextEditor.cutSelectedText, TextEditor.unsetMark]
  · simp [TextEditor.cutSelectedText, TextEditor.unsetMark, removeSelectedText_no_selection]
  · simp [TextEditor.pasteText, TextEditor.unsetMark]
  · intro t ht hne
    simp [TextEditor.pasteText, TextEditor.unsetMark, TextEditor.paste, ht, hne, insertText,
      QTextCursor.hasSelection]

/-- C3 (witness): the amended statement at "ab" fully selected with the mark set and
the text "x" on the clipboard. -/
theorem destructive_ops_unset_mark_witness :
    ({ TextEditor.ofText "ab" 0 2 true with clipboard := some [Char.ofNat 120] } :
        TextEditor).m_cursorMark = true ∧
    (TextEditor.pasteText
        { TextEditor.ofText "ab" 0 2 true with clipboard := some [Char.ofNat 120] }
      ).cursor.hasSelection = false :=
  ⟨by decide,
    (destructive_ops_unset_mark plainLayout
      { TextEditor.ofText "ab" 0 2 true with clipboard := some [Char.ofNat 120] }
      (by decide)).2.2.2.2.2 [Char.ofNat 120] (by decide) (by decide)⟩

/-! ### Lines and blocks -/

/-- Moving the line breaks from the front of each line to its back. -/
theorem textAfter_snoc (pre : List (List Char)) :
    textAfter pre ++ [newlineChar] = newlineChar :: textBefore pre := by
  induction pre with
  | nil => rfl
  | cons a pre ih =>
    simp only [textAfter, textBefore, List.map_cons, List.flatten_cons, List.cons_append,
      List.append_assoc] at ih ⊢
    rw [ih]
    simp

/-- Text of a document split at a line: lines before, the line, lines after. -/
theorem joinLn_split (pre post : List (List Char)) (ln : List Char) :
    joinLn (pre ++ ln :: post) = textBefore pre ++ ln ++ textAfter post := by
  cases pre with
  | nil => simp [joinLn, textBefore, textAfter]
  | cons a pre =>
    have h := textAfter_snoc pre
    simp only [List.cons_append, joinLn]
    change a ++ textAfter (pre ++ ln :: post) = textBefore (a :: pre) ++ ln ++ textAfter post
    have h1 : textAfter (pre ++ ln :: post) = textAfter pre ++ (newlineChar :: ln ++ textAfter post) := by
      simp [textAfter]
    have h2 : textBefore (a :: pre) = a ++ newlineChar :: textBefore pre := by
      simp [textBefore]
    rw [h1, h2, ← h]
    simp

/-- The text before a line is as long as the offset of that line. -/
theorem textBefore_length (pre : List (List Char)) :
    (textBefore pre).length = lineOffset pre := by
  induction pre with
  | nil => rfl
  | cons a pre ih =>
    simp only [textBefore, lineOffset, List.map_cons, List.flatten_cons, List.length_append,
      List.length_singleton, List.sum_cons, List.length_cons, List.length_nil] at ih ⊢
    omega

/-- A new line starts after the text before a line. -/
theorem textBefore_startsLine (pre : List (List Char)) : StartsLine (textBefore pre) := by
  induction pre using List.reverseRecOn with
  | nil => exact Or.inl rfl
  | append_singleton pre a _ =>
    right
    refine ⟨textBefore pre ++ a, ?_⟩
    simp [textBefore]

/-- A line ends before the text after a line. -/
theorem textAfter_endsLine (post : List (List Char)) : EndsLine (textAfter post) := by
  cases post with
  | nil => exact Or.inl rfl
  | cons a post => exact Or.inr ⟨a ++ textAfter post, by simp [textAfter]⟩

/-- Block start of a position on a line whose start is known. -/
theorem blockStart_on_line (a l1 r : List Char) (ha : StartsLine a) (hl : IsLine l1) :
    blockStart (a ++ l1 ++ r) (a.length + l1.length) = a.length := by
  have htake : (a ++ l1 ++ r).take (a.length + l1.length) = a ++ l1 := by
    rw [← List.length_append]
    exact List.take_left' rfl
  have hall : ∀ c ∈ l1.reverse, (c != newlineChar) = true := by
    intro c hc
    have hc2 : c ∈ l1 := List.mem_reverse.mp hc
    simp only [bne_iff_ne, ne_eq]
    rintro rfl
    exact hl hc2
  have hA : (a.reverse).takeWhile (fun c => c != newlineChar) = [] := by
    rcases ha with rfl | ⟨b, rfl⟩
    · rfl
    · simp
  unfold blockStart
  rw [htake, List.reverse_append, List.takeWhile_append_of_pos hall, hA]
  simp

/-- Block end of a position on a line whose end is known. -/
theorem blockEnd_on_line (x l2 t : List Char) (hl : IsLine l2) (ht : EndsLine t) :
    blockEnd (x ++ l2 ++ t) x.length = x.length + l2.length := by
  have hdrop : (x ++ l2 ++ t).drop x.length = l2 ++ t := by
    rw [List.append_assoc]
    exact List.drop_left' rfl
  have hall : ∀ c ∈ l2, (c != newlineChar) = true := by
    intro c hc
    simp only [bne_iff_ne, ne_eq]
    rintro rfl
    exact hl hc
  have hT : t.takeWhile (fun c => c != newlineChar) = [] := by
    rcases ht with rfl | ⟨u, rfl⟩
    · rfl
    · simp
  unfold blockEnd
  rw [hdrop, List.takeWhile_append_of_pos hall, hT]
  simp

/-! ### Cursor moves used by the line operations -/

/-- Effect of `StartOfBlock` with `MoveAnchor`. -/
theorem movePosition_startOfBlock (L : Layout) (doc : List Char) (c : QTextCursor) :
    c.movePosition L doc MoveOperation.StartOfBlock MoveMode.MoveAnchor =
      { anchor := blockStart doc c.position, position := blockStart doc c.position } := rfl

/-- Effect of `EndOfBlock` with `MoveAnchor`. -/
theorem movePosition_endOfBlock (L : Layout) (doc : List Char) (c : QTextCursor) :
    c.movePosition L doc MoveOperation.EndOfBlock MoveMode.MoveAnchor =
      { anchor := blockEnd doc c.position, position := blockEnd doc c.position } := rfl

/-- Effect of `EndOfBlock` with `KeepAnchor`. -/
theorem movePosition_endOfBlock_keep (L : Layout) (doc : List Char) (c : QTextCursor) :
    c.movePosition L doc MoveOperation.EndOfBlock MoveMode.KeepAnchor =
      { anchor := c.anchor, position := blockEnd doc c.position } := rfl

/-- The selected text of a line is the line itself. -/
theorem selectedText_line (a l t : List Char) (hl : IsLine l) :
    selectedText (a ++ l ++ t) { anchor := a.length, position := a.length + l.length } = l := by
  have h1 : (a ++ l ++ t).drop a.length = l ++ t := by
    rw [List.append_assoc]; exact List.drop_left' rfl
  simp only [selectedText, QTextCursor.selectionStart, QTextCursor.selectionEnd]
  rw [Nat.min_eq_left (Nat.le_add_right _ _), Nat.max_eq_right (Nat.le_add_right _ _), h1,
    Nat.add_sub_cancel_left, List.take_left' rfl]
  conv_rhs => rw [← List.map_id l]
  apply List.map_congr_left
  intro c hc
  have : c ≠ newlineChar := by rintro rfl; exact hl hc
  simp [this]

/-- Blank text trims to nothing, and only blank text does. -/
theorem trimmed_length_eq_zero (t : List Char) :
    ((trimmed t).length == 0) = isBlank t := by
  unfold trimmed isBlank
  by_cases h : t.all isSpace = true
  · have h1 : t.dropWhile isSpace = [] := by
      rw [List.dropWhile_eq_nil_iff]
      intro c hc
      exact (List.all_eq_true.mp h) c hc
    simp [h1, h]
  · have h2 : t.dropWhile isSpace ≠ [] := by
      intro h1
      rw [List.dropWhile_eq_nil_iff] at h1
      exact h (List.all_eq_true.mpr h1)
    obtain ⟨x, xs, hx⟩ := List.exists_cons_of_ne_nil h2
    have hxns : isSpace x = false := by
      have := List.head_dropWhile_not isSpace t h2
      simpa [hx] using this
    have h3 : (t.dropWhile isSpace).reverse.dropWhile isSpace ≠ [] := by
      rw [hx]
      intro h4
      rw [List.dropWhile_eq_nil_iff] at h4
      have := h4 x (by simp)
      simp [hxns] at this
    have h5 : t.all isSpace = false := by simpa using h
    rw [h5]
    simpa using h3

/-! ### Editing primitives on a document split at the cursor -/

/-- Removing the span `m` selected between `a` and `t`. -/
theorem removeSelectedText_span (a m t : List Char) :
    (removeSelectedText (a ++ m ++ t)
        { anchor := a.length, position := a.length + m.length }).doc = a ++ t ∧
    (removeSelectedText (a ++ m ++ t)
        { anchor := a.length, position := a.length + m.length }).cursor =
      { anchor := a.length, position := a.length } := by
  have h1 : (a ++ m ++ t).take a.length = a := by
    rw [List.append_assoc]; exact List.take_left' rfl
  have h2 : (a ++ m ++ t).drop (a.length + m.length) = t := by
    rw [← List.length_append]; exact List.drop_left' rfl
  by_cases hm : m = []
  · subst hm
    simp [removeSelectedText, QTextCursor.hasSelection]
  · have h3 : (({ anchor := a.length, position := a.length + m.length } : QTextCursor)
        ).hasSelection = true := by
      simp [QTextCursor.hasSelection, hm]
    simp only [removeSelectedText, h3, if_true, QTextCursor.selectionStart,
      QTextCursor.selectionEnd, Nat.min_eq_left (Nat.le_add_right _ _),
      Nat.max_eq_right (Nat.le_add_right _ _), h1, h2, and_self]

/-- Deleting the character behind a cursor without selection. -/
theorem deleteChar_at (a t : List Char) :
    (deleteChar (a ++ t) { anchor := a.length, position := a.length }).doc = a ++ t.drop 1 ∧
    (deleteChar (a ++ t) { anchor := a.length, position := a.length }).cursor =
      { anchor := a.length, position := a.length } := by
  simp only [deleteChar, QTextCursor.hasSelection, bne_self_eq_false, Bool.false_eq_true,
    if_false]
  by_cases hlt : a.length < (a ++ t).length
  · simp only [hlt, if_true, and_true]
    rw [List.take_left' rfl, List.drop_append_eq_append_drop]
    simp
  · simp only [hlt, if_false, and_true]
    have : t = [] := by
      simp only [List.length_append] at hlt
      exact List.length_eq_zero.mp (by omega)
    simp [this]

/-- Text without any of the characters `insertText` rewrites is inserted as it is. -/
theorem normalizeText_id (t : List Char)
    (h : ∀ c ∈ t, c ≠ carriageReturn ∧ c ≠ paragraphSeparator ∧ c ≠ textBeginningOfFrame ∧
      c ≠ textEndOfFrame) : normalizeText t = t := by
  induction t with
  | nil => rfl
  | cons c t ih =>
    have hc := h c (List.mem_cons_self _ _)
    have ht := ih (fun d hd => h d (List.mem_cons_of_mem _ hd))
    unfold normalizeText
    simp only [hc.1, hc.2.1, hc.2.2.1, hc.2.2.2, false_and, if_false, or_false, ht]
    split_ifs with h1
    · rw [h1]
    · rfl

/-- Inserting through a cursor without selection placed between `a` and `t`. -/
theorem insertText_at (a t x : List Char) :
    (insertText (a ++ t) { anchor := a.length, position := a.length } x).doc =
      a ++ normalizeText x ++ t ∧
    (insertText (a ++ t) { anchor := a.length, position := a.length } x).cursor =
      { anchor := a.length + (normalizeText x).length,
        position := a.length + (normalizeText x).length } := by
  simp [insertText, removeSelectedText, QTextCursor.hasSelection]

/-! ### killLine -/

/-- C4 (counterexample): with the mark set and "ab" of "abc" selected, `killLine`
leaves the text "abc" as it is. -/
theorem killLine_marked_selection_keeps_text :
    (TextEditor.ofText "abc" 0 2 true).cursor.hasSelection = true ∧
    (TextEditor.killLine plainLayout (TextEditor.ofText "abc" 0 2 true)).doc = "abc".toList := by
  decide

/-- C4 (amended): with a non-empty selection and the mark unset, `killLine` yields the
document without the selection span; with the mark set it only clears the selection and
unsets the mark, the document staying as it is. -/
theorem killLine_selection (L : Layout) (s : TextEditor)
    (hsel : s.cursor.hasSelection = true) :
    (s.m_cursorMark = false →
      (TextEditor.killLine L s).doc =
        s.doc.take s.cursor.selectionStart ++ s.doc.drop s.cursor.selectionEnd) ∧
    (s.m_cursorMark = true →
      (TextEditor.killLine L s).doc = s.doc ∧
      (TextEditor.killLine L s).m_cursorMark = false ∧
      (TextEditor.killLine L s).cursor.hasSelection = false) := by
  constructor
  · intro hm
    simp only [TextEditor.killLine, TextEditor.tryUnsetMark, hm, Bool.false_eq_true, if_false,
      hsel, if_true, removeSelectedText]
  · intro hm
    simp only [TextEditor.killLine, TextEditor.tryUnsetMark, hm, if_true, TextEditor.unsetMark]
    simp [QTextCursor.clearSelection, QTextCursor.hasSelection]

/-- C4 (witness): "ab" of "abc" selected, mark unset: `killLine` leaves "c". -/
theorem killLine_selection_witness :
    (TextEditor.killLine plainLayout (TextEditor.ofText "abc" 0 2 false)).doc = "c".toList :=
  (killLine_selection plainLayout (TextEditor.ofText "abc" 0 2 false) (by decide)).1 (by decide)

/-- Blank-line branch of `killLine` on a document given as text before the line, the
line, and the text from its end. -/
theorem killLine_blank_raw (L : Layout) (a ln t : List Char) (clip : Option (List Char))
    (ha : StartsLine a) (ht : EndsLine t) (hln : IsLine ln) (hne : ln ≠ [])
    (hbl : isBlank ln = true) :
    (TextEditor.killLine L
      { doc := a ++ ln ++ t, cursor := { anchor := a.length, position := a.length },
        m_cursorMark := false, clipboard := clip }).doc = a ++ t.drop 1 := by
  have hbs : blockStart (a ++ ln ++ t) a.length = a.length := by
    have := blockStart_on_line a [] (ln ++ t) ha (by simp [IsLine])
    simpa [List.append_assoc] using this
  have hbe : blockEnd (a ++ ln ++ t) a.length = a.length + ln.length :=
    blockEnd_on_line a ln t hln ht
  have hlen : 0 < ln.length := List.length_pos.mpr hne
  have hsel := selectedText_line a ln t hln
  have htr := trimmed_length_eq_zero ln
  have hrm := removeSelectedText_span a ln t
  have hdel := (deleteChar_at a t).1
  have hne2 : (ln.length == 0) = false := by simp [hne]
  have hend : (a.length == a.length + ln.length) = false := by simp [hne]
  simp only [TextEditor.killLine, TextEditor.tryUnsetMark, Bool.false_eq_true, if_false,
    QTextCursor.hasSelection, bne_self_eq_false, movePosition_startOfBlock,
    movePosition_endOfBlock_keep, hbs, hbe, hsel, htr, hbl, hne2, QTextCursor.atBlockEnd, hend,
    Bool.or_self, QTextCursor.atBlockStart, beq_self_eq_true, Bool.and_self, if_true, hrm.1,
    hrm.2, hdel]

/-- C5: in a document whose line `ln` is non-empty, whitespace only and followed by
further lines, with the mark unset and the cursor (no selection) at the start of `ln`,
`killLine` yields the document without that line: the lines before and after are kept
in order. -/
theorem killLine_blank_line (L : Layout) (pre post : List (List Char)) (ln : List Char)
    (clip : Option (List Char)) (hln : IsLine ln) (hne : ln ≠ [])
    (hbl : ∀ c ∈ ln, isSpace c = true) (hpost : post ≠ []) :
    (TextEditor.killLine L
      { doc := joinLn (pre ++ ln :: post)
        cursor := { anchor := lineOffset pre, position := lineOffset pre }
        m_cursorMark := false, clipboard := clip }).doc = joinLn (pre ++ post) := by
  obtain ⟨q, post2, rfl⟩ := List.exists_cons_of_ne_nil hpost
  have hb : isBlank ln = true := List.all_eq_true.mpr hbl
  rw [joinLn_split, joinLn_split, ← textBefore_length]
  rw [killLine_blank_raw L _ ln _ clip (textBefore_startsLine pre) (textAfter_endsLine _) hln hne
    hb]
  simp [textAfter, List.append_assoc]

/-- C5 (witness): the three lines "a", three spaces, "b", cursor at offset 2. -/
theorem killLine_blank_line_witness :
    (TextEditor.killLine plainLayout
      { doc := joinLn (["a".toList] ++ "   ".toList :: ["b".toList])
        cursor := { anchor := lineOffset ["a".toList], position := lineOffset ["a".toList] }
        m_cursorMark := false, clipboard := none }).doc
      = joinLn (["a".toList] ++ ["b".toList]) :=
  killLine_blank_line plainLayout ["a".toList] ["b".toList] "   ".toList none
    (by unfold IsLine; decide) (by decide) (by decide) (by decide)

/-! ### killCurrentLine -/

/-- The work of `joinLines` without selection on a document given as text before the
line, the line (split at the cursor), the line break, the next line and the rest. -/
theorem joinLines_raw (L : Layout) (a l1 l2 nx t : List Char) (mark : Bool)
    (clip : Option (List Char)) (hl : IsLine (l1 ++ l2))
    (hnx : IsLine nx) (ht : EndsLine t) :
    TextEditor.joinLines L
      { doc := a ++ (l1 ++ l2) ++ (newlineChar :: (nx ++ t))
        cursor := { anchor := a.length + l1.length, position := a.length + l1.length }
        m_cursorMark := mark, clipboard := clip } =
      { doc := a ++ (l1 ++ l2) ++ (spaceChar :: (nx ++ t))
        cursor := { anchor := a.length + (l1 ++ l2).length + 1 + nx.length
                    position := a.length + (l1 ++ l2).length + 1 + nx.length }
        m_cursorMark := false, clipboard := clip } := by
  have hl2 : IsLine l2 := fun h => hl (List.mem_append_right _ h)
  have hbe : blockEnd (a ++ (l1 ++ l2) ++ (newlineChar :: (nx ++ t))) (a.length + l1.length) =
      a.length + (l1 ++ l2).length := by
    have := blockEnd_on_line (a ++ l1) l2 (newlineChar :: (nx ++ t)) hl2 (Or.inr ⟨_, rfl⟩)
    simpa [List.append_assoc, Nat.add_assoc] using this
  have hins := insertText_at (a ++ (l1 ++ l2)) (newlineChar :: (nx ++ t)) [spaceChar]
  have hnorm : normalizeText [spaceChar] = [spaceChar] := by decide
  rw [hnorm] at hins
  have hdel := deleteChar_at (a ++ (l1 ++ l2) ++ [spaceChar]) (newlineChar :: (nx ++ t))
  have hbe2 : blockEnd (a ++ (l1 ++ l2) ++ [spaceChar] ++ (nx ++ t))
      ((a ++ (l1 ++ l2) ++ [spaceChar]).length) =
      (a ++ (l1 ++ l2) ++ [spaceChar]).length + nx.length := by
    have := blockEnd_on_line (a ++ (l1 ++ l2) ++ [spaceChar]) nx t hnx ht
    simpa [List.append_assoc] using this
  have hsel : (({ anchor := a.length + l1.length, position := a.length + l1.length } :
      QTextCursor)).hasSelection = false := by simp [QTextCursor.hasSelection]
  simp only [List.length_append, List.length_singleton] at hins hdel hbe2 hbe
  simp only [TextEditor.joinLines, hsel, Bool.false_eq_true, if_false, movePosition_endOfBlock,
    hbe, List.length_append, hins.1, hins.2, List.length_singleton, hdel.1, hdel.2,
    List.drop_one, List.tail_cons, hbe2]
  cases mark <;>
    simp [TextEditor.tryUnsetMark, TextEditor.unsetMark, QTextCursor.clearSelection,
      List.append_assoc]

/-- The lines version of `joinLines_raw`: cursor at column `k` of line `ln`, which is
followed by the line `nx`. -/
theorem joinLines_lines (L : Layout) (pre post : List (List Char)) (ln nx : List Char)
    (k : Nat) (mark : Bool) (clip : Option (List Char)) (hln : IsLine ln) (hnx : IsLine nx)
    (hk : k ≤ ln.length) :
    TextEditor.joinLines L
      { doc := joinLn (pre ++ ln :: nx :: post)
        cursor := { anchor := lineOffset pre + k, position := lineOffset pre + k }
        m_cursorMark := mark, clipboard := clip } =
      { doc := joinLn (pre ++ (ln ++ spaceChar :: nx) :: post)
        cursor := { anchor := lineOffset pre + (ln.length + 1 + nx.length)
                    position := lineOffset pre + (ln.length + 1 + nx.length) }
        m_cursorMark := false, clipboard := clip } := by
  have hsplit : ln.take k ++ ln.drop k = ln := List.take_append_drop k ln
  have hlen : (ln.take k).length = k := by simp [hk]
  have hraw := joinLines_raw L (textBefore pre) (ln.take k) (ln.drop k) nx (textAfter post) mark
    clip (by rw [hsplit]; exact hln) hnx (textAfter_endsLine post)
  rw [hsplit, hlen, textBefore_length] at hraw
  have h1 : joinLn (pre ++ ln :: nx :: post) =
      textBefore pre ++ ln ++ newlineChar :: (nx ++ textAfter post) := by
    rw [joinLn_split]; simp [textAfter]
  have h2 : joinLn (pre ++ (ln ++ spaceChar :: nx) :: post) =
      textBefore pre ++ ln ++ spaceChar :: (nx ++ textAfter post) := by
    rw [joinLn_split]; simp
  rw [h1, hraw, h2]
  simp [Nat.add_assoc]

/-- C7: without selection, with the cursor anywhere on a line `ln` that is followed by
a line `nx`, `joinLines` replaces the two lines by the single line `ln ++ " " ++ nx`
and leaves every other line as it is; the document has one line break less. -/
theorem joinLines_no_selection_doc (L : Layout) (pre post : List (List Char))
    (ln nx : List Char) (k : Nat) (mark : Bool) (clip : Option (List Char)) (hln : IsLine ln)
    (hnx : IsLine nx) (hk : k ≤ ln.length) :
    (TextEditor.joinLines L
      { doc := joinLn (pre ++ ln :: nx :: post)
        cursor := { anchor := lineOffset pre + k, position := lineOffset pre + k }
        m_cursorMark := mark, clipboard := clip }).doc =
      joinLn (pre ++ (ln ++ spaceChar :: nx) :: post) ∧
    (TextEditor.joinLines L
      { doc := joinLn (pre ++ ln :: nx :: post)
        cursor := { anchor := lineOffset pre + k, position := lineOffset pre + k }
        m_cursorMark := mark, clipboard := clip }).doc.count newlineChar + 1 =
      (joinLn (pre ++ ln :: nx :: post)).count newlineChar := by
  rw [joinLines_lines L pre post ln nx k mark clip hln hnx hk]
  refine ⟨rfl, ?_⟩
  have h1 : joinLn (pre ++ ln :: nx :: post) =
      textBefore pre ++ ln ++ newlineChar :: (nx ++ textAfter post) := by
    rw [joinLn_split]; simp [textAfter]
  have h2 : joinLn (pre ++ (ln ++ spaceChar :: nx) :: post) =
      textBefore pre ++ ln ++ spaceChar :: (nx ++ textAfter post) := by
    rw [joinLn_split]; simp
  have hne : (spaceChar == newlineChar) = false := by decide
  simp only [h1, h2, List.count_append, List.count_cons, hne, beq_self_eq_true, if_true,
    Bool.false_eq_true, if_false]
  omega

/-- C7 (witness): the lines "foo", "bar" with the cursor on "foo" become "foo bar". -/
theorem joinLines_no_selection_doc_witness :
    (TextEditor.joinLines plainLayout
      { doc := joinLn ([] ++ "foo".toList :: "bar".toList :: [])
        cursor := { anchor := lineOffset [] + 1, position := lineOffset [] + 1 }
        m_cursorMark := false, clipboard := none }).doc = "foo bar".toList :=
  (joinLines_no_selection_doc plainLayout [] [] "foo".toList "bar".toList 1 false none
    (by unfold IsLine; decide) (by unfold IsLine; decide) (by decide)).1

/-- C8 (counterexample): joining "foo" and "bar" from the cursor at offset 0 gives
"foo bar" with the cursor at column 7, neither column 3 nor column 4. -/
theorem joinLines_cursor_not_at_junction :
    (TextEditor.joinLines plainLayout (TextEditor.ofText "foo\nbar" 0 0 false)).doc
      = "foo bar".toList ∧
    (TextEditor.joinLines plainLayout (TextEditor.ofText "foo\nbar" 0 0 false)).cursor.position
      = 7 ∧
    ¬ ((TextEditor.joinLines plainLayout
          (TextEditor.ofText "foo\nbar" 0 0 false)).cursor.position = "foo".length ∨
       (TextEditor.joinLines plainLayout
          (TextEditor.ofText "foo\nbar" 0 0 false)).cursor.position = "foo".length + 1) := by
  decide

/-- C8 (amended): after `joinLines` without selection on a line `ln` followed by a line
`nx`, the cursor has no selection and stands at the end of the merged line, that is at
column `len ln + 1 + len nx` of the line that starts where `ln` started. -/
theorem joinLines_no_selection_cursor (L : Layout) (pre post : List (List Char))
    (ln nx : List Char) (k : Nat) (mark : Bool) (clip : Option (List Char)) (hln : IsLine ln)
    (hnx : IsLine nx) (hk : k ≤ ln.length) :
    (TextEditor.joinLines L
      { doc := joinLn (pre ++ ln :: nx :: post)
        cursor := { anchor := lineOffset pre + k, position := lineOffset pre + k }
        m_cursorMark := mark, clipboard := clip }).cursor =
      { anchor := lineOffset pre + (ln.length + 1 + nx.length)
        position := lineOffset pre + (ln.length + 1 + nx.length) } := by
  rw [joinLines_lines L pre post ln nx k mark clip hln hnx hk]

/-- C8 (witness): lines "foo", "bar", cursor at column 1 of "foo": the cursor ends at
column 7. -/
theorem joinLines_no_selection_cursor_witness :
    (TextEditor.joinLines plainLayout
      { doc := joinLn ([] ++ "foo".toList :: "bar".toList :: [])
        cursor := { anchor := lineOffset [] + 1, position := lineOffset [] + 1 }
        m_cursorMark := false, clipboard := none }).cursor =
      { anchor := lineOffset [] + ("foo".toList.length + 1 + "bar".toList.length)
        position := lineOffset [] + ("foo".toList.length + 1 + "bar".toList.length) } :=
  joinLines_no_selection_cursor plainLayout [] [] "foo".toList "bar".toList 1 false none
    (by unfold IsLine; decide) (by unfold IsLine; decide) (by decide)

/-! ### joinLines with a selection -/

/-- Every text splits into a part after which a line starts and a line fragment. -/
theorem exists_line_before (p : List Char) :
    ∃ p0 p1, p = p0 ++ p1 ∧ StartsLine p0 ∧ IsLine p1 := by
  induction p using List.reverseRecOn with
  | nil => exact ⟨[], [], rfl, Or.inl rfl, by simp [IsLine]⟩
  | append_singleton p c ih =>
    by_cases hc : c = newlineChar
    · exact ⟨p ++ [c], [], by simp, Or.inr ⟨p, by rw [hc]⟩, by simp [IsLine]⟩
    · obtain ⟨p0, p1, rfl, h0, h1⟩ := ih
      refine ⟨p0, p1 ++ [c], by simp, h0, ?_⟩
      intro hm
      rcases List.mem_append.mp hm with h | h
      · exact h1 h
      · exact hc (List.mem_singleton.mp h).symm

/-- Every text splits into a line fragment and a part before which a line ends. -/
theorem exists_line_after (q : List Char) :
    ∃ q1 q2, q = q1 ++ q2 ∧ IsLine q1 ∧ EndsLine q2 := by
  induction q with
  | nil => exact ⟨[], [], rfl, by simp [IsLine], Or.inl rfl⟩
  | cons c q ih =>
    by_cases hc : c = newlineChar
    · exact ⟨[], c :: q, rfl, by simp [IsLine], Or.inr ⟨q, by rw [hc]⟩⟩
    · obtain ⟨q1, q2, rfl, h1, h2⟩ := ih
      refine ⟨c :: q1, q2, rfl, ?_, h2⟩
      intro hm
      rcases List.mem_cons.mp hm with h | h
      · exact hc h.symm
      · exact h1 h

/-- The selected text of a span: its characters, line breaks given as U+2029. -/
theorem selectedText_span (a m t : List Char) :
    selectedText (a ++ m ++ t) { anchor := a.length, position := a.length + m.length } =
      m.map (fun ch => if ch = newlineChar then paragraphSeparator else ch) := by
  have h1 : (a ++ m ++ t).drop a.length = m ++ t := by
    rw [List.append_assoc]; exact List.drop_left' rfl
  simp only [selectedText, QTextCursor.selectionStart, QTextCursor.selectionEnd]
  rw [Nat.min_eq_left (Nat.le_add_right _ _), Nat.max_eq_right (Nat.le_add_right _ _), h1,
    Nat.add_sub_cancel_left, List.take_left' rfl]

/-- Replacing line breaks by spaces does nothing on a line. -/
theorem map_break_line (l : List Char) (hl : IsLine l) :
    l.map (fun ch => if ch = newlineChar then spaceChar else ch) = l := by
  conv_rhs => rw [← List.map_id l]
  apply List.map_congr_left
  intro c hc
  have : c ≠ newlineChar := by rintro rfl; exact hl hc
  simp [this]

/-- What `joinLines` inserts for the span `m` of a well-formed document: `m` with
spaces for line breaks, and `insertText` takes it as it is. -/
theorem joined_text (m : List Char)
    (hwf : ∀ c ∈ m, c ≠ carriageReturn ∧ c ≠ paragraphSeparator ∧ c ≠ textBeginningOfFrame ∧
      c ≠ textEndOfFrame) :
    normalizeText
      ((m.map (fun ch => if ch = newlineChar then paragraphSeparator else ch)).map
        (fun ch => if ch = paragraphSeparator then spaceChar else ch)) =
      m.map (fun ch => if ch = newlineChar then spaceChar else ch) := by
  have hmap : (m.map (fun ch => if ch = newlineChar then paragraphSeparator else ch)).map
        (fun ch => if ch = paragraphSeparator then spaceChar else ch) =
      m.map (fun ch => if ch = newlineChar then spaceChar else ch) := by
    rw [List.map_map]
    apply List.map_congr_left
    intro c hc
    by_cases h : c = newlineChar
    · simp [h]
    · simp [h, (hwf c hc).2.1]
  rw [hmap]
  apply normalizeText_id
  intro c hc
  obtain ⟨d, hd, rfl⟩ := List.mem_map.mp hc
  by_cases h : d = newlineChar
  · simp only [h, if_true]; decide
  · simp only [h, if_false]; exact hwf d hd

/-- C9: for a well-formed document `p ++ sel ++ q` whose non-empty span `sel` is
selected (in either direction), `joinLines` yields `p`, then `sel` with every line break
replaced by one space, then `q`; the character count is unchanged, the number of line
breaks drops by the number of line breaks inside the selection, and the mark is unset
afterwards. -/
theorem joinLines_selection (L : Layout) (p sel q : List Char) (c : QTextCursor)
    (mark : Bool) (clip : Option (List Char)) (hwf : WellFormed (p ++ sel ++ q))
    (hsel : sel ≠ [])
    (hc : (c.anchor = p.length ∧ c.position = p.length + sel.length) ∨
      (c.anchor = p.length + sel.length ∧ c.position = p.length)) :
    (TextEditor.joinLines L
        { doc := p ++ sel ++ q, cursor := c, m_cursorMark := mark, clipboard := clip }).doc =
      p ++ sel.map (fun ch => if ch = newlineChar then spaceChar else ch) ++ q ∧
    (TextEditor.joinLines L
        { doc := p ++ sel ++ q, cursor := c, m_cursorMark := mark, clipboard := clip }
      ).doc.length = (p ++ sel ++ q).length ∧
    (TextEditor.joinLines L
        { doc := p ++ sel ++ q, cursor := c, m_cursorMark := mark, clipboard := clip }
      ).doc.count newlineChar + sel.count newlineChar = (p ++ sel ++ q).count newlineChar ∧
    (TextEditor.joinLines L
        { doc := p ++ sel ++ q, cursor := c, m_cursorMark := mark, clipboard := clip }
      ).m_cursorMark = false := by
  obtain ⟨p0, p1, rfl, hp0, hp1⟩ := exists_line_before p
  obtain ⟨q1, q2, rfl, hq1, hq2⟩ := exists_line_after q
  have hdoc : p0 ++ p1 ++ sel ++ (q1 ++ q2) = p0 ++ (p1 ++ sel ++ q1) ++ q2 := by
    simp [List.append_assoc]
  have hbs : blockStart (p0 ++ p1 ++ sel ++ (q1 ++ q2)) (p0 ++ p1).length = p0.length := by
    have := blockStart_on_line p0 p1 (sel ++ (q1 ++ q2)) hp0 hp1
    simpa [List.append_assoc] using this
  have hbe : blockEnd (p0 ++ p1 ++ sel ++ (q1 ++ q2)) ((p0 ++ p1).length + sel.length) =
      p0.length + (p1 ++ sel ++ q1).length := by
    have := blockEnd_on_line (p0 ++ p1 ++ sel) q1 q2 hq1 hq2
    simp only [List.append_assoc, List.length_append, Nat.add_assoc] at this ⊢
    rw [this]
  have hwfm : ∀ c ∈ p1 ++ sel ++ q1, c ≠ carriageReturn ∧ c ≠ paragraphSeparator ∧
      c ≠ textBeginningOfFrame ∧ c ≠ textEndOfFrame := by
    intro c hc
    apply hwf c
    simp only [List.mem_append] at hc ⊢
    tauto
  have hcore : (TextEditor.joinLines L
        { doc := p0 ++ p1 ++ sel ++ (q1 ++ q2), cursor := c, m_cursorMark := mark,
          clipboard := clip }).doc =
      p0 ++ p1 ++ sel.map (fun ch => if ch = newlineChar then spaceChar else ch) ++ (q1 ++ q2) ∧
      (TextEditor.joinLines L
        { doc := p0 ++ p1 ++ sel ++ (q1 ++ q2), cursor := c, m_cursorMark := mark,
          clipboard := clip }).m_cursorMark = false := by
    have hsl : 0 < sel.length := List.length_pos.mpr hsel
    have hst := selectedText_span p0 (p1 ++ sel ++ q1) q2
    have hrm := removeSelectedText_span p0 (p1 ++ sel ++ q1) q2
    have hjt := joined_text (p1 ++ sel ++ q1) hwfm
    have hins := insertText_at p0 q2
      (((p1 ++ sel ++ q1).map (fun ch => if ch = newlineChar then paragraphSeparator else ch)).map
        (fun ch => if ch = paragraphSeparator then spaceChar else ch))
    rw [hjt] at hins
    rw [← hdoc] at hst hrm
    have hr1 : ¬ (p0 ++ p1 ++ sel ++ (q1 ++ q2)).length < (p0 ++ p1).length := by
      simp only [List.length_append]; omega
    have hr2 : ¬ (p0 ++ p1 ++ sel ++ (q1 ++ q2)).length < (p0 ++ p1).length + sel.length := by
      simp only [List.length_append]; omega
    have hr3 : ¬ (p0 ++ p1 ++ sel ++ (q1 ++ q2)).length < p0.length := by
      simp only [List.length_append]; omega
    have hr4 : ¬ (p0 ++ p1 ++ sel ++ (q1 ++ q2)).length < p0.length + (p1 ++ sel ++ q1).length := by
      simp only [List.length_append]; omega
    have hgt : ¬ (p0 ++ p1).length > (p0 ++ p1).length + sel.length := by omega
    have hgt2 : (p0 ++ p1).length + sel.length > (p0 ++ p1).length := by omega
    have hne1 : ((p0 ++ p1).length != (p0 ++ p1).length + sel.length) = true := by
      simp [hsel]
    have hne2 : ((p0 ++ p1).length + sel.length != (p0 ++ p1).length) = true := by
      simp [hsel]
    obtain ⟨ca, cp⟩ := c
    simp only at hc
    rcases hc with ⟨rfl, rfl⟩ | ⟨rfl, rfl⟩
    · simp only [TextEditor.joinLines, QTextCursor.hasSelection, hne1, if_true, hgt, if_false,
        QTextCursor.setPosition, hr1, hr2, movePosition_startOfBlock, movePosition_endOfBlock,
        hbs, hbe, hr3, hr4, hst, hrm.1, hrm.2, hins.1, hins.2]
      cases mark <;>
        simp [TextEditor.tryUnsetMark, TextEditor.unsetMark, map_break_line p1 hp1,
          map_break_line q1 hq1, List.append_assoc]
    · simp only [TextEditor.joinLines, QTextCursor.hasSelection, hne2, if_true, hgt2,
        QTextCursor.setPosition, hr1, hr2, if_false, movePosition_startOfBlock,
        movePosition_endOfBlock, hbs, hbe, hr3, hr4, hst, hrm.1, hrm.2, hins.1, hins.2]
      cases mark <;>
        simp [TextEditor.tryUnsetMark, TextEditor.unsetMark, map_break_line p1 hp1,
          map_break_line q1 hq1, List.append_assoc]
  refine ⟨hcore.1, ?_, ?_, hcore.2⟩
  · rw [hcore.1]; simp
  · rw [hcore.1]
    have hz : (sel.map (fun ch => if ch = newlineChar then spaceChar else ch)).count newlineChar
        = 0 := by
      rw [List.count_eq_zero]
      intro hm
      obtain ⟨d, _, hd⟩ := List.mem_map.mp hm
      by_cases h : d = newlineChar
      · rw [if_pos h] at hd
        exact absurd hd (by decide)
      · rw [if_neg h] at hd
        exact h hd
    simp only [List.count_append, hz]
    omega

/-- C9 (witness): in "ab", "cd", "ef" the span from offset 1 to offset 7 is selected;
both line breaks become spaces. -/
theorem joinLines_selection_witness :
    (TextEditor.joinLines plainLayout
        { doc := "a".toList ++ "b\ncd\ne".toList ++ "f".toList
          cursor := { anchor := 1, position := 7 }
          m_cursorMark := true, clipboard := none }).doc = "ab cd ef".toList :=
  (joinLines_selection plainLayout "a".toList "b\ncd\ne".toList "f".toList
    { anchor := 1, position := 7 } true none (by unfold WellFormed; decide) (by decide)
    (by decide)).1

/-! ### duplicateLine with a selection -/

/-- C10: `duplicateLine` on a selection that ends on the last line with the active
point at its end. The one-line document "abc" (selected 0..3) becomes the two lines
"abcabc" and "": the copy is glued to the original line. With "a", "b" fully selected
the result is "a", "ba", "b", "". The sibling paths behave: with the active point at
the selection start "abc" becomes "abc", "abc", and a selection that ends before the
last line ("ab" of "ab", "cd") gives "ab", "ab", "cd". -/
theorem duplicateLine_selection_on_last_line :
    (TextEditor.duplicateLine plainLayout (TextEditor.ofText "abc" 0 3 true)).doc
      = "abcabc\n".toList ∧
    (TextEditor.duplicateLine plainLayout (TextEditor.ofText "a\nb" 0 3 false)).doc
      = "a\nba\nb\n".toList ∧
    (TextEditor.duplicateLine plainLayout (TextEditor.ofText "abc" 3 0 true)).doc
      = "abc\nabc".toList ∧
    (TextEditor.duplicateLine plainLayout (TextEditor.ofText "ab\ncd" 0 2 true)).doc
      = "ab\nab\ncd".toList ∧
    (TextEditor.duplicateLine plainLayout (TextEditor.ofText "abc" 1 1 true)).doc
      = "abc\nabc".toList := by
  decide

/-! ### Every document and position is covered by the line-based statements -/

/-- A text after which a line starts is the text of complete lines. -/
theorem startsLine_lines (n : Nat) :
    ∀ a : List Char, a.length ≤ n → StartsLine a →
      ∃ pre : List (List Char), (∀ l ∈ pre, IsLine l) ∧ a = textBefore pre := by
  induction n with
  | zero =>
    intro a hlen _
    have : a = [] := List.length_eq_zero.mp (Nat.le_zero.mp hlen)
    exact ⟨[], by simp, by rw [this]; rfl⟩
  | succ n ih =>
    intro a hlen ha
    rcases ha with rfl | ⟨b, rfl⟩
    · exact ⟨[], by simp, rfl⟩
    · obtain ⟨b0, b1, rfl, hb0, hb1⟩ := exists_line_before b
      have hl0 : b0.length ≤ n := by
        simp only [List.length_append, List.length_singleton] at hlen
        omega
      obtain ⟨pre0, hpre0, rfl⟩ := ih b0 hl0 hb0
      refine ⟨pre0 ++ [b1], ?_, by simp [textBefore]⟩
      intro l hl
      rcases List.mem_append.mp hl with h | h
      · exact hpre0 l h
      · rw [List.mem_singleton.mp h]; exact hb1

/-- A text before which a line ends is the text of complete lines. -/
theorem endsLine_lines (n : Nat) :
    ∀ t : List Char, t.length ≤ n → EndsLine t →
      ∃ post : List (List Char), (∀ l ∈ post, IsLine l) ∧ t = textAfter post := by
  induction n with
  | zero =>
    intro t hlen _
    have : t = [] := List.length_eq_zero.mp (Nat.le_zero.mp hlen)
    exact ⟨[], by simp, by rw [this]; rfl⟩
  | succ n ih =>
    intro t hlen ht
    rcases ht with rfl | ⟨u, rfl⟩
    · exact ⟨[], by simp, rfl⟩
    · obtain ⟨u1, u2, rfl, hu1, hu2⟩ := exists_line_after u
      have hl2 : u2.length ≤ n := by
        simp only [List.length_cons, List.length_append] at hlen
        omega
      obtain ⟨post2, hpost2, rfl⟩ := ih u2 hl2 hu2
      refine ⟨u1 :: post2, ?_, by simp [textAfter]⟩
      intro l hl
      rcases List.mem_cons.mp hl with h | h
      · rw [h]; exact hu1
      · exact hpost2 l h

/-- Every position of every document lies at some column `k` of some line `ln`, with
complete lines before and after it. -/
theorem exists_lines_at (doc : List Char) (p : Nat) (hp : p ≤ doc.length) :
    ∃ (pre : List (List Char)) (ln : List Char) (post : List (List Char)) (k : Nat),
      (∀ l ∈ pre, IsLine l) ∧ IsLine ln ∧ (∀ l ∈ post, IsLine l) ∧ k ≤ ln.length ∧
      doc = joinLn (pre ++ ln :: post) ∧ p = lineOffset pre + k := by
  obtain ⟨p0, p1, h01, hp0, hp1⟩ := exists_line_before (doc.take p)
  obtain ⟨q1, q2, h12, hq1, hq2⟩ := exists_line_after (doc.drop p)
  obtain ⟨pre, hpre, rfl⟩ := startsLine_lines p0.length p0 (Nat.le_refl _) hp0
  obtain ⟨post, hpost, rfl⟩ := endsLine_lines q2.length q2 (Nat.le_refl _) hq2
  refine ⟨pre, p1 ++ q1, post, p1.length, hpre, ?_, hpost, by simp, ?_, ?_⟩
  · intro hm
    rcases List.mem_append.mp hm with h | h
    · exact hp1 h
    · exact hq1 h
  · rw [joinLn_split]
    calc doc = doc.take p ++ doc.drop p := (List.take_append_drop p doc).symm
      _ = textBefore pre ++ (p1 ++ q1) ++ textAfter post := by
        rw [h01, h12]; simp [List.append_assoc]
  · have hlen : (doc.take p).length = p := by simp [hp]
    rw [h01, List.length_append, textBefore_length] at hlen
    exact hlen.symm

/-! ### moveLineDownUp at the ends of the document -/

/-- C12: `moveLineDownUp` at the document boundaries. Moving the last line "b" of
"a", "b" down yields "a", "b", "" (a line break is appended); on the one-line document
"abc" both directions yield "abc", "". Only moving up the first line of a document with
a second line leaves the text as it is. -/
theorem moveLineDownUp_at_document_ends :
    (TextEditor.moveLineDownUp plainLayout false (TextEditor.ofText "a\nb" 2 2 false)).doc
      = "a\nb\n".toList ∧
    (TextEditor.moveLineDownUp plainLayout true (TextEditor.ofText "abc" 1 1 false)).doc
      = "abc\n".toList ∧
    (TextEditor.moveLineDownUp plainLayout false (TextEditor.ofText "abc" 1 1 false)).doc
      = "abc\n".toList ∧
    (TextEditor.moveLineDownUp plainLayout true (TextEditor.ofText "a\nb" 1 1 false)).doc
      = "a\nb".toList := by
  decide

/-- C13: `moveLineDownUp` next to the end of the document. Moving the last line "b" of
"a", "b" up yields "b", "a", "" (three lines); moving "a" down over the empty last line of
"a", "" leaves "a", "" as it is. Away from the last line the two lines are exchanged:
"a", "b", "c" with the cursor on "b" becomes "b", "a", "c" (up) and "a", "c", "b" (down). -/
theorem moveLineDownUp_next_to_last_line :
    (TextEditor.moveLineDownUp plainLayout true (TextEditor.ofText "a\nb" 2 2 false)).doc
      = "b\na\n".toList ∧
    (TextEditor.moveLineDownUp plainLayout false (TextEditor.ofText "a\n" 0 0 false)).doc
      = "a\n".toList ∧
    (TextEditor.moveLineDownUp plainLayout true (TextEditor.ofText "a\nb\nc" 2 2 false)).doc
      = "b\na\nc".toList ∧
    (TextEditor.moveLineDownUp plainLayout false (TextEditor.ofText "a\nb\nc" 2 2 false)).doc
      = "a\nc\nb".toList := by
  decide

/-! ### Keyword search -/

/-- C18: the flags of `updateKeywordSelections` are `0 & FindCaseSensitively = 0`, so
the search folds the case: the keyword "cat" matches the document "Cat" at offsets
0..3, although the covered text differs from the keyword. -/
theorem updateKeywordSelections_folds_case :
    ((0 : Nat) &&& FindCaseSensitively) = 0 ∧
    TextEditor.updateKeywordSelections asciiCase "cat".toList "Cat".toList
      = [{ anchor := 0, position := 3 }] ∧
    ("Cat".toList.drop 0).take 3 ≠ "cat".toList := by
  decide

/-- C19: in "Cat cat" the only occurrence of the keyword "cat" is at offsets 4..7, but
the match set built by `updateKeywordSelections` is 0..3, 4..7: its first span is no
occurrence of the keyword. With equal case the scan gives what is expected: "cat" in
"cat dog cat" gives 0..3 and 8..11, and the empty keyword gives nothing. -/
theorem updateKeywordSelections_not_only_occurrences :
    TextEditor.updateKeywordSelections asciiCase "cat".toList "Cat cat".toList
      = [{ anchor := 0, position := 3 }, { anchor := 4, position := 7 }] ∧
    ("Cat cat".toList.drop 0).take 3 ≠ "cat".toList ∧
    ("Cat cat".toList.drop 4).take 3 = "cat".toList ∧
    TextEditor.updateKeywordSelections asciiCase "cat".toList "cat dog cat".toList
      = [{ anchor := 0, position := 3 }, { anchor := 8, position := 11 }] ∧
    TextEditor.updateKeywordSelections asciiCase [] "cat dog cat".toList = [] := by
  decide

/-- C20 (counterexample): with the matches 0..3 and 8..11 of "cat" in "cat dog cat",
the forward step from position 1 makes 0..3 the current match, a span that begins
before position 1. -/
theorem setCursorKeywordSeletoin_selects_span_around_position :
    (TextEditor.setCursorKeywordSeletoin 1 true (TextEditor.ofText "cat dog cat" 0 0 false)
        { m_keywordSelections :=
            TextEditor.updateKeywordSelections asciiCase "cat".toList "cat dog cat".toList
          m_cursorKeywordSelection := { anchor := 0, position := 0 } }).1 = true ∧
    (TextEditor.setCursorKeywordSeletoin 1 true (TextEditor.ofText "cat dog cat" 0 0 false)
        { m_keywordSelections :=
            TextEditor.updateKeywordSelections asciiCase "cat".toList "cat dog cat".toList
          m_cursorKeywordSelection := { anchor := 0, position := 0 } }
      ).2.2.m_cursorKeywordSelection = { anchor := 0, position := 3 } := by
  decide

/-- The forward loop of `setCursorKeywordSeletoin` skips the spans that end at or
before the position. -/
theorem selectNextKeyword_skip (position : Nat) (s : TextEditor) (k : SearchState)
    (before rest : List QTextCursor) (h : ∀ b ∈ before, b.position ≤ position) :
    TextEditor.selectNextKeyword position s k (before ++ rest) =
      TextEditor.selectNextKeyword position s k rest := by
  induction before with
  | nil => rfl
  | cons b before ih =>
    have hb : ¬ b.position > position := Nat.not_lt.mpr (h b (List.mem_cons_self _ _))
    simp only [List.cons_append, TextEditor.selectNextKeyword, hb, if_false]
    exact ih (fun x hx => h x (List.mem_cons_of_mem _ hx))

/-- C20 (amended): the forward step of `setCursorKeywordSeletoin` makes the first span
of the match set whose end lies strictly after `position` the current match and
returns true (match set and document stay as they are); when every span ends at or
before `position` it returns false and changes nothing. -/
theorem setCursorKeywordSeletoin_forward (position : Nat) (s : TextEditor) (k : SearchState) :
    (∀ before m after, k.m_keywordSelections = before ++ m :: after →
      (∀ b ∈ before, b.position ≤ position) → position < m.position →
        (TextEditor.setCursorKeywordSeletoin position true s k).1 = true ∧
        (TextEditor.setCursorKeywordSeletoin position true s k).2.2.m_cursorKeywordSelection = m ∧
        (TextEditor.setCursorKeywordSeletoin position true s k).2.2.m_keywordSelections =
          k.m_keywordSelections ∧
        (TextEditor.setCursorKeywordSeletoin position true s k).2.1.doc = s.doc) ∧
    ((∀ m ∈ k.m_keywordSelections, m.position ≤ position) →
      TextEditor.setCursorKeywordSeletoin position true s k = (false, s, k)) := by
  constructor
  · intro before m after hk hb hm
    have hm2 : m.position > position := hm
    simp only [TextEditor.setCursorKeywordSeletoin, if_true, hk,
      selectNextKeyword_skip position s k before (m :: after) hb, TextEditor.selectNextKeyword,
      hm2, TextEditor.jumpToLine, and_self]
  · intro h
    have := selectNextKeyword_skip position s k k.m_keywordSelections [] h
    simp only [List.append_nil] at this
    simp only [TextEditor.setCursorKeywordSeletoin, if_true, this, TextEditor.selectNextKeyword]

/-- C20 (witness): with the matches 0..3 and 8..11, the forward step from position 5
makes 8..11 the current match. -/
theorem setCursorKeywordSeletoin_forward_witness :
    (TextEditor.setCursorKeywordSeletoin 5 true (TextEditor.ofText "cat dog cat" 0 0 false)
        { m_keywordSelections := [{ anchor := 0, position := 3 }, { anchor := 8, position := 11 }]
          m_cursorKeywordSelection := { anchor := 0, position := 0 } }
      ).2.2.m_cursorKeywordSelection = { anchor := 8, position := 11 } :=
  ((setCursorKeywordSeletoin_forward 5 (TextEditor.ofText "cat dog cat" 0 0 false)
      { m_keywordSelections := [{ anchor := 0, position := 3 }, { anchor := 8, position := 11 }]
        m_cursorKeywordSelection := { anchor := 0, position := 0 } }).1
    [{ anchor := 0, position := 3 }] { anchor := 8, position := 11 } [] rfl (by decide)
    (by decide)).2.1

/-! ### capitalizeText -/

/-- C16: `capitalizeText` yields the lowercased text in which the first character that
is neither whitespace nor a word separator is replaced by its upper case, every other
character staying as lowercased; when there is no such character the result is the
lowercased text. -/
theorem capitalizeText_first_eligible (K : CaseMap) (m_wordSepartors t : List Char) :
    (∀ before c after, K.toLower t = before ++ c :: after →
      (∀ b ∈ before, isSpace b = true ∨ b ∈ m_wordSepartors) →
      isSpace c = false → c ∉ m_wordSepartors →
        TextEditor.capitalizeText K m_wordSepartors t = before ++ K.toUpperChar c :: after) ∧
    ((∀ b ∈ K.toLower t, isSpace b = true ∨ b ∈ m_wordSepartors) →
      TextEditor.capitalizeText K m_wordSepartors t = K.toLower t) := by
  have hskip : ∀ (before rest : List Char),
      (∀ b ∈ before, isSpace b = true ∨ b ∈ m_wordSepartors) →
      TextEditor.capitalizeLoop K m_wordSepartors (before ++ rest) =
        before ++ TextEditor.capitalizeLoop K m_wordSepartors rest := by
    intro before rest h
    induction before with
    | nil => rfl
    | cons b before ih =>
      have hb := h b (List.mem_cons_self _ _)
      have hcond : (!isSpace b && !m_wordSepartors.contains b) = false := by
        rcases hb with hb | hb
        · simp [hb]
        · simp [hb]
      simp only [List.cons_append, TextEditor.capitalizeLoop, hcond, Bool.false_eq_true, if_false]
      exact congrArg (List.cons b) (ih (fun x hx => h x (List.mem_cons_of_mem _ hx)))
  constructor
  · intro before c after hlow hb hc1 hc2
    have hcond : (!isSpace c && !m_wordSepartors.contains c) = true := by
      simp [hc1, hc2]
    simp only [TextEditor.capitalizeText, hlow, hskip before (c :: after) hb,
      TextEditor.capitalizeLoop, hcond, if_true]
  · intro h
    have := hskip (K.toLower t) [] h
    simp only [List.append_nil, TextEditor.capitalizeLoop] at this
    simp only [TextEditor.capitalizeText, this]

/-- C16 (witness): "hello world" with the separators space and comma gives
"Hello world". -/
theorem capitalizeText_first_eligible_witness :
    TextEditor.capitalizeText asciiCase " ,".toList "hello world".toList
      = [] ++ asciiCase.toUpperChar (Char.ofNat 104) :: "ello world".toList :=
  (capitalizeText_first_eligible asciiCase " ,".toList "hello world".toList).1
    [] (Char.ofNat 104) "ello world".toList (by decide) (by decide) (by decide) (by decide)

/-! ### transposeChar -/

/-- Effect of `NextCharacter` with `KeepAnchor`. -/
theorem movePosition_nextCharacter_keep (L : Layout) (doc : List Char) (c : QTextCursor) :
    c.movePosition L doc MoveOperation.NextCharacter MoveMode.KeepAnchor =
      { anchor := c.anchor, position := min (c.position + 1) doc.length } := by
  simp [QTextCursor.movePosition, QTextCursor.moveTarget]

/-- Effect of `PreviousCharacter` with `KeepAnchor`. -/
theorem movePosition_previousCharacter_keep (L : Layout) (doc : List Char) (c : QTextCursor) :
    c.movePosition L doc MoveOperation.PreviousCharacter MoveMode.KeepAnchor =
      { anchor := c.anchor, position := c.position - 1 } := by
  simp [QTextCursor.movePosition, QTextCursor.moveTarget]

/-- Effect of `PreviousCharacter` with `MoveAnchor` on a cursor without selection. -/
theorem movePosition_previousCharacter_move (L : Layout) (doc : List Char) (p : Nat) :
    ({ anchor := p, position := p } : QTextCursor).movePosition L doc
        MoveOperation.PreviousCharacter MoveMode.MoveAnchor =
      { anchor := p - 1, position := p - 1 } := by
  simp [QTextCursor.movePosition, QTextCursor.moveTarget]

/-- The selected text of a span selected backwards. -/
theorem selectedText_span_rev (a m t : List Char) :
    selectedText (a ++ m ++ t) { anchor := a.length + m.length, position := a.length } =
      m.map (fun ch => if ch = newlineChar then paragraphSeparator else ch) := by
  have h := selectedText_span a m t
  simp only [selectedText, QTextCursor.selectionStart, QTextCursor.selectionEnd] at h ⊢
  rw [Nat.min_comm, Nat.max_comm]
  exact h

/-- Removing a span selected backwards. -/
theorem removeSelectedText_span_rev (a m t : List Char) :
    (removeSelectedText (a ++ m ++ t)
        { anchor := a.length + m.length, position := a.length }).doc = a ++ t ∧
    (removeSelectedText (a ++ m ++ t)
        { anchor := a.length + m.length, position := a.length }).cursor =
      { anchor := a.length, position := a.length } := by
  have h1 : (a ++ m ++ t).take a.length = a := by
    rw [List.append_assoc]; exact List.take_left' rfl
  have h2 : (a ++ m ++ t).drop (a.length + m.length) = t := by
    rw [← List.length_append]; exact List.drop_left' rfl
  by_cases hm : m = []
  · subst hm
    simp [removeSelectedText, QTextCursor.hasSelection]
  · have h3 : (({ anchor := a.length + m.length, position := a.length } : QTextCursor)
        ).hasSelection = true := by
      simp [QTextCursor.hasSelection, hm]
    simp only [removeSelectedText, h3, if_true, QTextCursor.selectionStart,
      QTextCursor.selectionEnd, Nat.min_eq_right (Nat.le_add_right _ _),
      Nat.max_eq_left (Nat.le_add_right _ _), h1, h2, and_self]

/-- Selected text of a well-formed document is inserted back as the text it was taken
from. -/
theorem normalizeText_selected (m : List Char)
    (hwf : ∀ c ∈ m, c ≠ carriageReturn ∧ c ≠ paragraphSeparator ∧ c ≠ textBeginningOfFrame ∧
      c ≠ textEndOfFrame) :
    normalizeText (m.map (fun ch => if ch = newlineChar then paragraphSeparator else ch)) = m := by
  induction m with
  | nil => rfl
  | cons c m ih =>
    have hc := hwf c (List.mem_cons_self _ _)
    have hm := ih (fun d hd => hwf d (List.mem_cons_of_mem _ hd))
    simp only [List.map_cons]
    unfold normalizeText
    by_cases h : c = newlineChar
    · have h1 : ¬ (paragraphSeparator = carriageReturn) := by decide
      simp only [h, if_true, h1, false_and, if_false, or_true, true_or, hm]
    · simp only [h, if_false, hc.1, hc.2.1, hc.2.2.1, hc.2.2.2, false_and, or_self, hm]

/-- The work of `transposeChar` once the mark is cleared: cursor without selection
between the characters `x` and `y`. -/
theorem transposeChar_inner (L : Layout) (a b : List Char) (x y : Char) (mark : Bool)
    (clip : Option (List Char)) (hwf : WellFormed (a ++ x :: y :: b)) :
    TextEditor.transposeChar L
      { doc := a ++ x :: y :: b, cursor := { anchor := a.length + 1, position := a.length + 1 },
        m_cursorMark := mark, clipboard := clip } =
      { doc := a ++ y :: x :: b, cursor := { anchor := a.length + 1, position := a.length + 1 },
        m_cursorMark := false, clipboard := clip } := by
  have hx : ∀ c ∈ [x], c ≠ carriageReturn ∧ c ≠ paragraphSeparator ∧
      c ≠ textBeginningOfFrame ∧ c ≠ textEndOfFrame := by
    intro c hc; apply hwf c; simp only [List.mem_singleton] at hc; simp [hc]
  have hy : ∀ c ∈ [y], c ≠ carriageReturn ∧ c ≠ paragraphSeparator ∧
      c ≠ textBeginningOfFrame ∧ c ≠ textEndOfFrame := by
    intro c hc; apply hwf c; simp only [List.mem_singleton] at hc; simp [hc]
  have hd1 : a ++ x :: y :: b = (a ++ [x]) ++ [y] ++ b := by simp
  have hd2 : a ++ [x] ++ b = a ++ [x] ++ b := rfl
  have hs1 := selectedText_span (a ++ [x]) [y] b
  have hr1 := removeSelectedText_span (a ++ [x]) [y] b
  have hs2 := selectedText_span_rev a [x] b
  have hr2 := removeSelectedText_span_rev a [x] b
  have hn1 := normalizeText_selected [y] hy
  have hn2 := normalizeText_selected [x] hx
  have hi1 := insertText_at a b ([y].map (fun ch => if ch = newlineChar then paragraphSeparator else ch))
  have hi2 := insertText_at (a ++ [y]) b
    ([x].map (fun ch => if ch = newlineChar then paragraphSeparator else ch))
  rw [hn1] at hi1
  rw [hn2] at hi2
  have hmin : min (a.length + 1 + 1) (a ++ x :: y :: b).length = a.length + 1 + 1 := by
    simp only [List.length_append, List.length_cons]; omega
  have hne : ([y].map (fun ch => if ch = newlineChar then paragraphSeparator else ch)).isEmpty
      = false := rfl
  simp only [List.length_append, List.length_singleton] at hs1 hr1 hs2 hr2 hi1 hi2
  have hstart : (TextEditor.tryUnsetMark
      { doc := a ++ x :: y :: b, cursor := { anchor := a.length + 1, position := a.length + 1 },
        m_cursorMark := mark, clipboard := clip }).2 =
      { doc := a ++ x :: y :: b, cursor := { anchor := a.length + 1, position := a.length + 1 },
        m_cursorMark := false, clipboard := clip } := by
    cases mark <;> simp [TextEditor.tryUnsetMark, TextEditor.unsetMark, QTextCursor.clearSelection]
  simp only [TextEditor.transposeChar, hstart, QTextCursor.clearSelection,
    movePosition_nextCharacter_keep, hmin]
  rw [hd1]
  simp only [hs1, hr1.1, hr1.2, movePosition_previousCharacter_keep, Nat.add_sub_cancel, hs2,
    hr2.1, hr2.2, hi1.1, hi1.2, hi2.1, hi2.2, hne, Bool.not_false, if_true,
    movePosition_previousCharacter_move]
  simp

/-- The anchor plays no part in `transposeChar`: the selection is cleared first. -/
theorem transposeChar_anchor (L : Layout) (doc : List Char) (anc p : Nat) (mark : Bool)
    (clip : Option (List Char)) :
    TextEditor.transposeChar L
      { doc := doc, cursor := { anchor := anc, position := p }, m_cursorMark := mark,
        clipboard := clip } =
    TextEditor.transposeChar L
      { doc := doc, cursor := { anchor := p, position := p }, m_cursorMark := mark,
        clipboard := clip } := by
  cases mark <;>
    simp [TextEditor.transposeChar, TextEditor.tryUnsetMark, TextEditor.unsetMark,
      QTextCursor.clearSelection]

/-- The work of `transposeChar` with the cursor behind the last character. -/
theorem transposeChar_at_end (L : Layout) (doc : List Char) (mark : Bool)
    (clip : Option (List Char)) (hwf : WellFormed doc) :
    TextEditor.transposeChar L
      { doc := doc, cursor := { anchor := doc.length, position := doc.length },
        m_cursorMark := mark, clipboard := clip } =
      { doc := doc, cursor := { anchor := doc.length, position := doc.length },
        m_cursorMark := false, clipboard := clip } := by
  have hstart : ∀ d : List Char, (TextEditor.tryUnsetMark
      { doc := d, cursor := { anchor := d.length, position := d.length },
        m_cursorMark := mark, clipboard := clip }).2 =
      { doc := d, cursor := { anchor := d.length, position := d.length },
        m_cursorMark := false, clipboard := clip } := by
    intro d
    cases mark <;> simp [TextEditor.tryUnsetMark, TextEditor.unsetMark, QTextCursor.clearSelection]
  have hnosel : ∀ (d : List Char) (p : Nat),
      removeSelectedText d { anchor := p, position := p } =
        { doc := d, cursor := { anchor := p, position := p }, changes := [] } := by
    intro d p
    simp [removeSelectedText, QTextCursor.hasSelection]
  have hseltext : ∀ (d : List Char) (p : Nat),
      selectedText d { anchor := p, position := p } = [] := by
    intro d p
    simp [selectedText, QTextCursor.selectionStart, QTextCursor.selectionEnd]
  rcases List.eq_nil_or_concat doc with rfl | ⟨a, x, rfl⟩
  · have hi0 := insertText_at [] [] []
    have hn0 : normalizeText [] = [] := rfl
    rw [hn0] at hi0
    simp only [List.append_nil, List.length_nil, Nat.add_zero] at hi0
    have hs0 := hstart []
    simp only [List.length_nil] at hs0
    simp only [TextEditor.transposeChar, hs0, QTextCursor.clearSelection,
      movePosition_nextCharacter_keep, List.length_nil, Nat.zero_add, Nat.min_eq_right (Nat.zero_le _),
      hseltext, hnosel, movePosition_previousCharacter_keep, Nat.zero_sub, hi0.1, hi0.2,
      List.isEmpty_nil, Bool.not_true, Bool.false_eq_true, if_false]
  · simp only [List.concat_eq_append] at hwf ⊢
    have hx : ∀ c ∈ [x], c ≠ carriageReturn ∧ c ≠ paragraphSeparator ∧
        c ≠ textBeginningOfFrame ∧ c ≠ textEndOfFrame := by
      intro c hc; apply hwf c; simp only [List.mem_singleton] at hc; simp [hc]
    have hs2 := selectedText_span_rev a [x] []
    have hr2 := removeSelectedText_span_rev a [x] []
    have hn2 := normalizeText_selected [x] hx
    have hi1 := insertText_at a [] []
    have hi2 := insertText_at a []
      ([x].map (fun ch => if ch = newlineChar then paragraphSeparator else ch))
    rw [hn2] at hi2
    have hn0 : normalizeText [] = [] := rfl
    rw [hn0] at hi1
    simp only [List.append_nil, List.length_singleton, List.length_nil, Nat.add_zero] at hs2 hr2 hi1 hi2
    have hlen : (a ++ [x]).length = a.length + 1 := by simp
    have hs1 := hstart (a ++ [x])
    rw [hlen] at hs1
    simp only [TextEditor.transposeChar, hlen, hs1, QTextCursor.clearSelection,
      movePosition_nextCharacter_keep, hlen, Nat.min_eq_right (Nat.le_succ _), hseltext, hnosel,
      movePosition_previousCharacter_keep, Nat.add_sub_cancel, hs2, hr2.1, hr2.2, hi1.1, hi1.2,
      hi2.1, hi2.2, List.isEmpty_nil, Bool.not_true, Bool.false_eq_true, if_false]

/-- C17: in a well-formed document, with the active point between the characters `x`
and `y`, `transposeChar` exchanges the two characters, leaves every other character in
place and leaves the cursor, without selection, between them; with the active point at
the end of the document the document is unchanged and the cursor stays at the end. -/
theorem transposeChar_swaps (L : Layout) (doc : List Char) (anc : Nat) (mark : Bool)
    (clip : Option (List Char)) (hwf : WellFormed doc) :
    (∀ (a b : List Char) (x y : Char), doc = a ++ x :: y :: b →
      TextEditor.transposeChar L
        { doc := doc, cursor := { anchor := anc, position := a.length + 1 },
          m_cursorMark := mark, clipboard := clip } =
        { doc := a ++ y :: x :: b, cursor := { anchor := a.length + 1, position := a.length + 1 },
          m_cursorMark := false, clipboard := clip }) ∧
    TextEditor.transposeChar L
        { doc := doc, cursor := { anchor := anc, position := doc.length },
          m_cursorMark := mark, clipboard := clip } =
      { doc := doc, cursor := { anchor := doc.length, position := doc.length },
        m_cursorMark := false, clipboard := clip } := by
  constructor
  · intro a b x y hdoc
    subst hdoc
    rw [transposeChar_anchor]
    exact transposeChar_inner L a b x y mark clip hwf
  · rw [transposeChar_anchor]
    exact transposeChar_at_end L doc mark clip hwf

/-- C17 (witness): "abcd" with a selection from 0 to the active point 2 becomes "acbd"
with the cursor at 2. -/
theorem transposeChar_swaps_witness :
    TextEditor.transposeChar plainLayout
        { doc := "abcd".toList, cursor := { anchor := 0, position := "a".toList.length + 1 },
          m_cursorMark := true, clipboard := none } =
      { doc := "a".toList ++ (Char.ofNat 99) :: (Char.ofNat 98) :: "d".toList,
        cursor := { anchor := "a".toList.length + 1, position := "a".toList.length + 1 },
        m_cursorMark := false, clipboard := none } :=
  (transposeChar_swaps plainLayout "abcd".toList 0 true none (by unfold WellFormed; decide)).1
    "a".toList "d".toList (Char.ofNat 98) (Char.ofNat 99) (by decide)

/-! ### duplicateLine without selection -/

/-- Repeated `Right` steps of a cursor without selection, inside the document. -/
theorem movePositionN_right (L : Layout) (doc : List Char) (n : Nat) :
    ∀ p : Nat, p + n ≤ doc.length →
      QTextCursor.movePositionN L doc MoveOperation.Right MoveMode.MoveAnchor n
        { anchor := p, position := p } = { anchor := p + n, position := p + n } := by
  induction n with
  | zero => intro p _; rfl
  | succ n ih =>
    intro p hp
    have hstep : ({ anchor := p, position := p } : QTextCursor).movePosition L doc
        MoveOperation.Right MoveMode.MoveAnchor = { anchor := p + 1, position := p + 1 } := by
      have hmin : min (p + 1) doc.length = p + 1 := Nat.min_eq_left (by omega)
      simp [QTextCursor.movePosition, QTextCursor.moveTarget, hmin]
    simp only [QTextCursor.movePositionN, hstep]
    rw [ih (p + 1) (by omega)]
    simp [Nat.add_assoc, Nat.add_comm 1 n]

/-- The work of `duplicateLine` without selection on a document given as text before
the line, the line (split at the cursor) and the text from its end: the line is copied
below itself and the cursor ends `columnNumber` characters into the copy. -/
theorem duplicateLine_raw (L : Layout) (a l1 l2 t : List Char) (mark : Bool)
    (clip : Option (List Char)) (ha : StartsLine a) (hl : IsLine (l1 ++ l2)) (ht : EndsLine t)
    (hwf : WellFormed (l1 ++ l2)) :
    TextEditor.duplicateLine L
      { doc := a ++ (l1 ++ l2) ++ t
        cursor := { anchor := a.length + l1.length, position := a.length + l1.length }
        m_cursorMark := mark, clipboard := clip } =
      { doc := a ++ (l1 ++ l2) ++ newlineChar :: ((l1 ++ l2) ++ t)
        cursor :=
          { anchor := a.length + (l1 ++ l2).length + 1 +
              (a.length + l1.length -
                max (L.lineStart (a ++ (l1 ++ l2) ++ t) (a.length + l1.length)) a.length)
            position := a.length + (l1 ++ l2).length + 1 +
              (a.length + l1.length -
                max (L.lineStart (a ++ (l1 ++ l2) ++ t) (a.length + l1.length)) a.length) }
        m_cursorMark := mark, clipboard := clip } := by
  have hl1 : IsLine l1 := fun h => hl (List.mem_append_left _ h)
  have hbs : blockStart (a ++ (l1 ++ l2) ++ t) (a.length + l1.length) = a.length := by
    have := blockStart_on_line a l1 (l2 ++ t) ha hl1
    simpa [List.append_assoc] using this
  have hbs0 : blockStart (a ++ (l1 ++ l2) ++ t) a.length = a.length := by
    have := blockStart_on_line a [] ((l1 ++ l2) ++ t) ha (by simp [IsLine])
    simpa [List.append_assoc] using this
  have hbe : blockEnd (a ++ (l1 ++ l2) ++ t) a.length = a.length + (l1 ++ l2).length :=
    blockEnd_on_line a (l1 ++ l2) t hl ht
  have hbe2 : blockEnd (a ++ (l1 ++ l2) ++ t) (a.length + (l1 ++ l2).length) =
      a.length + (l1 ++ l2).length := by
    have := blockEnd_on_line (a ++ (l1 ++ l2)) [] t (by simp [IsLine]) ht
    simpa [List.append_assoc] using this
  have hsel := selectedText_line a (l1 ++ l2) t hl
  have hnl : normalizeText [newlineChar] = [newlineChar] := by decide
  have hi1 := insertText_at (a ++ (l1 ++ l2)) t [newlineChar]
  rw [hnl] at hi1
  have hi2 := insertText_at (a ++ (l1 ++ l2) ++ [newlineChar]) t (l1 ++ l2)
  rw [normalizeText_id (l1 ++ l2) hwf] at hi2
  have hbs2 : blockStart (a ++ (l1 ++ l2) ++ [newlineChar] ++ (l1 ++ l2) ++ t)
      ((a ++ (l1 ++ l2) ++ [newlineChar]).length + (l1 ++ l2).length) =
      (a ++ (l1 ++ l2) ++ [newlineChar]).length :=
    blockStart_on_line (a ++ (l1 ++ l2) ++ [newlineChar]) (l1 ++ l2) t (Or.inr ⟨_, rfl⟩) hl
  have hcol : a.length + l1.length -
      max (L.lineStart (a ++ (l1 ++ l2) ++ t) (a.length + l1.length)) a.length ≤ l1.length := by
    have := Nat.le_max_right (L.lineStart (a ++ (l1 ++ l2) ++ t) (a.length + l1.length)) a.length
    omega
  have hright := movePositionN_right L (a ++ (l1 ++ l2) ++ [newlineChar] ++ (l1 ++ l2) ++ t)
    (a.length + l1.length -
      max (L.lineStart (a ++ (l1 ++ l2) ++ t) (a.length + l1.length)) a.length)
    ((a ++ (l1 ++ l2) ++ [newlineChar]).length)
    (by simp only [List.length_append, List.length_singleton] at hcol ⊢; omega)
  have hnosel : (({ anchor := a.length + l1.length, position := a.length + l1.length } :
      QTextCursor)).hasSelection = false := by simp [QTextCursor.hasSelection]
  simp only [List.length_append, List.length_singleton] at hi1 hi2 hbs2 hright hbe hbe2 hsel
  simp only [TextEditor.duplicateLine, hnosel, Bool.false_eq_true, if_false,
    QTextCursor.columnNumber, hbs, movePosition_startOfBlock, hbs0, movePosition_endOfBlock_keep,
    hbe, List.length_append, hsel, movePosition_endOfBlock, hbe2, hi1.1, hi1.2, hi2.1, hi2.2,
    hbs2, hright]
  simp [List.append_assoc]

/-- The lines version of `duplicateLine_raw`, for every layout: the cursor ends as many
characters into the copy as the toolkit's `columnNumber` said before. -/
theorem duplicateLine_lines (L : Layout) (pre post : List (List Char)) (ln : List Char)
    (k : Nat) (mark : Bool) (clip : Option (List Char)) (hln : IsLine ln)
    (hwf : WellFormed ln) (hk : k ≤ ln.length) :
    TextEditor.duplicateLine L
      { doc := joinLn (pre ++ ln :: post)
        cursor := { anchor := lineOffset pre + k, position := lineOffset pre + k }
        m_cursorMark := mark, clipboard := clip } =
      { doc := joinLn (pre ++ ln :: ln :: post)
        cursor :=
          { anchor := lineOffset (pre ++ [ln]) +
              (lineOffset pre + k -
                max (L.lineStart (joinLn (pre ++ ln :: post)) (lineOffset pre + k))
                  (lineOffset pre))
            position := lineOffset (pre ++ [ln]) +
              (lineOffset pre + k -
                max (L.lineStart (joinLn (pre ++ ln :: post)) (lineOffset pre + k))
                  (lineOffset pre)) }
        m_cursorMark := mark, clipboard := clip } := by
  have hsplit : ln.take k ++ ln.drop k = ln := List.take_append_drop k ln
  have hlen : (ln.take k).length = k := by simp [hk]
  have hraw := duplicateLine_raw L (textBefore pre) (ln.take k) (ln.drop k) (textAfter post) mark
    clip (textBefore_startsLine pre) (by rw [hsplit]; exact hln) (textAfter_endsLine post)
    (by rw [hsplit]; exact hwf)
  rw [hsplit, hlen, textBefore_length] at hraw
  have h2 : joinLn (pre ++ ln :: ln :: post) =
      textBefore pre ++ ln ++ newlineChar :: (ln ++ textAfter post) := by
    rw [joinLn_split]; simp [textAfter]
  have h3 : lineOffset (pre ++ [ln]) = lineOffset pre + ln.length + 1 := by
    simp [lineOffset]; omega
  rw [joinLn_split, hraw, h2, h3]

/-- Where the view shows the line unwrapped up to the cursor (so that the toolkit's
column number is the column in the line), `duplicateLine` without selection, with the
cursor at column `k` of a line `ln`, inserts a copy of `ln` directly below it, keeps
every other line, and leaves the cursor without selection at column `k` of the copy. -/
theorem duplicateLine_no_selection (L : Layout) (pre post : List (List Char))
    (ln : List Char) (k : Nat) (mark : Bool) (clip : Option (List Char)) (hln : IsLine ln)
    (hwf : WellFormed ln) (hk : k ≤ ln.length)
    (hwrap : L.lineStart (joinLn (pre ++ ln :: post)) (lineOffset pre + k) ≤ lineOffset pre) :
    TextEditor.duplicateLine L
      { doc := joinLn (pre ++ ln :: post)
        cursor := { anchor := lineOffset pre + k, position := lineOffset pre + k }
        m_cursorMark := mark, clipboard := clip } =
      { doc := joinLn (pre ++ ln :: ln :: post)
        cursor := { anchor := lineOffset (pre ++ [ln]) + k
                    position := lineOffset (pre ++ [ln]) + k }
        m_cursorMark := mark, clipboard := clip } := by
  rw [duplicateLine_lines L pre post ln k mark clip hln hwf hk, Nat.max_eq_right hwrap,
    Nat.add_sub_cancel_left]

/-- The unwrapped case at the spec's example: the one-line document "abc" with the
cursor at column 1 becomes "abc", "abc" with the cursor at column 1 of the second line
(offset 5). -/
theorem duplicateLine_no_selection_witness :
    TextEditor.duplicateLine plainLayout
      { doc := joinLn ([] ++ "abc".toList :: [])
        cursor := { anchor := lineOffset [] + 1, position := lineOffset [] + 1 }
        m_cursorMark := false, clipboard := none } =
      { doc := joinLn ([] ++ "abc".toList :: "abc".toList :: [])
        cursor := { anchor := lineOffset ([] ++ ["abc".toList]) + 1
                    position := lineOffset ([] ++ ["abc".toList]) + 1 }
        m_cursorMark := false, clipboard := none } :=
  duplicateLine_no_selection plainLayout [] [] "abc".toList 1 false none
    (by unfold IsLine; decide) (by unfold WellFormed; decide) (by decide) (by decide)

/-- C11: on a line that the view wraps, `duplicateLine` without selection does not
leave the cursor at its column in the copy. The one-line document "abcdefgh" is shown
wrapped after 4 columns and the cursor is at column 6 (offset 6, no selection): the
copy is inserted below, but `columnNumber()` answers 2, the column inside the second
visual line, and the cursor ends at offset 11, column 2 of the copy, not at offset 15,
column 6 of the copy. The same call with the line shown unwrapped ends at offset 15,
and so does the wrapped line with the cursor at column 2, inside the first visual
line. -/
theorem duplicateLine_wrapped_line :
    (TextEditor.ofText "abcdefgh" 6 6 false).cursor.columnNumber (wrapLayout 4)
      "abcdefgh".toList = 2 ∧
    TextEditor.duplicateLine (wrapLayout 4) (TextEditor.ofText "abcdefgh" 6 6 false) =
      TextEditor.ofText "abcdefgh\nabcdefgh" 11 11 false ∧
    TextEditor.duplicateLine plainLayout (TextEditor.ofText "abcdefgh" 6 6 false) =
      TextEditor.ofText "abcdefgh\nabcdefgh" 15 15 false ∧
    TextEditor.duplicateLine (wrapLayout 4) (TextEditor.ofText "abcdefgh" 2 2 false) =
      TextEditor.ofText "abcdefgh\nabcdefgh" 11 11 false := by
  decide

/-! ### Blocks of a document given by its lines -/

/-- The number of line breaks in the text before a line is the number of lines before. -/
theorem textBefore_count (pre : List (List Char)) (hpre : ∀ l ∈ pre, IsLine l) :
    (textBefore pre).count newlineChar = pre.length := by
  induction pre with
  | nil => rfl
  | cons a pre ih =>
    have ha : a.count newlineChar = 0 := List.count_eq_zero.mpr (hpre a (List.mem_cons_self _ _))
    have := ih (fun l hl => hpre l (List.mem_cons_of_mem _ hl))
    simp only [textBefore, List.map_cons, List.flatten_cons, List.count_append, ha,
      List.count_singleton_self, List.length_cons] at this ⊢
    omega

/-- Block number of a position on the line that follows the lines `pre`. -/
theorem findBlock_on_line (pre : List (List Char)) (ln t : List Char) (k : Nat)
    (hpre : ∀ l ∈ pre, IsLine l) (hln : IsLine ln) (hk : k ≤ ln.length) :
    findBlock (textBefore pre ++ ln ++ t) (lineOffset pre + k) = pre.length := by
  have htake : (textBefore pre ++ ln ++ t).take (lineOffset pre + k) =
      textBefore pre ++ ln.take k := by
    rw [← textBefore_length, List.append_assoc, List.take_append, List.take_append_of_le_length hk]
  have hz : (ln.take k).count newlineChar = 0 :=
    List.count_eq_zero.mpr (fun h => hln (List.mem_of_mem_take h))
  unfold findBlock
  rw [htake, List.count_append, textBefore_count pre hpre, hz]
  rfl

/-- Start of the block that follows the lines `pre`. -/
theorem blockStartOf_after (pre : List (List Char)) (x : List Char)
    (hpre : ∀ l ∈ pre, IsLine l) :
    blockStartOf (textBefore pre ++ x) pre.length = lineOffset pre := by
  induction pre with
  | nil => rfl
  | cons a pre ih =>
    have ha : IsLine a := hpre a (List.mem_cons_self _ _)
    have hall : ∀ c ∈ a, (c != newlineChar) = true := by
      intro c hc
      simp only [bne_iff_ne, ne_eq]
      rintro rfl
      exact ha hc
    have hdoc : textBefore (a :: pre) ++ x = a ++ newlineChar :: (textBefore pre ++ x) := by
      simp [textBefore]
    have htw : ((a ++ newlineChar :: (textBefore pre ++ x)).takeWhile
        (fun c => c != newlineChar)) = a := by
      rw [List.takeWhile_append_of_pos hall]
      simp
    have hdrop : (a ++ newlineChar :: (textBefore pre ++ x)).drop (a.length + 1) =
        textBefore pre ++ x := by
      rw [List.drop_append_eq_append_drop]
      simp
    have hoff : lineOffset (a :: pre) = a.length + 1 + lineOffset pre := by
      simp [lineOffset]
    rw [hdoc, List.length_cons, blockStartOf]
    simp only [htw, hdrop]
    rw [ih (fun l hl => hpre l (List.mem_cons_of_mem _ hl)), hoff]

/-- Position of the block that follows the lines `pre`. -/
theorem blockPosition_after (pre : List (List Char)) (x : List Char)
    (hpre : ∀ l ∈ pre, IsLine l) :
    blockPosition (textBefore pre ++ x) pre.length = lineOffset pre := by
  have hcount : pre.length < blockCount (textBefore pre ++ x) := by
    unfold blockCount
    rw [List.count_append, textBefore_count pre hpre]
    omega
  unfold blockPosition
  rw [if_pos hcount, blockStartOf_after pre x hpre]

/-- A run of spaces is inserted as it is. -/
theorem normalizeText_spaces (n : Nat) :
    normalizeText (List.replicate n spaceChar) = List.replicate n spaceChar := by
  apply normalizeText_id
  intro c hc
  rw [List.eq_of_mem_replicate hc]
  decide

/-- Text of the lines `pre` followed by further lines `rest`. -/
theorem joinLn_append (pre rest : List (List Char)) (hrest : rest ≠ []) :
    joinLn (pre ++ rest) = textBefore pre ++ joinLn rest := by
  obtain ⟨r, rs, rfl⟩ := List.exists_cons_of_ne_nil hrest
  rw [joinLn_split]
  simp [joinLn, textAfter]

/-! ### indentText -/

/-- The loop of `indentText` over the lines `mid` that follow the lines `pre`: every
line of `mid` gets the spaces in front. -/
theorem indentLoop_lines (n : Nat) (post : List (List Char)) :
    ∀ (mid pre : List (List Char)) (cursor : QTextCursor) (chs : List Change),
      (∀ l ∈ pre, IsLine l) → (∀ l ∈ mid, IsLine l) →
      (TextEditor.indentLoop (List.replicate n spaceChar) mid.length pre.length
          (joinLn (pre ++ mid ++ post)) cursor chs).1 =
        joinLn (pre ++ mid.map (fun l => List.replicate n spaceChar ++ l) ++ post) := by
  intro mid
  induction mid with
  | nil => intro pre cursor chs _ _; rfl
  | cons m mid ih =>
    intro pre cursor chs hpre hmid
    have hm : IsLine m := hmid m (List.mem_cons_self _ _)
    have hdoc : joinLn (pre ++ m :: mid ++ post) =
        textBefore pre ++ (m ++ textAfter (mid ++ post)) := by
      have := joinLn_split pre (mid ++ post) m
      simpa [List.append_assoc] using this
    have hbp := blockPosition_after pre (m ++ textAfter (mid ++ post)) hpre
    have hin : ¬ (textBefore pre ++ (m ++ textAfter (mid ++ post))).length < lineOffset pre := by
      rw [List.length_append, textBefore_length]; omega
    have hins := insertText_at (textBefore pre) (m ++ textAfter (mid ++ post))
      (List.replicate n spaceChar)
    rw [normalizeText_spaces, textBefore_length] at hins
    have hnew : textBefore pre ++ List.replicate n spaceChar ++ (m ++ textAfter (mid ++ post)) =
        joinLn ((pre ++ [List.replicate n spaceChar ++ m]) ++ mid ++ post) := by
      have := joinLn_split pre (mid ++ post) (List.replicate n spaceChar ++ m)
      simp only [List.append_assoc, List.singleton_append, List.cons_append,
        List.nil_append] at this ⊢
      rw [this]
    have hspaces : IsLine (List.replicate n spaceChar ++ m) := by
      intro h
      rcases List.mem_append.mp h with h | h
      · exact absurd (List.eq_of_mem_replicate h) (by decide)
      · exact hm h
    have hpre2 : ∀ l ∈ pre ++ [List.replicate n spaceChar ++ m], IsLine l := by
      intro l hl
      rcases List.mem_append.mp hl with h | h
      · exact hpre l h
      · rw [List.mem_singleton.mp h]; exact hspaces
    have ih2 := ih (pre ++ [List.replicate n spaceChar ++ m])
      (insertText (textBefore pre ++ (m ++ textAfter (mid ++ post)))
        { anchor := lineOffset pre, position := lineOffset pre }
        (List.replicate n spaceChar)).cursor
      (chs ++ (insertText (textBefore pre ++ (m ++ textAfter (mid ++ post)))
        { anchor := lineOffset pre, position := lineOffset pre }
        (List.replicate n spaceChar)).changes)
      hpre2 (fun l hl => hmid l (List.mem_cons_of_mem _ hl))
    simp only [List.length_append, List.length_singleton] at ih2
    simp only [List.length_cons, TextEditor.indentLoop, hdoc, hbp, QTextCursor.setPosition, hin,
      if_false, hins.1, hnew, ih2]
    simp [List.append_assoc]

/-- C14 (counterexample): with the mark set and the selection 0..3 of "a", "b", "c"
(lines "a" and "b" touched), `indentText` with tab width 2 clears the selection and
inserts one space at the active point: the result is "a", "b ", "c", not "  a", "  b",
"c". -/
theorem indentText_marked_selection_not_indented :
    (TextEditor.ofText "a\nb\nc" 0 3 true).cursor.hasSelection = true ∧
    (TextEditor.indentText 2 (TextEditor.ofText "a\nb\nc" 0 3 true)).doc
      = "a\nb \nc".toList := by
  decide

/-- C14 (amended): with the mark unset and a non-empty selection that starts on line
number `pre.length` and ends on the last of the lines `mid` (`findBlock` counts the line
breaks before a position), `indentText` puts exactly `n` spaces in front of every line of
`mid` and changes nothing else. With the mark set the selection is cleared first and the
only change is a run of spaces at the active point, up to the next multiple of `n`. -/
theorem indentText_selection (n : Nat) (pre mid post : List (List Char)) (c : QTextCursor)
    (clip : Option (List Char)) (hpre : ∀ l ∈ pre, IsLine l) (hmid : ∀ l ∈ mid, IsLine l)
    (hsel : c.hasSelection = true)
    (hs : findBlock (joinLn (pre ++ mid ++ post)) c.selectionStart = pre.length)
    (he : findBlock (joinLn (pre ++ mid ++ post)) c.selectionEnd + 1 = pre.length + mid.length) :
    (TextEditor.indentText n
        { doc := joinLn (pre ++ mid ++ post), cursor := c, m_cursorMark := false,
          clipboard := clip }).doc =
      joinLn (pre ++ mid.map (fun l => List.replicate n spaceChar ++ l) ++ post) ∧
    (TextEditor.indentText n
        { doc := joinLn (pre ++ mid ++ post), cursor := c, m_cursorMark := true,
          clipboard := clip }).doc =
      (joinLn (pre ++ mid ++ post)).take c.position ++
        List.replicate
          (n - (c.position - blockStart (joinLn (pre ++ mid ++ post)) c.position) % n) spaceChar ++
        (joinLn (pre ++ mid ++ post)).drop c.position := by
  constructor
  · have hfuel : pre.length + mid.length - pre.length = mid.length := by omega
    simp only [TextEditor.indentText, TextEditor.tryUnsetMark, Bool.false_eq_true, if_false,
      hsel, if_true, hs, he, hfuel]
    exact indentLoop_lines n post mid pre c [] hpre hmid
  · simp [TextEditor.indentText, TextEditor.tryUnsetMark, TextEditor.unsetMark,
      QTextCursor.clearSelection, QTextCursor.hasSelection, insertText, removeSelectedText,
      normalizeText_spaces]

/-- C14 (witness): "a", "b", "c" with the selection 0..3 and tab width 2 becomes
"  a", "  b", "c". -/
theorem indentText_selection_witness :
    (TextEditor.indentText 2
        { doc := joinLn ([] ++ ["a".toList, "b".toList] ++ ["c".toList])
          cursor := { anchor := 0, position := 3 }, m_cursorMark := false,
          clipboard := none }).doc = "  a\n  b\nc".toList :=
  (indentText_selection 2 [] ["a".toList, "b".toList] ["c".toList] { anchor := 0, position := 3 }
    none (by simp) (by unfold IsLine; decide) (by decide) (by decide) (by decide)).1

/-! ### unindentText -/

/-- The character at the start of a non-empty rest of the document. -/
theorem characterAt_cons (a r : List Char) (c : Char) :
    characterAt (a ++ c :: r) a.length = if c = newlineChar then paragraphSeparator else c := by
  have h : (a ++ c :: r)[a.length]? = some c := by
    rw [List.getElem?_append_right (Nat.le_refl _)]
    simp
  simp only [characterAt, h]

/-- The character at the end of the document is the closing block break. -/
theorem characterAt_end (a : List Char) : characterAt a a.length = paragraphSeparator := by
  simp [characterAt]

/-- The character at the end of a line is a block break. -/
theorem characterAt_line_end (a t : List Char) (ht : EndsLine t) :
    characterAt (a ++ t) a.length = paragraphSeparator := by
  rcases ht with rfl | ⟨u, rfl⟩
  · simpa using characterAt_end a
  · rw [characterAt_cons]; simp

/-- The inner loop of `unindentText` at the start of the line `l`: it removes the first
`min fuel k` spaces, `k` being the number of leading spaces of `l`. -/
theorem unindentSpaces_line (a t : List Char) (ht : EndsLine t) :
    ∀ (fuel : Nat) (l : List Char) (chs : List Change), IsLine l →
      (TextEditor.unindentSpaces fuel (a ++ l ++ t) { anchor := a.length, position := a.length }
          chs).1 =
        a ++ l.drop (min fuel (l.takeWhile (fun c => c == spaceChar)).length) ++ t := by
  intro fuel
  induction fuel with
  | zero => intro l chs _; simp [TextEditor.unindentSpaces]
  | succ f ih =>
    intro l chs hl
    cases l with
    | nil =>
      have hch : characterAt (a ++ [] ++ t) a.length = paragraphSeparator := by
        simpa using characterAt_line_end a t ht
      have hne : ¬ (paragraphSeparator = spaceChar) := by decide
      simp only [TextEditor.unindentSpaces, hch, hne, if_false]
      simp
    | cons c l2 =>
      have hc : c ≠ newlineChar := by rintro rfl; exact hl (List.mem_cons_self _ _)
      have hl2 : IsLine l2 := fun h => hl (List.mem_cons_of_mem _ h)
      have hch : characterAt (a ++ c :: l2 ++ t) a.length = c := by
        have := characterAt_cons a (l2 ++ t) c
        simpa [hc, List.append_assoc] using this
      by_cases hsp : c = spaceChar
      · subst hsp
        have hdel := deleteChar_at a (spaceChar :: l2 ++ t)
        have hd1 : a ++ (spaceChar :: l2 ++ t) = a ++ spaceChar :: l2 ++ t := by simp
        rw [hd1] at hdel
        have hdrop : (spaceChar :: l2 ++ t).drop 1 = l2 ++ t := rfl
        rw [hdrop] at hdel
        have hih := ih l2 (chs ++ (deleteChar (a ++ spaceChar :: l2 ++ t)
          { anchor := a.length, position := a.length }).changes) hl2
        have htw : (spaceChar :: l2).takeWhile (fun c => c == spaceChar) =
            spaceChar :: l2.takeWhile (fun c => c == spaceChar) :=
          List.takeWhile_cons_of_pos (by simp)
        have hmin : min (f + 1) ((l2.takeWhile (fun c => c == spaceChar)).length + 1) =
            min f (l2.takeWhile (fun c => c == spaceChar)).length + 1 := by omega
        have hdoc2 : a ++ (l2 ++ t) = a ++ l2 ++ t := by simp
        simp only [TextEditor.unindentSpaces, hch, if_true, hdel.1, hdel.2, hdoc2]
        rw [hih, htw, List.length_cons, hmin, List.drop_succ_cons]
      · have htw : (c :: l2).takeWhile (fun c => c == spaceChar) = [] :=
          List.takeWhile_cons_of_neg (by simpa using hsp)
        simp only [TextEditor.unindentSpaces, hch, hsp, if_false, htw, List.length_nil,
          Nat.min_zero, List.drop_zero]

/-- A line without its head is a line. -/
theorem isLine_drop (l : List Char) (k : Nat) (hl : IsLine l) : IsLine (l.drop k) :=
  fun h => hl (List.mem_of_mem_drop h)

/-- What `unindentText` leaves of a line is a line. -/
theorem isLine_unindentedLine (n : Nat) (l : List Char) (hl : IsLine l) :
    IsLine (unindentedLine n l) := by
  unfold unindentedLine
  split_ifs
  · exact isLine_drop l _ hl
  · exact isLine_drop l _ hl

/-- The loop of `unindentText` over the lines `mid` that follow the lines `pre`: every
line of `mid` loses its leading tab or its first spaces. -/
theorem unindentLoop_lines (n : Nat) (post : List (List Char)) :
    ∀ (mid pre : List (List Char)) (cursor : QTextCursor) (chs : List Change),
      (∀ l ∈ pre, IsLine l) → (∀ l ∈ mid, IsLine l) →
      (TextEditor.unindentLoop n mid.length pre.length (joinLn (pre ++ mid ++ post)) cursor
          chs).1 =
        joinLn (pre ++ mid.map (unindentedLine n) ++ post) := by
  intro mid
  induction mid with
  | nil => intro pre cursor chs _ _; rfl
  | cons m mid ih =>
    intro pre cursor chs hpre hmid
    have hm : IsLine m := hmid m (List.mem_cons_self _ _)
    have hmid2 : ∀ l ∈ mid, IsLine l := fun l hl => hmid l (List.mem_cons_of_mem _ hl)
    have hdoc : joinLn (pre ++ m :: mid ++ post) =
        textBefore pre ++ m ++ textAfter (mid ++ post) := by
      have := joinLn_split pre (mid ++ post) m
      simpa [List.append_assoc] using this
    have hbp := blockPosition_after pre (m ++ textAfter (mid ++ post)) hpre
    rw [← List.append_assoc] at hbp
    have hin : ¬ (textBefore pre ++ m ++ textAfter (mid ++ post)).length < lineOffset pre := by
      simp only [List.length_append, textBefore_length]; omega
    have hpre2 : ∀ l ∈ pre ++ [unindentedLine n m], IsLine l := by
      intro l hl
      rcases List.mem_append.mp hl with h | h
      · exact hpre l h
      · rw [List.mem_singleton.mp h]; exact isLine_unindentedLine n m hm
    have hnew : ∀ x : List Char, textBefore pre ++ x ++ textAfter (mid ++ post) =
        joinLn ((pre ++ [x]) ++ mid ++ post) := by
      intro x
      have := joinLn_split pre (mid ++ post) x
      simp only [List.append_assoc, List.singleton_append, List.cons_append,
        List.nil_append] at this ⊢
      rw [this]
    have hfinal : joinLn (pre ++ [unindentedLine n m] ++ List.map (unindentedLine n) mid ++ post) =
        joinLn (pre ++ List.map (unindentedLine n) (m :: mid) ++ post) := by
      simp [List.append_assoc]
    simp only [List.length_cons, TextEditor.unindentLoop, hdoc, hbp, QTextCursor.setPosition, hin,
      if_false]
    by_cases htab : m.head? = some tabChar
    · obtain ⟨m2, rfl⟩ : ∃ m2, m = tabChar :: m2 := by
        cases m with
        | nil => simp at htab
        | cons c m2 => exact ⟨m2, by simp at htab; rw [htab]⟩
      have hch : characterAt (textBefore pre ++ tabChar :: m2 ++ textAfter (mid ++ post))
          (lineOffset pre) = tabChar := by
        have := characterAt_cons (textBefore pre) (m2 ++ textAfter (mid ++ post)) tabChar
        rw [textBefore_length] at this
        have hne : ¬ (tabChar = newlineChar) := by decide
        simpa [hne, List.append_assoc] using this
      have hdel := deleteChar_at (textBefore pre) (tabChar :: m2 ++ textAfter (mid ++ post))
      have hd1 : textBefore pre ++ (tabChar :: m2 ++ textAfter (mid ++ post)) =
          textBefore pre ++ tabChar :: m2 ++ textAfter (mid ++ post) := by simp
      have hdrop : (tabChar :: m2 ++ textAfter (mid ++ post)).drop 1 =
          m2 ++ textAfter (mid ++ post) := rfl
      rw [hd1, hdrop, textBefore_length, ← List.append_assoc, hnew m2] at hdel
      have hline : unindentedLine n (tabChar :: m2) = m2 := by
        simp [unindentedLine]
      rw [hline] at hpre2 hfinal
      have ih2 := ih (pre ++ [m2])
        (deleteChar (textBefore pre ++ tabChar :: m2 ++ textAfter (mid ++ post))
          { anchor := lineOffset pre, position := lineOffset pre }).cursor
        (chs ++ (deleteChar (textBefore pre ++ tabChar :: m2 ++ textAfter (mid ++ post))
          { anchor := lineOffset pre, position := lineOffset pre }).changes) hpre2 hmid2
      simp only [List.length_append, List.length_singleton] at ih2
      simp only [hch, if_true, hdel.1, ih2, hfinal]
    · have hch : characterAt (textBefore pre ++ m ++ textAfter (mid ++ post)) (lineOffset pre) ≠
          tabChar := by
        cases m with
        | nil =>
          have := characterAt_line_end (textBefore pre) (textAfter (mid ++ post))
            (textAfter_endsLine _)
          rw [textBefore_length] at this
          simp only [List.append_nil]
          rw [this]
          decide
        | cons c m2 =>
          have hc : c ≠ newlineChar := by rintro rfl; exact hm (List.mem_cons_self _ _)
          have hct : c ≠ tabChar := by
            intro h; apply htab; simp [h]
          have := characterAt_cons (textBefore pre) (m2 ++ textAfter (mid ++ post)) c
          rw [textBefore_length, if_neg hc] at this
          have hd : textBefore pre ++ c :: m2 ++ textAfter (mid ++ post) =
              textBefore pre ++ c :: (m2 ++ textAfter (mid ++ post)) := by simp
          rw [hd, this]
          exact hct
      have hsp := unindentSpaces_line (textBefore pre) (textAfter (mid ++ post))
        (textAfter_endsLine _) n m chs hm
      rw [textBefore_length] at hsp
      have hline : unindentedLine n m =
          m.drop (min n (m.takeWhile (fun c => c == spaceChar)).length) := by
        simp [unindentedLine, htab]
      rw [← hline] at hsp
      have hsp := hsp.trans (hnew (unindentedLine n m))
      have ih2 := ih (pre ++ [unindentedLine n m])
        { anchor := lineOffset pre, position := lineOffset pre }
        (TextEditor.unindentSpaces n (textBefore pre ++ m ++ textAfter (mid ++ post))
          { anchor := lineOffset pre, position := lineOffset pre } chs).2 hpre2 hmid2
      simp only [List.length_append, List.length_singleton] at ih2
      simp only [hch, if_false, hsp, ih2, hfinal]

/-- C15 (counterexample): with the mark set and the selection 0..5 of "  a", "  b"
(both lines touched), `unindentText` with tab width 2 unindents only the line of the
active point: the result is "  a", "b". -/
theorem unindentText_marked_selection_one_line :
    (TextEditor.ofText "  a\n  b" 0 5 true).cursor.hasSelection = true ∧
    (TextEditor.unindentText 2 (TextEditor.ofText "  a\n  b" 0 5 true)).doc
      = "  a\nb".toList := by
  decide

/-- C15 (amended): with the mark unset, when the cursor's selection (or the cursor
itself when there is no selection) starts on line number `pre.length` and ends on the
last of the lines `mid` (`findBlock` counts the line breaks before a position),
`unindentText` removes from each line of `mid` its leading tab, or else its first
`min n k` spaces (`k` the number of its leading spaces), and changes nothing else. With
the mark set the selection is cleared first: the result is the one for the cursor
without selection at the active point. -/
theorem unindentText_lines (n : Nat) (pre mid post : List (List Char)) (c : QTextCursor)
    (clip : Option (List Char)) (hpre : ∀ l ∈ pre, IsLine l) (hmid : ∀ l ∈ mid, IsLine l)
    (hs : findBlock (joinLn (pre ++ mid ++ post)) c.selectionStart = pre.length)
    (he : findBlock (joinLn (pre ++ mid ++ post)) c.selectionEnd + 1 = pre.length + mid.length) :
    (TextEditor.unindentText n
        { doc := joinLn (pre ++ mid ++ post), cursor := c, m_cursorMark := false,
          clipboard := clip }).doc =
      joinLn (pre ++ mid.map (unindentedLine n) ++ post) ∧
    (TextEditor.unindentText n
        { doc := joinLn (pre ++ mid ++ post), cursor := c, m_cursorMark := true,
          clipboard := clip }).doc =
      (TextEditor.unindentText n
        { doc := joinLn (pre ++ mid ++ post),
          cursor := { anchor := c.position, position := c.position },
          m_cursorMark := false, clipboard := clip }).doc := by
  constructor
  · have hfuel : pre.length + mid.length - pre.length = mid.length := by omega
    by_cases hsel : c.hasSelection = true
    · simp only [TextEditor.unindentText, TextEditor.tryUnsetMark, Bool.false_eq_true, if_false,
        hsel, if_true, hs, he, hfuel]
      exact unindentLoop_lines n post mid pre c [] hpre hmid
    · have heq : c.anchor = c.position := by
        simpa [QTextCursor.hasSelection] using hsel
      have h1 : c.selectionStart = c.position := by
        simp [QTextCursor.selectionStart, heq]
      have h2 : c.selectionEnd = c.position := by
        simp [QTextCursor.selectionEnd, heq]
      rw [h1] at hs
      rw [h2] at he
      have hfuel2 : pre.length + 1 - pre.length = mid.length := by omega
      simp only [TextEditor.unindentText, TextEditor.tryUnsetMark, Bool.false_eq_true, if_false,
        hsel, hs, hfuel2]
      exact unindentLoop_lines n post mid pre c [] hpre hmid
  · simp [TextEditor.unindentText, TextEditor.tryUnsetMark, TextEditor.unsetMark,
      QTextCursor.clearSelection, QTextCursor.hasSelection]

/-- C15 (witness): lines with three spaces, a tab and one space in front, all three
selected, tab width 2: two spaces, the tab and the one space are removed. -/
theorem unindentText_lines_witness :
    (TextEditor.unindentText 2
        { doc := joinLn ([] ++ ["   a".toList, "\tb".toList, " c".toList] ++ [])
          cursor := { anchor := 0, position := 9 }, m_cursorMark := false,
          clipboard := none }).doc = " a\nb\nc".toList :=
  (unindentText_lines 2 [] ["   a".toList, "\tb".toList, " c".toList] []
    { anchor := 0, position := 9 } none (by simp) (by unfold IsLine; decide) (by decide)
    (by decide)).1

/-! ### The scan of updateKeywordSelections -/

/-- A match lies inside the document. -/
theorem matchesAt_bound (K : CaseMap) (flags : Nat) (doc kw : List Char) (j : Nat)
    (hk : 0 < kw.length) (h : matchesAt K flags doc kw j = true) :
    j + kw.length ≤ doc.length := by
  unfold matchesAt at h
  simp only [Bool.and_eq_true, beq_iff_eq, List.length_take, List.length_drop] at h
  omega

/-- What `findFrom` answers: the first matching offset in the scanned range. -/
theorem findFrom_spec (K : CaseMap) (flags : Nat) (doc kw : List Char) (fuel : Nat) :
    ∀ i : Nat,
      (∀ r, findFrom K flags doc kw fuel i = some r →
        i ≤ r ∧ r < i + fuel ∧ matchesAt K flags doc kw r = true ∧
          ∀ j, i ≤ j → j < r → matchesAt K flags doc kw j = false) ∧
      (findFrom K flags doc kw fuel i = none →
        ∀ j, i ≤ j → j < i + fuel → matchesAt K flags doc kw j = false) := by
  induction fuel with
  | zero =>
    intro i
    refine ⟨fun r h => by simp [findFrom] at h, fun _ j h1 h2 => by omega⟩
  | succ f ih =>
    intro i
    by_cases hm : matchesAt K flags doc kw i = true
    · refine ⟨fun r h => ?_, fun h => ?_⟩
      · simp only [findFrom, hm, if_true, Option.some.injEq] at h
        subst h
        exact ⟨Nat.le_refl _, by omega, hm, fun j h1 h2 => by omega⟩
      · simp [findFrom, hm] at h
    · have hm2 : matchesAt K flags doc kw i = false := by simpa using hm
      obtain ⟨ih1, ih2⟩ := ih (i + 1)
      refine ⟨fun r h => ?_, fun h => ?_⟩
      · simp only [findFrom, hm2, Bool.false_eq_true, if_false] at h
        obtain ⟨h1, h2, h3, h4⟩ := ih1 r h
        refine ⟨by omega, by omega, h3, fun j hj1 hj2 => ?_⟩
        by_cases hji : j = i
        · rw [hji]; exact hm2
        · exact h4 j (by omega) hj2
      · simp only [findFrom, hm2, Bool.false_eq_true, if_false] at h
        intro j hj1 hj2
        by_cases hji : j = i
        · rw [hji]; exact hm2
        · exact ih2 h j (by omega) (by omega)

/-- The loop of `updateKeywordSelections`, started with the result of a search from
offset `e`: it appends matches that lie at or after `e`, one after the other without
overlap, and every matching offset from `e` on lies inside one of them. -/
theorem keywordLoop_scan (K : CaseMap) (flags : Nat) (doc kw : List Char) (hkw : kw ≠ []) :
    ∀ (fuel e : Nat) (acc : List QTextCursor), doc.length < fuel + e + kw.length →
      ∃ tail : List QTextCursor,
        TextEditor.keywordLoop K flags doc kw fuel
            ((findFrom K flags doc kw (doc.length + 1 - e) e).map
              (fun i => ({ anchor := i, position := i + kw.length } : QTextCursor))) acc =
          acc ++ tail ∧
        (∀ m ∈ tail, matchesAt K flags doc kw m.anchor = true ∧
          m.position = m.anchor + kw.length ∧ e ≤ m.anchor) ∧
        List.Chain' (fun a b : QTextCursor => a.position ≤ b.anchor) tail ∧
        (∀ j, e ≤ j → matchesAt K flags doc kw j = true →
          ∃ m ∈ tail, m.anchor ≤ j ∧ j < m.position) := by
  have hk : 0 < kw.length := List.length_pos.mpr hkw
  intro fuel
  induction fuel with
  | zero =>
    intro e acc hfuel
    obtain ⟨h1, h2⟩ := findFrom_spec K flags doc kw (doc.length + 1 - e) e
    cases hf : findFrom K flags doc kw (doc.length + 1 - e) e with
    | none =>
      refine ⟨[], by simp [TextEditor.keywordLoop], by simp, List.chain'_nil, ?_⟩
      intro j hj hm
      have hb := matchesAt_bound K flags doc kw j hk hm
      have := h2 hf j hj (by omega)
      rw [this] at hm
      exact absurd hm (by simp)
    | some r =>
      obtain ⟨_, _, hm, _⟩ := h1 r hf
      have hb := matchesAt_bound K flags doc kw r hk hm
      omega
  | succ f ih =>
    intro e acc hfuel
    obtain ⟨h1, h2⟩ := findFrom_spec K flags doc kw (doc.length + 1 - e) e
    cases hf : findFrom K flags doc kw (doc.length + 1 - e) e with
    | none =>
      refine ⟨[], by simp [TextEditor.keywordLoop], by simp, List.chain'_nil, ?_⟩
      intro j hj hm
      have hb := matchesAt_bound K flags doc kw j hk hm
      have := h2 hf j hj (by omega)
      rw [this] at hm
      exact absurd hm (by simp)
    | some r =>
      obtain ⟨hr1, _, hm, hfirst⟩ := h1 r hf
      have hb := matchesAt_bound K flags doc kw r hk hm
      have hend : (({ anchor := r, position := r + kw.length } : QTextCursor)).selectionEnd =
          r + kw.length := by
        simp [QTextCursor.selectionEnd]
      have hne : kw.isEmpty = false := by
        cases kw with
        | nil => exact absurd rfl hkw
        | cons _ _ => rfl
      obtain ⟨tail, ht1, ht2, ht3, ht4⟩ := ih (r + kw.length)
        (acc ++ [{ anchor := r, position := r + kw.length }]) (by omega)
      refine ⟨{ anchor := r, position := r + kw.length } :: tail, ?_, ?_, ?_, ?_⟩
      · simp only [Option.map_some', TextEditor.keywordLoop, findString, hne, Bool.false_eq_true,
          if_false, hend, ht1]
        simp
      · intro m hmem
        rcases List.mem_cons.mp hmem with rfl | hmem
        · exact ⟨hm, rfl, hr1⟩
        · obtain ⟨a1, a2, a3⟩ := ht2 m hmem
          exact ⟨a1, a2, by omega⟩
      · cases tail with
        | nil => exact List.chain'_singleton _
        | cons t tail2 =>
          refine List.Chain'.cons ?_ ht3
          exact (ht2 t (List.mem_cons_self _ _)).2.2
      · intro j hj hmj
        by_cases hjr : j < r
        · have := hfirst j hj hjr
          rw [this] at hmj
          exact absurd hmj (by simp)
        · by_cases hjk : j < r + kw.length
          · exact ⟨_, List.mem_cons_self _ _, by simp only; omega, hjk⟩
          · obtain ⟨m, hmem, hm1, hm2⟩ := ht4 j (by omega) hmj
            exact ⟨m, List.mem_cons_of_mem _ hmem, hm1, hm2⟩

/-- The match set of `updateKeywordSelections` for a non-empty keyword, relative to the
comparison the search uses (flags 0: case folded): every span is a match of the
keyword's length, each span starts at or after the end of the one before, and every
offset at which the keyword matches lies inside a span that starts at or before it, so
no match behind the previous span is passed over. -/
theorem updateKeywordSelections_scan (K : CaseMap) (doc kw : List Char) (hkw : kw ≠ []) :
    (∀ m ∈ TextEditor.updateKeywordSelections K kw doc,
      matchesAt K 0 doc kw m.anchor = true ∧ m.position = m.anchor + kw.length) ∧
    List.Chain' (fun a b : QTextCursor => a.position ≤ b.anchor)
      (TextEditor.updateKeywordSelections K kw doc) ∧
    (∀ j, matchesAt K 0 doc kw j = true →
      ∃ m ∈ TextEditor.updateKeywordSelections K kw doc, m.anchor ≤ j ∧ j < m.position) := by
  have hk : 0 < kw.length := List.length_pos.mpr hkw
  have hne : kw.isEmpty = false := by
    cases kw with
    | nil => exact absurd rfl hkw
    | cons _ _ => rfl
  obtain ⟨tail, ht1, ht2, ht3, ht4⟩ := keywordLoop_scan K 0 doc kw hkw doc.length 0 [] (by omega)
  have hflags : ((0 : Nat) &&& FindCaseSensitively) = 0 := by decide
  have hupd : TextEditor.updateKeywordSelections K kw doc = tail := by
    simp only [TextEditor.updateKeywordSelections, hne, Bool.not_false, if_true, hflags, findString,
      Bool.false_eq_true, if_false, QTextCursor.selectionEnd, Nat.max_self, Nat.sub_zero,
      List.nil_append] at ht1 ⊢
    exact ht1
  rw [hupd]
  exact ⟨fun m hm => ⟨(ht2 m hm).1, (ht2 m hm).2.1⟩, ht3, fun j hj => ht4 j (Nat.zero_le _) hj⟩

/-! ### Match navigation -/

/-- The backward loop of `setCursorKeywordSeletoin` skips the spans that end at or
after the position. -/
theorem selectPrevKeyword_skip (position : Nat) (s : TextEditor) (k : SearchState)
    (before rest : List QTextCursor) (h : ∀ b ∈ before, position ≤ b.position) :
    TextEditor.selectPrevKeyword position s k (before ++ rest) =
      TextEditor.selectPrevKeyword position s k rest := by
  induction before with
  | nil => rfl
  | cons b before ih =>
    have hb : ¬ b.position < position := Nat.not_lt.mpr (h b (List.mem_cons_self _ _))
    simp only [List.cons_append, TextEditor.selectPrevKeyword, hb, if_false]
    exact ih (fun x hx => h x (List.mem_cons_of_mem _ hx))

/-- Forward wrap-around of `updateCursorKeywordSelection`: when no span of the match set
ends after `position`, the first span becomes the current match (a span of a non-empty
keyword ends after offset 0). -/
theorem updateCursorKeywordSelection_forward_wrap (L : Layout) (position : Nat)
    (s : TextEditor) (k : SearchState) (m : QTextCursor) (rest : List QTextCursor)
    (hk : k.m_keywordSelections = m :: rest) (hm : 0 < m.position)
    (hnone : ∀ x ∈ k.m_keywordSelections, x.position ≤ position) :
    (TextEditor.updateCursorKeywordSelection L position true s k).2.m_cursorKeywordSelection
      = m := by
  have h1 : TextEditor.setCursorKeywordSeletoin position true s k = (false, s, k) := by
    have := selectNextKeyword_skip position s k k.m_keywordSelections [] hnone
    simp only [List.append_nil] at this
    simp only [TextEditor.setCursorKeywordSeletoin, if_true, this, TextEditor.selectNextKeyword]
  have hm2 : m.position > 0 := hm
  have h2 : (TextEditor.setCursorKeywordSeletoin 0 true s k).1 = true ∧
      (TextEditor.setCursorKeywordSeletoin 0 true s k).2.2.m_cursorKeywordSelection = m := by
    simp only [TextEditor.setCursorKeywordSeletoin, if_true, hk, TextEditor.selectNextKeyword,
      hm2, and_self]
  simp only [TextEditor.updateCursorKeywordSelection, h1, Bool.not_false, if_true, h2.1,
    Bool.not_true, Bool.false_eq_true, if_false, h2.2]

/-- Backward wrap-around of `updateCursorKeywordSelection`: when no span of the match
set ends before `position` and the last span ends before the end of the document, the
last span becomes the current match. -/
theorem updateCursorKeywordSelection_backward_wrap (L : Layout) (position : Nat)
    (s : TextEditor) (k : SearchState) (m : QTextCursor) (init : List QTextCursor)
    (hk : k.m_keywordSelections = init ++ [m]) (hm : m.position < s.doc.length)
    (hnone : ∀ x ∈ k.m_keywordSelections, position ≤ x.position) :
    (TextEditor.updateCursorKeywordSelection L position false s k).2.m_cursorKeywordSelection
      = m := by
  have h1 : TextEditor.setCursorKeywordSeletoin position false s k = (false, s, k) := by
    have := selectPrevKeyword_skip position s k k.m_keywordSelections.reverse []
      (fun b hb => hnone b (List.mem_reverse.mp hb))
    simp only [List.append_nil] at this
    simp only [TextEditor.setCursorKeywordSeletoin, Bool.false_eq_true, if_false, this,
      TextEditor.selectPrevKeyword]
  have hend : (s.cursor.movePosition L s.doc MoveOperation.End MoveMode.MoveAnchor).position =
      s.doc.length := by
    simp [QTextCursor.movePosition, QTextCursor.moveTarget]
  simp only [TextEditor.updateCursorKeywordSelection, h1, Bool.not_false, if_true,
    Bool.false_eq_true, if_false, hend]
  simp only [TextEditor.setCursorKeywordSeletoin, Bool.false_eq_true, if_false, hk,
    List.reverse_append, List.reverse_cons, List.reverse_nil, List.nil_append,
    List.singleton_append, TextEditor.selectPrevKeyword, hm, if_true]

/-- C21: the backward wrap-around passes over a match that ends at the end of the
document. In "cat dog cat" the match set of "cat" is 0..3 and 8..11; no match ends
before position 0, and `updateCursorKeywordSelection(0, false)` makes 0..3 the current
match, not the last match 8..11. With one more character behind the last match
("cat dog cat.") the same call makes 8..11 the current match, and the forward wrap-around
from position 11 makes the first match current. -/
theorem updateCursorKeywordSelection_backward_wrap_skips_match_at_end :
    TextEditor.updateKeywordSelections asciiCase "cat".toList "cat dog cat".toList
      = [{ anchor := 0, position := 3 }, { anchor := 8, position := 11 }] ∧
    (TextEditor.updateCursorKeywordSelection plainLayout 0 false
        (TextEditor.ofText "cat dog cat" 0 0 false)
        { m_keywordSelections :=
            TextEditor.updateKeywordSelections asciiCase "cat".toList "cat dog cat".toList
          m_cursorKeywordSelection := { anchor := 0, position := 0 } }
      ).2.m_cursorKeywordSelection = { anchor := 0, position := 3 } ∧
    (TextEditor.updateCursorKeywordSelection plainLayout 0 false
        (TextEditor.ofText "cat dog cat." 0 0 false)
        { m_keywordSelections :=
            TextEditor.updateKeywordSelections asciiCase "cat".toList "cat dog cat.".toList
          m_cursorKeywordSelection := { anchor := 0, position := 0 } }
      ).2.m_cursorKeywordSelection = { anchor := 8, position := 11 } ∧
    (TextEditor.updateCursorKeywordSelection plainLayout 11 true
        (TextEditor.ofText "cat dog cat" 0 0 false)
        { m_keywordSelections :=
            TextEditor.updateKeywordSelections asciiCase "cat".toList "cat dog cat".toList
          m_cursorKeywordSelection := { anchor := 0, position := 0 } }
      ).2.m_cursorKeywordSelection = { anchor := 0, position := 3 } := by
  decide

/-! ### replaceNext -/

/-- C23: `replaceNext` changes a document in which the keyword does not occur. The
text is "hello world", the text cursor selects 0..5 and "xyz" has no match:
`highlightKeyword` stores the text cursor, selection included, as the current match
cursor, and `replaceNext("xyz", "Q")` then replaces the three characters before offset
5, giving "heQ world". Without a selection of the text cursor the same calls leave the
text as it is. -/
theorem replaceNext_replaces_without_match :
    TextEditor.updateKeywordSelections asciiCase "xyz".toList "hello world".toList = [] ∧
    (TextEditor.highlightKeyword asciiCase plainLayout "xyz".toList 5
        (TextEditor.ofText "hello world" 0 5 false)
        { m_keywordSelections := [], m_cursorKeywordSelection := { anchor := 0, position := 0 } }
      ).2.m_cursorKeywordSelection = { anchor := 0, position := 5 } ∧
    (TextEditor.replaceNext asciiCase plainLayout "xyz".toList "Q".toList
        (TextEditor.highlightKeyword asciiCase plainLayout "xyz".toList 5
          (TextEditor.ofText "hello world" 0 5 false)
          { m_keywordSelections := [],
            m_cursorKeywordSelection := { anchor := 0, position := 0 } }).1
        (TextEditor.highlightKeyword asciiCase plainLayout "xyz".toList 5
          (TextEditor.ofText "hello world" 0 5 false)
          { m_keywordSelections := [],
            m_cursorKeywordSelection := { anchor := 0, position := 0 } }).2
      ).1.doc = "heQ world".toList ∧
    (TextEditor.replaceNext asciiCase plainLayout "xyz".toList "Q".toList
        (TextEditor.highlightKeyword asciiCase plainLayout "xyz".toList 5
          (TextEditor.ofText "hello world" 5 5 false)
          { m_keywordSelections := [],
            m_cursorKeywordSelection := { anchor := 0, position := 0 } }).1
        (TextEditor.highlightKeyword asciiCase plainLayout "xyz".toList 5
          (TextEditor.ofText "hello world" 5 5 false)
          { m_keywordSelections := [],
            m_cursorKeywordSelection := { anchor := 0, position := 0 } }).2
      ).1.doc = "hello world".toList := by
  decide

/-! ### Pair jumps that find nothing -/

/-- Without a selection, `forwardPair` changes nothing when no closing delimiter
follows the cursor. -/
theorem forwardPair_not_found_no_selection (s : TextEditor)
    (hsel : s.cursor.anchor = s.cursor.position)
    (hnf : findForward s.doc TextEditor.forwardPairClass s.cursor.position = none) :
    TextEditor.forwardPair s = s := by
  obtain ⟨doc, ⟨a, p⟩, mk, cb⟩ := s
  simp only at hsel hnf
  subst hsel
  simp [TextEditor.forwardPair, TextEditor.find, QTextCursor.clearSelection,
    QTextCursor.selectionEnd, hnf]

/-- Without a selection, `backwardPair` changes nothing when no opening delimiter
precedes the cursor. -/
theorem backwardPair_not_found_no_selection (L : Layout) (s : TextEditor)
    (hsel : s.cursor.anchor = s.cursor.position)
    (hnf : findBackward s.doc TextEditor.backwardPairClass s.cursor.position = none) :
    TextEditor.backwardPair L s = s := by
  obtain ⟨doc, ⟨a, p⟩, mk, cb⟩ := s
  simp only at hsel hnf
  subst hsel
  simp [TextEditor.backwardPair, TextEditor.find, QTextCursor.clearSelection,
    QTextCursor.selectionStart, hnf]

/-- C24: a pair jump that finds nothing drops the selection. In "hello" there is no
delimiter at all; with the selection 1..3 (active point 3) `forwardPair` leaves the
cursor at 3..3, and with the selection 4..2 (active point 2) `backwardPair` leaves it
at 2..2, mark Unset or Set alike: the anchor moved onto the active point. Without a
selection the cursor stays where it was. -/
theorem pair_jump_not_found_clears_selection :
    (TextEditor.forwardPair (TextEditor.ofText "hello" 1 3 false)).cursor
      = { anchor := 3, position := 3 } ∧
    (TextEditor.forwardPair (TextEditor.ofText "hello" 1 3 true)).cursor
      = { anchor := 3, position := 3 } ∧
    (TextEditor.backwardPair plainLayout (TextEditor.ofText "hello" 4 2 false)).cursor
      = { anchor := 2, position := 2 } ∧
    (TextEditor.backwardPair plainLayout (TextEditor.ofText "hello" 4 2 true)).cursor
      = { anchor := 2, position := 2 } ∧
    (TextEditor.forwardPair (TextEditor.ofText "hello" 3 3 false)).cursor
      = { anchor := 3, position := 3 } ∧
    (TextEditor.backwardPair plainLayout (TextEditor.ofText "hello" 2 2 true)).cursor
      = { anchor := 2, position := 2 } := by
  decide

/-! ### moveToLineIndentation -/

/-- C25: `moveToLineIndentation` misses a first non-blank character that is the last
character of its line. On the line " a" the active point ends in column 2, the end of
the line, instead of column 1; on the second line of "x\na" (the one-character line
"a", which starts at offset 2) it ends at offset 3, column 1, instead of column 0. The
lines "  ab" (column 2), "a" as first line (column 0) and "ab" as second line
(column 0) come out right. -/
theorem moveToLineIndentation_last_character_missed :
    (TextEditor.moveToLineIndentation plainLayout (TextEditor.ofText " a" 0 0 false)).cursor
      = { anchor := 2, position := 2 } ∧
    (TextEditor.moveToLineIndentation plainLayout (TextEditor.ofText "x\na" 2 2 false)).cursor
      = { anchor := 3, position := 3 } ∧
    (TextEditor.moveToLineIndentation plainLayout (TextEditor.ofText "  ab" 4 4 false)).cursor
      = { anchor := 2, position := 2 } ∧
    (TextEditor.moveToLineIndentation plainLayout (TextEditor.ofText "a" 1 1 false)).cursor
      = { anchor := 0, position := 0 } ∧
    (TextEditor.moveToLineIndentation plainLayout (TextEditor.ofText "x\nab" 4 4 false)).cursor
      = { anchor := 2, position := 2 } := by
  decide

/-! ### The empty document -/

/-- On the empty document these commands change nothing: the text stays empty and the
cursor stays at offset 0, for every layout, tab width and separator set, and every case
mapping that maps the empty text to itself. -/
theorem empty_document_unchanged (K : CaseMap) (L : Layout) (n : Nat) (seps : List Char)
    (mark : Bool) (cb : Option (List Char)) (w : WordState)
    (hw : w.m_wordUnderPointerCursor = { anchor := 0, position := 0 })
    (hU : K.toUpper [] = []) (hL : K.toLower [] = []) :
    let s : TextEditor :=
      { doc := [], cursor := { anchor := 0, position := 0 }, m_cursorMark := mark,
        clipboard := cb }
    ((TextEditor.killLine L s).doc = [] ∧
      (TextEditor.killLine L s).cursor = { anchor := 0, position := 0 }) ∧
    ((TextEditor.killCurrentLine L s).doc = [] ∧
      (TextEditor.killCurrentLine L s).cursor = { anchor := 0, position := 0 }) ∧
    ((TextEditor.killBackwardWord L s).doc = [] ∧
      (TextEditor.killBackwardWord L s).cursor = { anchor := 0, position := 0 }) ∧
    ((TextEditor.killForwardWord L s).doc = [] ∧
      (TextEditor.killForwardWord L s).cursor = { anchor := 0, position := 0 }) ∧
    ((TextEditor.unindentText n s).doc = [] ∧
      (TextEditor.unindentText n s).cursor = { anchor := 0, position := 0 }) ∧
    ((TextEditor.transposeChar L s).doc = [] ∧
      (TextEditor.transposeChar L s).cursor = { anchor := 0, position := 0 }) ∧
    (∀ c : ConvertCase, ∃ r, TextEditor.convertWordCase K L seps c (TextEditor.tryUnsetMark s).2 w
        = some r ∧ r.1.doc = [] ∧ r.1.cursor = { anchor := 0, position := 0 }) := by
  intro s
  obtain ⟨have_word, wc⟩ := w
  simp only at hw
  subst hw
  refine ⟨?_, ?_, ?_, ?_, ?_, ?_, ?_⟩
  · cases mark <;> simp [s, TextEditor.killLine, TextEditor.tryUnsetMark, TextEditor.unsetMark,
      QTextCursor.clearSelection, QTextCursor.hasSelection, selectedText,
      QTextCursor.selectionStart, QTextCursor.selectionEnd, QTextCursor.movePosition,
      QTextCursor.moveTarget, blockStart, blockEnd, deleteChar, removeSelectedText, trimmed,
      TextEditor.moveCursorNoBlink]
  · cases mark <;> simp [s, TextEditor.killCurrentLine, TextEditor.tryUnsetMark,
      TextEditor.unsetMark,
      QTextCursor.clearSelection, QTextCursor.hasSelection, selectedText,
      QTextCursor.selectionStart, QTextCursor.selectionEnd, QTextCursor.movePosition,
      QTextCursor.moveTarget, blockStart, blockEnd, deleteChar, removeSelectedText, trimmed,
      TextEditor.moveCursorNoBlink]
  · cases mark <;> simp [s, TextEditor.killBackwardWord, TextEditor.tryUnsetMark,
      TextEditor.unsetMark,
      QTextCursor.clearSelection, QTextCursor.hasSelection, QTextCursor.movePosition,
      QTextCursor.moveTarget, removeSelectedText]
  · cases mark <;> simp [s, TextEditor.killForwardWord, TextEditor.tryUnsetMark,
      TextEditor.unsetMark,
      QTextCursor.clearSelection, QTextCursor.hasSelection, QTextCursor.movePosition,
      QTextCursor.moveTarget, removeSelectedText]
  · cases mark <;> simp [s, TextEditor.unindentText, TextEditor.tryUnsetMark,
      TextEditor.unsetMark, QTextCursor.clearSelection, QTextCursor.hasSelection, findBlock,
      TextEditor.unindentLoop, blockPosition, blockStartOf, blockCount, QTextCursor.setPosition,
      characterAt, TextEditor.unindentSpaces, QTextCursor.adjust, paragraphSeparator, tabChar,
      spaceChar] <;> cases n <;> simp [TextEditor.unindentSpaces, characterAt,
        paragraphSeparator, spaceChar, QTextCursor.adjust]
  · cases mark <;> simp [s, TextEditor.transposeChar, TextEditor.tryUnsetMark,
      TextEditor.unsetMark, QTextCursor.clearSelection, QTextCursor.hasSelection,
      QTextCursor.movePosition, QTextCursor.moveTarget, removeSelectedText, selectedText,
      insertText, normalizeText, QTextCursor.selectionStart, QTextCursor.selectionEnd]
  · intro c
    cases mark <;> cases have_word <;> cases c <;>
      simp [s, TextEditor.convertWordCase, TextEditor.tryUnsetMark,
        TextEditor.unsetMark, QTextCursor.clearSelection, QTextCursor.hasSelection,
        QTextCursor.movePosition, QTextCursor.moveTarget, TextEditor.getNextWordPosition,
        QTextCursor.setPosition, selectedText, insertText, removeSelectedText, normalizeText,
        QTextCursor.selectionStart, QTextCursor.selectionEnd, hU, hL, TextEditor.capitalizeText,
        TextEditor.capitalizeLoop]

/-- C26: on the empty document `duplicateLine`, `joinLines` and `moveLineDownUp` are
not no-ops. `duplicateLine` inserts a line break and leaves the cursor behind it,
`joinLines` inserts a space and leaves the cursor behind it, `moveLineDownUp` (up and
down) inserts a line break. -/
theorem empty_document_line_commands_insert :
    TextEditor.duplicateLine plainLayout (TextEditor.ofText "" 0 0 false)
      = TextEditor.ofText "\n" 1 1 false ∧
    TextEditor.joinLines plainLayout (TextEditor.ofText "" 0 0 false)
      = TextEditor.ofText " " 1 1 false ∧
    (TextEditor.moveLineDownUp plainLayout true (TextEditor.ofText "" 0 0 false)).doc
      = "\n".toList ∧
    (TextEditor.moveLineDownUp plainLayout false (TextEditor.ofText "" 0 0 false)).doc
      = "\n".toList := by
  decide

/-! ### getNextWordPosition -/

/-- C28: after a run of spaces `getNextWordPosition` stops one character behind the
first non-space character. In "a  bc" with the cursor at offset 1 the answer is 4: the
document does not end there, the character at offset 4 is "c", no word separator, and
the character before offset 4 is "b", no whitespace; the space-to-nonspace transition
is at offset 3. From offset 0 of "  hello" the answer is 3, behind the "h". From
inside a word the scan stops at the separator ("ab.cd" from 0 gives 2), and on the
empty document the answer is 0. -/
theorem getNextWordPosition_passes_first_nonspace :
    TextEditor.getNextWordPosition plainLayout ".,;".toList "a  bc".toList
      { anchor := 1, position := 1 } MoveMode.KeepAnchor = some 4 ∧
    "a  bc".toList.length = 5 ∧
    "a  bc".toList[4]? = some (Char.ofNat 99) ∧
    (Char.ofNat 99) ∉ ".,;".toList ∧
    "a  bc".toList[3]? = some (Char.ofNat 98) ∧
    isSpace (Char.ofNat 98) = false ∧
    TextEditor.getNextWordPosition plainLayout ".,;".toList "a  bc".toList
      { anchor := 1, position := 1 } MoveMode.MoveAnchor = some 4 ∧
    TextEditor.getNextWordPosition plainLayout ".,;".toList "  hello".toList
      { anchor := 0, position := 0 } MoveMode.KeepAnchor = some 3 ∧
    TextEditor.getNextWordPosition plainLayout ".,;".toList "ab.cd".toList
      { anchor := 0, position := 0 } MoveMode.KeepAnchor = some 2 ∧
    TextEditor.getNextWordPosition plainLayout ".,;".toList []
      { anchor := 0, position := 0 } MoveMode.KeepAnchor = some 0 := by
  decide

/-! ### Read-only mode -/

/-- The simple navigation commands leave the text alone. -/
theorem markedMove_doc (L : Layout) (op : MoveOperation) (s : TextEditor) :
    (TextEditor.markedMove L op s).doc = s.doc := by
  unfold TextEditor.markedMove TextEditor.moveCursorNoBlink
  split_ifs <;> rfl

/-- The search of a pair jump leaves the text alone. -/
theorem find_doc (cls : Char → Bool) (backward : Bool) (s : TextEditor) :
    (TextEditor.find cls backward s).2.doc = s.doc := by
  unfold TextEditor.find
  cases backward
  · cases findForward s.doc cls s.cursor.selectionEnd <;> rfl
  · cases findBackward s.doc cls s.cursor.selectionStart <;> rfl

/-- The pair jump `forwardPair` leaves the text alone. -/
theorem forwardPair_doc (s : TextEditor) : (TextEditor.forwardPair s).doc = s.doc := by
  have h := find_doc TextEditor.forwardPairClass false { s with cursor := s.cursor.clearSelection }
  unfold TextEditor.forwardPair
  rcases hf : TextEditor.find TextEditor.forwardPairClass false
    { s with cursor := s.cursor.clearSelection } with ⟨found, t⟩
  rw [hf] at h
  simp only at h
  simp only [hf]
  split_ifs <;> exact h

/-- The pair jump `backwardPair` leaves the text alone. -/
theorem backwardPair_doc (L : Layout) (s : TextEditor) :
    (TextEditor.backwardPair L s).doc = s.doc := by
  have h := find_doc TextEditor.backwardPairClass true { s with cursor := s.cursor.clearSelection }
  unfold TextEditor.backwardPair
  rcases hf : TextEditor.find TextEditor.backwardPairClass true
    { s with cursor := s.cursor.clearSelection } with ⟨found, t⟩
  rw [hf] at h
  simp only at h
  simp only [hf]
  split_ifs <;> exact h

/-- The scroll commands and `copyLines` leave the text alone. -/
theorem scroll_copy_doc (L : Layout) (V : Viewport) (s : TextEditor) :
    (TextEditor.scrollUp V s).doc = s.doc ∧ (TextEditor.scrollDown V s).doc = s.doc ∧
    (TextEditor.scrollLineUp L V s).doc = s.doc ∧ (TextEditor.scrollLineDown L V s).doc = s.doc ∧
    (TextEditor.copyLines L s).doc = s.doc := by
  refine ⟨?_, ?_, ?_, ?_, rfl⟩
  · simp only [TextEditor.scrollUp]
    split_ifs <;> first | rfl | (split <;> rfl)
  · simp only [TextEditor.scrollDown]
    split <;> rfl
  · simp only [TextEditor.scrollLineUp]
    split_ifs <;> rfl
  · simp only [TextEditor.scrollLineDown]
    split_ifs <;> rfl

/-- A two-way choice between states with the same text has that text. -/
theorem ite_fst_doc {c : Prop} [Decidable c] {a b : TextEditor × Bool} {d : List Char}
    (ha : a.1.doc = d) (hb : b.1.doc = d) : (if c then a else b).1.doc = d := by
  split_ifs <;> assumption

/-- C27: in read-only mode `keyPressEvent` leaves the document text unchanged, whatever
the resolved key string, the keymap entry for the toggle command, the layout, the
viewport and the editor state. -/
theorem keyPressEvent_read_only_keeps_text (L : Layout) (V : Viewport)
    (togglereadonlymode key : String) (s : TextEditor) :
    (TextEditor.keyPressEventReadOnly L V togglereadonlymode key s).1.doc = s.doc := by
  have hn : (TextEditor.nextLine L s).doc = s.doc := by
    unfold TextEditor.nextLine
    split_ifs
    · rfl
    · exact markedMove_doc L _ s
  have hp : (TextEditor.prevLine L s).doc = s.doc := by
    unfold TextEditor.prevLine
    split_ifs
    · rfl
    · exact markedMove_doc L _ s
  have hfw : (TextEditor.forwardWord L s).doc = s.doc := by
    unfold TextEditor.forwardWord
    split_ifs <;> rfl
  have hbw : (TextEditor.backwardWord L s).doc = s.doc := by
    unfold TextEditor.backwardWord
    split_ifs <;> rfl
  obtain ⟨h1, h2, h3, h4, h5⟩ := scroll_copy_doc L V s
  unfold TextEditor.keyPressEventReadOnly
  apply ite_fst_doc hn
  apply ite_fst_doc hp
  apply ite_fst_doc (markedMove_doc L _ s)
  apply ite_fst_doc (markedMove_doc L _ s)
  apply ite_fst_doc (markedMove_doc L _ s)
  apply ite_fst_doc (markedMove_doc L _ s)
  apply ite_fst_doc h1
  apply ite_fst_doc h2
  apply ite_fst_doc hfw
  apply ite_fst_doc hbw
  apply ite_fst_doc (markedMove_doc L _ s)
  apply ite_fst_doc (markedMove_doc L _ s)
  apply ite_fst_doc (show (TextEditor.moveToLineIndentation L s, true).1.doc = s.doc from rfl)
  apply ite_fst_doc (show (s, TextEditor.toggleReadOnlyMode true).1.doc = s.doc from rfl)
  apply ite_fst_doc h3
  apply ite_fst_doc h4
  apply ite_fst_doc (forwardPair_doc s)
  apply ite_fst_doc (backwardPair_doc L s)
  apply ite_fst_doc h5
  apply ite_fst_doc (show (s, TextEditor.toggleReadOnlyMode true).1.doc = s.doc from rfl)
  rfl

/-! ### indentText followed by unindentText -/

/-- A change never reorders two offsets. -/
theorem shift_mono (ch : Change) (x y : Nat) (h : x ≤ y) : ch.shift x ≤ ch.shift y := by
  cases ch with
  | inserted p n =>
    simp only [Change.shift]
    split_ifs <;> omega
  | removed p n =>
    simp only [Change.shift]
    split_ifs <;> omega

/-- A sequence of changes never reorders two offsets. -/
theorem foldl_shift_mono (chs : List Change) :
    ∀ x y : Nat, x ≤ y →
      chs.foldl (fun x ch => Change.shift x ch) x ≤ chs.foldl (fun x ch => Change.shift x ch) y := by
  induction chs with
  | nil => intro x y h; exact h
  | cons ch chs ih =>
    intro x y h
    simp only [List.foldl_cons]
    exact ih _ _ (shift_mono ch x y h)

/-- The offsets of a cursor that followed a sequence of changes. -/
theorem adjust_eq (chs : List Change) :
    ∀ c : QTextCursor,
      c.adjust chs = { anchor := chs.foldl (fun x ch => Change.shift x ch) c.anchor,
                       position := chs.foldl (fun x ch => Change.shift x ch) c.position } := by
  induction chs with
  | nil => intro c; rfl
  | cons ch chs ih =>
    intro c
    have := ih { anchor := ch.shift c.anchor, position := ch.shift c.position }
    simp only [QTextCursor.adjust, List.foldl_cons] at this ⊢
    exact this

/-- The selection bounds of a cursor that followed a sequence of changes are the
followed bounds. -/
theorem adjust_selection (chs : List Change) (c : QTextCursor) :
    (c.adjust chs).selectionStart = chs.foldl (fun x ch => Change.shift x ch) c.selectionStart ∧
    (c.adjust chs).selectionEnd = chs.foldl (fun x ch => Change.shift x ch) c.selectionEnd := by
  rw [adjust_eq]
  simp only [QTextCursor.selectionStart, QTextCursor.selectionEnd]
  rcases Nat.le_total c.anchor c.position with h | h
  · have := foldl_shift_mono chs _ _ h
    rw [Nat.min_eq_left h, Nat.max_eq_right h, Nat.min_eq_left this, Nat.max_eq_right this]
    exact ⟨rfl, rfl⟩
  · have := foldl_shift_mono chs _ _ h
    rw [Nat.min_eq_right h, Nat.max_eq_left h, Nat.min_eq_right this, Nat.max_eq_left this]
    exact ⟨rfl, rfl⟩

/-- A later position lies in a later or the same block. -/
theorem findBlock_mono (doc : List Char) (a b : Nat) (h : a ≤ b) :
    findBlock doc a ≤ findBlock doc b := by
  unfold findBlock
  have : doc.take a = (doc.take b).take a := by
    rw [List.take_take, Nat.min_eq_left h]
  rw [this]
  exact (List.take_sublist a _).count_le _

/-- Every position lies in a block of the document. -/
theorem findBlock_lt (doc : List Char) (a : Nat) : findBlock doc a < blockCount doc := by
  unfold findBlock blockCount
  exact Nat.lt_succ_of_le ((List.take_sublist a doc).count_le _)

/-- Inserting text without line break keeps every position in its block. -/
theorem findBlock_inserted (doc t : List Char) (p x : Nat) (hp : p ≤ doc.length)
    (ht : newlineChar ∉ t) :
    findBlock (doc.take p ++ t ++ doc.drop p) ((Change.inserted p t.length).shift x) =
      findBlock doc x := by
  have hz : t.count newlineChar = 0 := List.count_eq_zero.mpr ht
  have hlen : (doc.take p).length = p := by simp [hp]
  unfold findBlock
  simp only [Change.shift]
  by_cases hx : x < p
  · rw [if_pos hx, List.append_assoc, List.take_append_of_le_length (by omega), List.take_take,
      Nat.min_eq_left (Nat.le_of_lt hx)]
  · rw [if_neg hx]
    have hxp : x + t.length = (doc.take p ++ t).length + (x - p) := by
      rw [List.length_append, hlen]; omega
    have hsplit : doc.take x = doc.take p ++ (doc.drop p).take (x - p) := by
      have : x = p + (x - p) := by omega
      conv_lhs => rw [this]
      exact List.take_add _ _ _
    rw [hxp, List.take_append, hsplit, List.count_append, List.count_append, List.count_append,
      hz]
    omega

/-- The number of line breaks in the text after a line is the number of lines after. -/
theorem textAfter_count (post : List (List Char)) (hpost : ∀ l ∈ post, IsLine l) :
    (textAfter post).count newlineChar = post.length := by
  induction post with
  | nil => rfl
  | cons a post ih =>
    have ha : a.count newlineChar = 0 := List.count_eq_zero.mpr (hpost a (List.mem_cons_self _ _))
    have := ih (fun l hl => hpost l (List.mem_cons_of_mem _ hl))
    simp only [textAfter, List.map_cons, List.flatten_cons, List.count_append, List.count_cons_self,
      ha, List.length_cons] at this ⊢
    omega

/-- Every document is the text of its lines, one line per block. -/
theorem lines_of_document (doc : List Char) :
    ∃ ls : List (List Char), (∀ l ∈ ls, IsLine l) ∧ doc = joinLn ls ∧
      ls.length = blockCount doc := by
  obtain ⟨pre, ln, post, k, hpre, hln, hpost, _, hdoc, _⟩ := exists_lines_at doc 0 (Nat.zero_le _)
  refine ⟨pre ++ ln :: post, ?_, hdoc, ?_⟩
  · intro l hl
    rcases List.mem_append.mp hl with h | h
    · exact hpre l h
    · rcases List.mem_cons.mp h with h | h
      · rw [h]; exact hln
      · exact hpost l h
  · have hz : ln.count newlineChar = 0 := List.count_eq_zero.mpr hln
    rw [hdoc, joinLn_split]
    unfold blockCount
    rw [List.count_append, List.count_append, textBefore_count pre hpre,
      textAfter_count post hpost, hz]
    simp only [List.length_append, List.length_cons]
    omega

/-- The start of an existing block lies inside the document. -/
theorem blockStartOf_le : ∀ (b : Nat) (doc : List Char), b ≤ doc.count newlineChar →
    blockStartOf doc b ≤ doc.length := by
  intro b
  induction b with
  | zero => intro doc _; exact Nat.zero_le _
  | succ b ih =>
    intro doc hb
    obtain ⟨u1, u2, hdoc, hu1, hu2⟩ := exists_line_after doc
    have hz : u1.count newlineChar = 0 := List.count_eq_zero.mpr hu1
    rcases hu2 with rfl | ⟨u, rfl⟩
    · rw [hdoc, List.append_nil, hz] at hb
      omega
    · have hall : ∀ c ∈ u1, (c != newlineChar) = true := by
        intro c hc
        simp only [bne_iff_ne, ne_eq]
        rintro rfl
        exact hu1 hc
      have htw : ((u1 ++ newlineChar :: u).takeWhile (fun c => c != newlineChar)) = u1 := by
        rw [List.takeWhile_append_of_pos hall]
        simp
      have hdrop : (u1 ++ newlineChar :: u).drop (u1.length + 1) = u := by
        rw [List.drop_append_eq_append_drop]
        simp
      have hcount : b ≤ u.count newlineChar := by
        rw [hdoc, List.count_append, hz, List.count_cons_self] at hb
        omega
      have := ih u hcount
      rw [hdoc, blockStartOf]
      simp only [htw, hdrop, List.length_append, List.length_cons]
      omega

/-- The position of a block lies inside the document. -/
theorem blockPosition_le (doc : List Char) (b : Nat) : blockPosition doc b ≤ doc.length := by
  unfold blockPosition
  split_ifs with h
  · unfold blockCount at h
    exact blockStartOf_le b doc (by omega)
  · exact Nat.zero_le _

/-- The loop of `indentText` keeps every position that follows its changes in its
block. -/
theorem indentLoop_findBlock (n : Nat) :
    ∀ (fuel block : Nat) (doc : List Char) (cursor : QTextCursor) (chs : List Change) (x : Nat),
      findBlock (TextEditor.indentLoop (List.replicate n spaceChar) fuel block doc cursor chs).1
          ((TextEditor.indentLoop (List.replicate n spaceChar) fuel block doc cursor chs).2.foldl
            (fun x ch => Change.shift x ch) x) =
        findBlock doc (chs.foldl (fun x ch => Change.shift x ch) x) := by
  intro fuel
  induction fuel with
  | zero => intro block doc cursor chs x; rfl
  | succ f ih =>
    intro block doc cursor chs x
    have hle := blockPosition_le doc block
    have hin : ¬ doc.length < blockPosition doc block := by omega
    have hsp : newlineChar ∉ List.replicate n spaceChar := by
      intro h
      have := List.eq_of_mem_replicate h
      exact absurd this (by decide)
    have hins : insertText doc
        { anchor := blockPosition doc block, position := blockPosition doc block }
        (List.replicate n spaceChar) =
        { doc := doc.take (blockPosition doc block) ++ List.replicate n spaceChar ++
            doc.drop (blockPosition doc block)
          cursor := { anchor := blockPosition doc block + n,
                      position := blockPosition doc block + n }
          changes := [Change.inserted (blockPosition doc block) n] } := by
      simp [insertText, removeSelectedText, QTextCursor.hasSelection, normalizeText_spaces]
    simp only [TextEditor.indentLoop, QTextCursor.setPosition, hin, if_false, hins]
    rw [ih]
    simp only [List.foldl_append, List.foldl_cons, List.foldl_nil]
    have := findBlock_inserted doc (List.replicate n spaceChar) (blockPosition doc block)
      (chs.foldl (fun x ch => Change.shift x ch) x) hle hsp
    simp only [List.length_replicate] at this
    exact this

/-- Unindenting a line that was indented by `n ≥ 1` spaces gives the line back. -/
theorem unindentedLine_indented (n : Nat) (hn : 1 ≤ n) (l : List Char) :
    unindentedLine n (List.replicate n spaceChar ++ l) = l := by
  obtain ⟨m, rfl⟩ : ∃ m, n = m + 1 := ⟨n - 1, by omega⟩
  have hhead : (List.replicate (m + 1) spaceChar ++ l).head? ≠ some tabChar := by
    simp only [List.replicate_succ, List.cons_append, List.head?_cons, ne_eq, Option.some.injEq]
    decide
  have hall : ∀ c ∈ List.replicate (m + 1) spaceChar, (c == spaceChar) = true := by
    intro c hc
    rw [List.eq_of_mem_replicate hc]
    exact beq_self_eq_true _
  have hk : m + 1 ≤ ((List.replicate (m + 1) spaceChar ++ l).takeWhile
      (fun c => c == spaceChar)).length := by
    rw [List.takeWhile_append_of_pos hall, List.length_append, List.length_replicate]
    omega
  unfold unindentedLine
  rw [if_neg hhead, Nat.min_eq_left hk]
  exact List.drop_left' (List.length_replicate _ _)

/-- The round trip on a document given by its lines: the selection starts on line
number `pre.length` and ends on the last of the lines `mid`. -/
theorem indent_unindent_lines (n : Nat) (hn : 1 ≤ n) (pre mid post : List (List Char))
    (c : QTextCursor) (clip : Option (List Char)) (hpre : ∀ l ∈ pre, IsLine l)
    (hmid : ∀ l ∈ mid, IsLine l) (hsel : c.hasSelection = true)
    (hs : findBlock (joinLn (pre ++ mid ++ post)) c.selectionStart = pre.length)
    (he : findBlock (joinLn (pre ++ mid ++ post)) c.selectionEnd + 1 = pre.length + mid.length) :
    (TextEditor.unindentText n (TextEditor.indentText n
        { doc := joinLn (pre ++ mid ++ post), cursor := c, m_cursorMark := false,
          clipboard := clip })).doc = joinLn (pre ++ mid ++ post) := by
  have hfuel : pre.length + mid.length - pre.length = mid.length := by omega
  have hD1 := indentLoop_lines n post mid pre c [] hpre hmid
  have hfb := indentLoop_findBlock n mid.length pre.length (joinLn (pre ++ mid ++ post)) c []
  simp only [List.foldl_nil] at hfb
  obtain ⟨hss, hse⟩ := adjust_selection
    (TextEditor.indentLoop (List.replicate n spaceChar) mid.length pre.length
      (joinLn (pre ++ mid ++ post)) c []).2 c
  have hI : TextEditor.indentText n
      { doc := joinLn (pre ++ mid ++ post), cursor := c, m_cursorMark := false,
        clipboard := clip } =
      { doc := joinLn (pre ++ mid.map (fun l => List.replicate n spaceChar ++ l) ++ post)
        cursor := c.adjust (TextEditor.indentLoop (List.replicate n spaceChar) mid.length
          pre.length (joinLn (pre ++ mid ++ post)) c []).2
        m_cursorMark := false, clipboard := clip } := by
    simp only [TextEditor.indentText, TextEditor.tryUnsetMark, Bool.false_eq_true, if_false,
      hsel, if_true, hs, he, hfuel, hD1]
  rw [hI]
  generalize hc1 : c.adjust (TextEditor.indentLoop (List.replicate n spaceChar) mid.length
    pre.length (joinLn (pre ++ mid ++ post)) c []).2 = c1 at hss hse
  have hs1 : findBlock (joinLn (pre ++ mid.map (fun l => List.replicate n spaceChar ++ l) ++ post))
      c1.selectionStart = pre.length := by
    rw [hss, ← hD1, hfb]; exact hs
  have he1 : findBlock (joinLn (pre ++ mid.map (fun l => List.replicate n spaceChar ++ l) ++ post))
      c1.selectionEnd + 1 = pre.length + mid.length := by
    rw [hse, ← hD1, hfb]; exact he
  have hmid1 : ∀ l ∈ mid.map (fun l => List.replicate n spaceChar ++ l), IsLine l := by
    intro l hl
    obtain ⟨l0, hl0, rfl⟩ := List.mem_map.mp hl
    intro hm
    rcases List.mem_append.mp hm with h | h
    · exact absurd (List.eq_of_mem_replicate h) (by decide)
    · exact hmid l0 hl0 h
  have hU := unindentLoop_lines n post (mid.map (fun l => List.replicate n spaceChar ++ l)) pre
    c1 [] hpre hmid1
  rw [List.length_map] at hU
  have hback : (mid.map (fun l => List.replicate n spaceChar ++ l)).map (unindentedLine n) =
      mid := by
    rw [List.map_map]
    conv_rhs => rw [← List.map_id mid]
    apply List.map_congr_left
    intro l _
    exact unindentedLine_indented n hn l
  rw [hback] at hU
  by_cases hsel1 : c1.hasSelection = true
  · simp only [TextEditor.unindentText, TextEditor.tryUnsetMark, Bool.false_eq_true, if_false,
      hsel1, if_true, hs1, he1, hfuel]
    exact hU
  · have heq : c1.anchor = c1.position := by
      simpa [QTextCursor.hasSelection] using hsel1
    have h1 : c1.selectionStart = c1.position := by
      simp [QTextCursor.selectionStart, heq]
    have h2 : c1.selectionEnd = c1.position := by
      simp [QTextCursor.selectionEnd, heq]
    rw [h1] at hs1
    rw [h2] at he1
    have hfuel2 : pre.length + 1 - pre.length = mid.length := by omega
    simp only [TextEditor.unindentText, TextEditor.tryUnsetMark, Bool.false_eq_true, if_false,
      hsel1, hs1, hfuel2]
    exact hU

/-- C29: with the mark Unset, a non-empty selection and a tab width `n ≥ 1`,
`indentText` followed by `unindentText` gives back the original text, for every
document; the selection that followed the insertions covers the same lines, so
`unindentText` works on the lines that were indented. -/
theorem indentText_then_unindentText (n : Nat) (s : TextEditor) (hn : 1 ≤ n)
    (hmark : s.m_cursorMark = false) (hsel : s.cursor.hasSelection = true) :
    (TextEditor.unindentText n (TextEditor.indentText n s)).doc = s.doc := by
  obtain ⟨doc, c, mk, cb⟩ := s
  simp only at hmark hsel
  subst hmark
  obtain ⟨ls, hls, hdoc, hlen⟩ := lines_of_document doc
  have hab : findBlock doc c.selectionStart ≤ findBlock doc c.selectionEnd :=
    findBlock_mono doc _ _ (by simp only [QTextCursor.selectionStart, QTextCursor.selectionEnd]; omega)
  have hb : findBlock doc c.selectionEnd < ls.length := by
    rw [hlen]; exact findBlock_lt doc _
  have hjoin : ls = ls.take (findBlock doc c.selectionStart) ++
      (ls.drop (findBlock doc c.selectionStart)).take
        (findBlock doc c.selectionEnd + 1 - findBlock doc c.selectionStart) ++
      ls.drop (findBlock doc c.selectionEnd + 1) := by
    have h1 : ls.drop (findBlock doc c.selectionEnd + 1) =
        (ls.drop (findBlock doc c.selectionStart)).drop
          (findBlock doc c.selectionEnd + 1 - findBlock doc c.selectionStart) := by
      rw [List.drop_drop]
      congr 1
      omega
    rw [h1, List.append_assoc, List.take_append_drop, List.take_append_drop]
  have hprelen : (ls.take (findBlock doc c.selectionStart)).length =
      findBlock doc c.selectionStart := by
    rw [List.length_take]; omega
  have hmidlen : ((ls.drop (findBlock doc c.selectionStart)).take
      (findBlock doc c.selectionEnd + 1 - findBlock doc c.selectionStart)).length =
      findBlock doc c.selectionEnd + 1 - findBlock doc c.selectionStart := by
    rw [List.length_take, List.length_drop]; omega
  have hd : doc = joinLn (ls.take (findBlock doc c.selectionStart) ++
      (ls.drop (findBlock doc c.selectionStart)).take
        (findBlock doc c.selectionEnd + 1 - findBlock doc c.selectionStart) ++
      ls.drop (findBlock doc c.selectionEnd + 1)) := by
    rw [← hjoin]; exact hdoc
  have key := indent_unindent_lines n hn (ls.take (findBlock doc c.selectionStart))
    ((ls.drop (findBlock doc c.selectionStart)).take
        (findBlock doc c.selectionEnd + 1 - findBlock doc c.selectionStart))
    (ls.drop (findBlock doc c.selectionEnd + 1)) c cb
    (fun l hl => hls l (List.mem_of_mem_take hl))
    (fun l hl => hls l (List.mem_of_mem_drop (List.mem_of_mem_take hl))) hsel
    (by rw [← hd, hprelen]) (by rw [← hd, hprelen, hmidlen]; omega)
  rw [← hd] at key
  exact key

/-- C29 (witness): "a", " b", "c" with the first two lines selected and tab width 4. -/
theorem indentText_then_unindentText_witness :
    (TextEditor.unindentText 4 (TextEditor.indentText 4 (TextEditor.ofText "a\n b\nc" 0 3 false))).doc
      = "a\n b\nc".toList :=
  indentText_then_unindentText 4 (TextEditor.ofText "a\n b\nc" 0 3 false) (by decide) rfl
    (by decide)

/-! ### replaceAll and replaceRest -/

/-- Whether the search string matches at an offset depends on the text from that
offset on only. -/
theorem matchesAt_append_left (K : CaseMap) (flags : Nat) (a x kw : List Char) (j : Nat) :
    matchesAt K flags (a ++ x) kw (a.length + j) = matchesAt K flags x kw j := by
  unfold matchesAt
  rw [List.drop_append]

/-- A scan that starts behind a prefix is the scan of the rest, moved by the length of
the prefix. -/
theorem findFrom_append_left (K : CaseMap) (flags : Nat) (a x kw : List Char) :
    ∀ fuel j : Nat,
      findFrom K flags (a ++ x) kw fuel (a.length + j) =
        (findFrom K flags x kw fuel j).map (fun i => a.length + i) := by
  intro fuel
  induction fuel with
  | zero => intro j; rfl
  | succ fuel ih =>
    intro j
    simp only [findFrom, matchesAt_append_left]
    split_ifs
    · rfl
    · exact ih (j + 1)

/-- A search in a document whose text from the cursor on is the text of `p ++ x` from
`p.length` on finds the same matches, moved by the difference of the offsets. -/
theorem findString_suffix (K : CaseMap) (flags : Nat) (p x a kw : List Char) (c : QTextCursor)
    (hkw : kw ≠ []) (hc : c.selectionEnd = a.length) :
    findString K flags (a ++ x) kw c =
      (findFrom K flags (p ++ x) kw ((p ++ x).length + 1 - p.length) p.length).map
        (fun r => ({ anchor := a.length + (r - p.length),
                     position := a.length + (r - p.length) + kw.length } : QTextCursor)) := by
  have hne : kw.isEmpty = false := by
    cases kw with
    | nil => exact absurd rfl hkw
    | cons _ _ => rfl
  have h1 := findFrom_append_left K flags p x kw (x.length + 1) 0
  have h2 := findFrom_append_left K flags a x kw (x.length + 1) 0
  have f1 : (p ++ x).length + 1 - p.length = x.length + 1 := by
    rw [List.length_append]; omega
  have f2 : (a ++ x).length + 1 - a.length = x.length + 1 := by
    rw [List.length_append]; omega
  simp only [Nat.add_zero] at h1 h2
  simp only [findString, hne, Bool.false_eq_true, if_false, hc, f1, f2, h1, h2, Option.map_map]
  congr 1
  funext i
  simp only [Function.comp, Nat.add_sub_cancel_left]

/-- Inserting text over a selected span: the span is removed, the text put in its
place, and the cursor ends behind the text. -/
theorem insertText_span (a m r x : List Char) (hm : m ≠ []) :
    insertText (a ++ m ++ r) { anchor := a.length, position := a.length + m.length } x =
      { doc := a ++ normalizeText x ++ r
        cursor := { anchor := a.length + (normalizeText x).length,
                    position := a.length + (normalizeText x).length }
        changes := [Change.removed a.length m.length,
          Change.inserted a.length (normalizeText x).length] } := by
  have hsel : ({ anchor := a.length, position := a.length + m.length } : QTextCursor).hasSelection
      = true := by
    simp [QTextCursor.hasSelection, hm]
  have h1 : (a ++ m ++ r).take a.length = a := by
    rw [List.append_assoc]; exact List.take_left' rfl
  have h2 : (a ++ m ++ r).drop (a.length + m.length) = r := by
    rw [← List.length_append]; exact List.drop_left' rfl
  have h3 : (a ++ r).take a.length = a := List.take_left' rfl
  have h4 : (a ++ r).drop a.length = r := List.drop_left' rfl
  simp only [insertText, removeSelectedText, hsel, if_true, QTextCursor.selectionStart,
    QTextCursor.selectionEnd, Nat.min_eq_left (Nat.le_add_right _ _),
    Nat.max_eq_right (Nat.le_add_right _ _), h1, h2, h3, h4, Nat.add_sub_cancel_left,
    List.singleton_append]

/-- The loop of `updateKeywordSelections` appends to what it was given. -/
theorem keywordLoop_acc (K : CaseMap) (flags : Nat) (doc kw : List Char) :
    ∀ (n : Nat) (cur : Option QTextCursor) (acc : List QTextCursor),
      TextEditor.keywordLoop K flags doc kw n cur acc =
        acc ++ TextEditor.keywordLoop K flags doc kw n cur [] := by
  intro n
  induction n with
  | zero =>
    intro cur acc
    cases cur <;> simp [TextEditor.keywordLoop]
  | succ n ih =>
    intro cur acc
    cases cur with
    | none => simp [TextEditor.keywordLoop]
    | some c =>
      simp only [TextEditor.keywordLoop, List.nil_append]
      rw [ih _ (acc ++ [c]), ih _ [c], List.append_assoc]

/-- The replacement loop, started at offset `a.length` of a document whose text from
there on is the original text from offset `e` on: it ends, the result is the text
before the cursor followed by the original text from `e` on in which the spans that
the keyword loop collects from `e` on are replaced, and it makes at most
`length - e` insertions. -/
theorem replaceLoop_scan (K : CaseMap) (flags : Nat) (doc kw t : List Char) (hkw : kw ≠ []) :
    ∀ (n e : Nat) (a : List Char) (c : QTextCursor) (chs : List Change) (g : Nat),
      e ≤ doc.length → doc.length < n + e + kw.length → n < g → c.selectionEnd = a.length →
      ∃ chs2 : List Change,
        TextEditor.replaceLoop K flags kw t g (a ++ doc.drop e) c chs =
          some (a ++ replaceSpans doc (normalizeText t) e
              (TextEditor.keywordLoop K flags doc kw n
                ((findFrom K flags doc kw (doc.length + 1 - e) e).map
                  (fun i => ({ anchor := i, position := i + kw.length } : QTextCursor))) []),
            chs ++ chs2) ∧
        insertionCount chs2 + e ≤ doc.length := by
  have hk : 0 < kw.length := List.length_pos.mpr hkw
  have hne : kw.isEmpty = false := by
    cases kw with
    | nil => exact absurd rfl hkw
    | cons _ _ => rfl
  intro n
  induction n with
  | zero =>
    intro e a c chs g he hfuel hg hc
    obtain ⟨g, rfl⟩ : ∃ g2, g = g2 + 1 := ⟨g - 1, by omega⟩
    have hfs := findString_suffix K flags (doc.take e) (doc.drop e) a kw c hkw hc
    rw [List.take_append_drop, List.length_take, Nat.min_eq_left he] at hfs
    obtain ⟨h1, _⟩ := findFrom_spec K flags doc kw (doc.length + 1 - e) e
    cases hf : findFrom K flags doc kw (doc.length + 1 - e) e with
    | none =>
      rw [hf] at hfs
      refine ⟨[], ?_, by simp [insertionCount]; exact he⟩
      simp [TextEditor.replaceLoop, hfs, TextEditor.keywordLoop, replaceSpans]
    | some r =>
      obtain ⟨hr1, _, hm, _⟩ := h1 r hf
      have hb := matchesAt_bound K flags doc kw r hk hm
      omega
  | succ n ih =>
    intro e a c chs g he hfuel hg hc
    obtain ⟨g, rfl⟩ : ∃ g2, g = g2 + 1 := ⟨g - 1, by omega⟩
    have hfs := findString_suffix K flags (doc.take e) (doc.drop e) a kw c hkw hc
    rw [List.take_append_drop, List.length_take, Nat.min_eq_left he] at hfs
    obtain ⟨h1, _⟩ := findFrom_spec K flags doc kw (doc.length + 1 - e) e
    cases hf : findFrom K flags doc kw (doc.length + 1 - e) e with
    | none =>
      rw [hf] at hfs
      refine ⟨[], ?_, by simp [insertionCount]; exact he⟩
      simp [TextEditor.replaceLoop, hfs, TextEditor.keywordLoop, replaceSpans]
    | some r =>
      obtain ⟨hr1, _, hm, _⟩ := h1 r hf
      have hb := matchesAt_bound K flags doc kw r hk hm
      rw [hf] at hfs
      simp only [Option.map_some'] at hfs
      -- the pieces of the text from `e` on: before the match, the match, behind it
      have hu : ((doc.drop e).take (r - e)).length = r - e := by
        rw [List.length_take, List.length_drop]; omega
      have hmlen : ((doc.drop r).take kw.length).length = kw.length := by
        rw [List.length_take, List.length_drop]; omega
      have hmne : (doc.drop r).take kw.length ≠ [] := by
        intro h
        rw [h] at hmlen
        simp at hmlen
        omega
      have hsplit : doc.drop e =
          (doc.drop e).take (r - e) ++ (doc.drop r).take kw.length ++ doc.drop (r + kw.length) := by
        have e1 : doc.drop r = (doc.drop e).drop (r - e) := by
          rw [List.drop_drop]; congr 1; omega
        have e2 : doc.drop (r + kw.length) = (doc.drop r).drop kw.length := by
          rw [List.drop_drop]
        rw [e2, List.append_assoc, List.take_append_drop, e1, List.take_append_drop]
      have hcur : ({ anchor := a.length + (r - e), position := a.length + (r - e) + kw.length }
          : QTextCursor) =
          { anchor := (a ++ (doc.drop e).take (r - e)).length,
            position := (a ++ (doc.drop e).take (r - e)).length +
              ((doc.drop r).take kw.length).length } := by
        rw [List.length_append, hu, hmlen]
      have hdocm : a ++ doc.drop e =
          (a ++ (doc.drop e).take (r - e)) ++ (doc.drop r).take kw.length ++
            doc.drop (r + kw.length) := by
        conv_lhs => rw [hsplit]
        simp only [List.append_assoc]
      have hins := insertText_span (a ++ (doc.drop e).take (r - e)) ((doc.drop r).take kw.length)
        (doc.drop (r + kw.length)) t hmne
      have hend : QTextCursor.selectionEnd
          { anchor := (a ++ (doc.drop e).take (r - e)).length + (normalizeText t).length
            position := (a ++ (doc.drop e).take (r - e)).length + (normalizeText t).length } =
          (a ++ (doc.drop e).take (r - e) ++ normalizeText t).length := by
        simp only [QTextCursor.selectionEnd, Nat.max_self, List.length_append]
      obtain ⟨chs2, hloop, hcount⟩ := ih (r + kw.length)
        (a ++ (doc.drop e).take (r - e) ++ normalizeText t) _
        (chs ++ [Change.removed (a ++ (doc.drop e).take (r - e)).length
            ((doc.drop r).take kw.length).length,
          Change.inserted (a ++ (doc.drop e).take (r - e)).length (normalizeText t).length]) g hb
        (by omega) (by omega) hend
      refine ⟨[Change.removed (a ++ (doc.drop e).take (r - e)).length
            ((doc.drop r).take kw.length).length,
          Change.inserted (a ++ (doc.drop e).take (r - e)).length (normalizeText t).length] ++
          chs2, ?_, ?_⟩
      · have hselend : (({ anchor := r, position := r + kw.length } : QTextCursor)).selectionEnd =
            r + kw.length := by
          simp [QTextCursor.selectionEnd]
        have hkl : TextEditor.keywordLoop K flags doc kw (n + 1)
            (some { anchor := r, position := r + kw.length }) [] =
            { anchor := r, position := r + kw.length } ::
              TextEditor.keywordLoop K flags doc kw n
                ((findFrom K flags doc kw (doc.length + 1 - (r + kw.length)) (r + kw.length)).map
                  (fun i => ({ anchor := i, position := i + kw.length } : QTextCursor))) [] := by
          simp only [TextEditor.keywordLoop, findString, hne, Bool.false_eq_true, if_false, hselend,
            List.nil_append]
          rw [keywordLoop_acc]
          rfl
        simp only [TextEditor.replaceLoop, hfs, Option.map_some', hkl, replaceSpans]
        rw [hcur, hdocm, hins]
        simp only
        rw [hloop]
        simp only [List.append_assoc]
      · have : insertionCount ([Change.removed (a ++ (doc.drop e).take (r - e)).length
            ((doc.drop r).take kw.length).length,
          Change.inserted (a ++ (doc.drop e).take (r - e)).length (normalizeText t).length] ++
          chs2) = insertionCount chs2 + 1 := by
          simp [insertionCount, List.countP_cons]
        rw [this]
        omega

/-- The replacement loop on a whole document, started by a cursor whose selection ends
at offset `e`. -/
theorem replaceLoop_from (K : CaseMap) (flags : Nat) (doc kw t : List Char) (hkw : kw ≠ [])
    (c : QTextCursor) (g : Nat) (hg : doc.length < g) (he : c.selectionEnd ≤ doc.length) :
    ∃ chs2 : List Change,
      TextEditor.replaceLoop K flags kw t g doc c [] =
        some (doc.take c.selectionEnd ++ replaceSpans doc (normalizeText t) c.selectionEnd
            (TextEditor.keywordLoop K flags doc kw (doc.length - c.selectionEnd)
              ((findFrom K flags doc kw (doc.length + 1 - c.selectionEnd) c.selectionEnd).map
                (fun i => ({ anchor := i, position := i + kw.length } : QTextCursor))) []),
          chs2) ∧
      insertionCount chs2 + c.selectionEnd ≤ doc.length := by
  have hk : 0 < kw.length := List.length_pos.mpr hkw
  have hlen : (doc.take c.selectionEnd).length = c.selectionEnd := by
    rw [List.length_take]; omega
  obtain ⟨chs2, h1, h2⟩ := replaceLoop_scan K flags doc kw t hkw (doc.length - c.selectionEnd)
    c.selectionEnd (doc.take c.selectionEnd) c [] g he (by omega) (by omega) hlen.symm
  rw [List.take_append_drop, List.nil_append] at h1
  exact ⟨chs2, h1, h2⟩

/-- The replacement loop ends for every document, search text, replacement text and
start cursor once the fuel exceeds the length of the document, and it makes at most as
many insertions as the document has characters. -/
theorem replaceLoop_terminates (K : CaseMap) (flags : Nat) (doc kw t : List Char)
    (c : QTextCursor) (g : Nat) (hg : doc.length < g) :
    ∃ r, TextEditor.replaceLoop K flags kw t g doc c [] = some r ∧
      insertionCount r.2 ≤ doc.length := by
  obtain ⟨g, rfl⟩ : ∃ g2, g = g2 + 1 := ⟨g - 1, by omega⟩
  by_cases hkw : kw = []
  · subst hkw
    exact ⟨(doc, []), by simp [TextEditor.replaceLoop, findString], by simp [insertionCount]⟩
  · by_cases he : c.selectionEnd ≤ doc.length
    · obtain ⟨chs2, h1, h2⟩ := replaceLoop_from K flags doc kw t hkw c (g + 1) hg he
      exact ⟨_, h1, by simp only; omega⟩
    · have hz : doc.length + 1 - c.selectionEnd = 0 := by omega
      refine ⟨(doc, []), ?_, by simp [insertionCount]⟩
      simp [TextEditor.replaceLoop, findString, hz, findFrom]

/-- C22: for a non-empty search text `replaceAll` ends (any fuel above the length of the
document is enough) and yields the original document in which every span of the match
set that `updateKeywordSelections` computes for the search text on the original
document is replaced by the replacement text as `insertText` stores it, which is the
replacement text itself when it is well-formed; the text between the spans, before the
first and behind the last is kept, and the spans are those of the original document, so
inserted text is never scanned. For the empty search text the state is unchanged. -/
theorem replaceAll_replaces_match_set (K : CaseMap) (L : Layout) (fuel : Nat)
    (replaceText withText : List Char) (s : TextEditor) (hfuel : s.doc.length < fuel) :
    (replaceText ≠ [] →
      (TextEditor.replaceAll K L fuel replaceText withText s).map (fun r => r.doc) =
        some (replaceSpans s.doc (normalizeText withText) 0
          (TextEditor.updateKeywordSelections K replaceText s.doc))) ∧
    (replaceText ≠ [] → WellFormed withText →
      (TextEditor.replaceAll K L fuel replaceText withText s).map (fun r => r.doc) =
        some (replaceSpans s.doc withText 0
          (TextEditor.updateKeywordSelections K replaceText s.doc))) ∧
    TextEditor.replaceAll K L fuel [] withText s = some s := by
  have main : replaceText ≠ [] →
      (TextEditor.replaceAll K L fuel replaceText withText s).map (fun r => r.doc) =
        some (replaceSpans s.doc (normalizeText withText) 0
          (TextEditor.updateKeywordSelections K replaceText s.doc)) := by
    intro hkw
    have hne : replaceText.isEmpty = false := by
      cases replaceText with
      | nil => exact absurd rfl hkw
      | cons _ _ => rfl
    have hstart : s.cursor.movePosition L s.doc MoveOperation.Start MoveMode.MoveAnchor =
        { anchor := 0, position := 0 } := by
      simp [QTextCursor.movePosition, QTextCursor.moveTarget]
    obtain ⟨chs2, h1, _⟩ := replaceLoop_from K ((0 : Nat) &&& FindCaseSensitively) s.doc
      replaceText withText hkw { anchor := 0, position := 0 } fuel hfuel (Nat.zero_le _)
    have hz : ({ anchor := 0, position := 0 } : QTextCursor).selectionEnd = 0 := rfl
    rw [hz] at h1
    simp only [List.take_zero, List.nil_append, Nat.sub_zero] at h1
    simp only [TextEditor.replaceAll, hne, Bool.false_eq_true, if_false, hstart, h1,
      Option.map_some', TextEditor.updateKeywordSelections, Bool.not_false, if_true, findString,
      hz, Nat.sub_zero]
  refine ⟨main, ?_, ?_⟩
  · intro hkw hwf
    have := main hkw
    rw [normalizeText_id withText hwf] at this
    exact this
  · simp [TextEditor.replaceAll]

/-- C22 (witness): replacing "a" by "aa" in "aba" gives "aabaa". -/
theorem replaceAll_replaces_match_set_witness :
    (TextEditor.replaceAll asciiCase plainLayout 4 "a".toList "aa".toList
        (TextEditor.ofText "aba" 1 1 false)).map (fun r => r.doc) = some "aabaa".toList :=
  ((replaceAll_replaces_match_set asciiCase plainLayout 4 "a".toList "aa".toList
      (TextEditor.ofText "aba" 1 1 false) (by decide)).1 (by decide)).trans (by decide)

/-- C30: the replacement loops of `replaceAll` (started at the start of the document)
and of `replaceRest` (started at the text cursor) end for every document, search text
and replacement text as soon as the fuel, which counts the calls of `find`, exceeds the
number of characters of the document; they make at most that many replacements (each
replacement is one insertion), and `replaceAll` and `replaceRest` return a state. The
search always goes on from the cursor that `insertText` leaves behind the inserted
text. -/
theorem replace_loops_terminate (K : CaseMap) (L : Layout) (replaceText withText : List Char)
    (s : TextEditor) (fuel : Nat) (hfuel : s.doc.length < fuel) :
    (∃ r, TextEditor.replaceLoop K ((0 : Nat) &&& FindCaseSensitively) replaceText withText fuel
        s.doc (s.cursor.movePosition L s.doc MoveOperation.Start MoveMode.MoveAnchor) [] = some r ∧
      insertionCount r.2 ≤ s.doc.length) ∧
    (∃ r, TextEditor.replaceLoop K ((0 : Nat) &&& FindCaseSensitively) replaceText withText fuel
        s.doc s.cursor [] = some r ∧
      insertionCount r.2 ≤ s.doc.length) ∧
    (TextEditor.replaceAll K L fuel replaceText withText s).isSome = true ∧
    (TextEditor.replaceRest K fuel replaceText withText s).isSome = true := by
  obtain ⟨r1, h1, c1⟩ := replaceLoop_terminates K ((0 : Nat) &&& FindCaseSensitively) s.doc
    replaceText withText (s.cursor.movePosition L s.doc MoveOperation.Start MoveMode.MoveAnchor)
    fuel hfuel
  obtain ⟨r2, h2, c2⟩ := replaceLoop_terminates K ((0 : Nat) &&& FindCaseSensitively) s.doc
    replaceText withText s.cursor fuel hfuel
  refine ⟨⟨r1, h1, c1⟩, ⟨r2, h2, c2⟩, ?_, ?_⟩
  · unfold TextEditor.replaceAll
    split_ifs
    · rfl
    · simp only [h1, Option.map_some', Option.isSome_some]
  · unfold TextEditor.replaceRest
    split_ifs
    · rfl
    · simp only [h2, Option.map_some', Option.isSome_some]

/-- C30 (witness): replacing "a" by "aa" in "aaa" ends with "aaaaaa", and so does the
replacement by the empty text, with the empty document. -/
theorem replace_loops_terminate_witness :
    (TextEditor.replaceAll asciiCase plainLayout 4 "a".toList "aa".toList
        (TextEditor.ofText "aaa" 0 0 false)).isSome = true ∧
    (TextEditor.replaceRest asciiCase 4 "a".toList [] (TextEditor.ofText "aaa" 1 1 false)).isSome
      = true ∧
    (TextEditor.replaceAll asciiCase plainLayout 4 "a".toList "aa".toList
        (TextEditor.ofText "aaa" 0 0 false)).map (fun r => r.doc) = some "aaaaaa".toList ∧
    (TextEditor.replaceRest asciiCase 4 "a".toList [] (TextEditor.ofText "aaa" 1 1 false)).map
      (fun r => r.doc) = some "a".toList :=
  ⟨(replace_loops_terminate asciiCase plainLayout "a".toList "aa".toList
      (TextEditor.ofText "aaa" 0 0 false) 4 (by decide)).2.2.1,
   (replace_loops_terminate asciiCase plainLayout "a".toList []
      (TextEditor.ofText "aaa" 1 1 false) 4 (by decide)).2.2.2,
   by decide, by decide⟩

/-! ### The scan of getNextWordPosition -/

/-- Reading the character before offset `n ≥ 1`. -/
theorem textAt_pred (doc : List Char) (n : Nat) (h : 1 ≤ n) :
    textAt doc ((n : Int) - 1) = doc[n - 1]? := by
  have h1 : ¬ ((n : Int) - 1 < 0) := by omega
  have h2 : ((n : Int) - 1).toNat = n - 1 := by omega
  simp only [textAt, h1, if_false, h2]

/-- Reading the character at offset `n`. -/
theorem textAt_nat (doc : List Char) (n : Nat) : textAt doc (n : Int) = doc[n]? := by
  have h1 : ¬ ((n : Int) < 0) := by omega
  simp only [textAt, h1, if_false, Int.toNat_ofNat]

/-- One step forward of a cursor that has no selection or keeps its anchor: the
position grows by one up to the end, and the next step is of the same kind. -/
theorem nextCharacter_step (L : Layout) (doc : List Char) (mode : MoveMode) (c : QTextCursor)
    (h : mode = MoveMode.KeepAnchor ∨ c.anchor = c.position) :
    (c.movePosition L doc MoveOperation.NextCharacter mode).position =
      min (c.position + 1) doc.length ∧
    (mode = MoveMode.KeepAnchor ∨
      (c.movePosition L doc MoveOperation.NextCharacter mode).anchor =
        (c.movePosition L doc MoveOperation.NextCharacter mode).position) := by
  cases mode with
  | KeepAnchor => simp [QTextCursor.movePosition, QTextCursor.moveTarget]
  | MoveAnchor =>
    rcases h with h | h
    · exact absurd h (by decide)
    · simp [QTextCursor.movePosition, QTextCursor.moveTarget, h]

/-- The first loop of `getNextWordPosition` ends without reading outside the text: it
stops at the end of the document or right behind the first character that is no
whitespace, and everything it passed before that character is whitespace. -/
theorem nextWordSpaceLoop_spec (L : Layout) (doc : List Char) (mode : MoveMode) :
    ∀ (fuel : Nat) (c : QTextCursor) (ch : Char),
      (mode = MoveMode.KeepAnchor ∨ c.anchor = c.position) → 1 ≤ c.position →
      c.position ≤ doc.length → doc.length - c.position < fuel →
      doc[c.position - 1]? = some ch →
      ∃ c2, TextEditor.nextWordSpaceLoop L doc mode fuel c ch = some c2 ∧
        c.position ≤ c2.position ∧ c2.position ≤ doc.length ∧
        (∀ j d, c.position ≤ j + 1 → j + 1 < c2.position → doc[j]? = some d → isSpace d = true) ∧
        (c2.position = doc.length ∨
          ∃ d, doc[c2.position - 1]? = some d ∧ isSpace d = false) := by
  intro fuel
  induction fuel with
  | zero => intro c ch _ _ _ hf _; omega
  | succ f ih =>
    intro c ch hm h1 hlen hf hch
    by_cases hcond : c.position < doc.length ∧ isSpace ch = true
    · obtain ⟨hs1, hs2⟩ := nextCharacter_step L doc mode c hm
      have hpos : (c.movePosition L doc MoveOperation.NextCharacter mode).position =
          c.position + 1 := by
        rw [hs1]; omega
      obtain ⟨d, hd⟩ : ∃ d, doc[c.position]? = some d :=
        ⟨_, List.getElem?_eq_getElem hcond.1⟩
      have hread : textAt doc
          (((c.movePosition L doc MoveOperation.NextCharacter mode).position : Int) - 1) =
          some d := by
        rw [textAt_pred doc _ (by omega), hpos]
        exact hd
      obtain ⟨c2, e1, e2, e3, e4, e5⟩ := ih (c.movePosition L doc MoveOperation.NextCharacter mode)
        d hs2 (by omega) (by omega) (by omega) (by rw [hpos]; exact hd)
      refine ⟨c2, ?_, by omega, e3, ?_, e5⟩
      · simp only [TextEditor.nextWordSpaceLoop, hcond, and_self, if_true, hread]
        exact e1
      · intro j x hj1 hj2 hx
        by_cases hjc : j + 1 = c.position
        · have : j = c.position - 1 := by omega
          rw [this, hch] at hx
          cases hx
          exact hcond.2
        · exact e4 j x (by omega) hj2 hx
    · refine ⟨c, ?_, Nat.le_refl _, hlen, fun j d hj1 hj2 _ => by omega, ?_⟩
      · simp only [TextEditor.nextWordSpaceLoop, hcond, if_false]
      · by_cases hp : c.position < doc.length
        · right
          refine ⟨ch, hch, ?_⟩
          cases hsp : isSpace ch with
          | false => rfl
          | true => exact absurd ⟨hp, hsp⟩ hcond
        · left; omega

/-- The second loop of `getNextWordPosition` ends without reading outside the text: it
stops at the end of the document or at a word separator. -/
theorem nextWordLoop_spec (L : Layout) (seps doc : List Char) (mode : MoveMode) :
    ∀ (fuel : Nat) (c : QTextCursor),
      (mode = MoveMode.KeepAnchor ∨ c.anchor = c.position) →
      c.position ≤ doc.length → doc.length - c.position < fuel →
      ∃ c2, TextEditor.nextWordLoop L seps doc mode fuel c = some c2 ∧
        c.position ≤ c2.position ∧ c2.position ≤ doc.length ∧
        (c2.position = doc.length ∨
          ∃ d, doc[c2.position]? = some d ∧ seps.contains d = true) := by
  intro fuel
  induction fuel with
  | zero => intro c _ _ hf; omega
  | succ f ih =>
    intro c hm hlen hf
    by_cases hp : c.position < doc.length
    · obtain ⟨d, hd⟩ : ∃ d, doc[c.position]? = some d :=
        ⟨_, List.getElem?_eq_getElem hp⟩
      have hsep : TextEditor.atWordSeparator seps doc c.position = some (seps.contains d) := by
        simp only [TextEditor.atWordSeparator, textAt_nat, hd, Option.map_some']
      cases hc : seps.contains d with
      | true =>
        refine ⟨c, ?_, Nat.le_refl _, hlen, Or.inr ⟨d, hd, hc⟩⟩
        simp only [TextEditor.nextWordLoop, hp, if_true, hsep, hc]
      | false =>
        obtain ⟨hs1, hs2⟩ := nextCharacter_step L doc mode c hm
        have hpos : (c.movePosition L doc MoveOperation.NextCharacter mode).position =
            c.position + 1 := by
          rw [hs1]; omega
        obtain ⟨c2, e1, e2, e3, e4⟩ := ih (c.movePosition L doc MoveOperation.NextCharacter mode)
          hs2 (by omega) (by omega)
        refine ⟨c2, ?_, by omega, e3, e4⟩
        simp only [TextEditor.nextWordLoop, hp, if_true, hsep, hc]
        exact e1
    · refine ⟨c, ?_, Nat.le_refl _, hlen, Or.inl (by omega)⟩
      simp only [TextEditor.nextWordLoop, hp, if_false]

/-- What `getNextWordPosition` answers on a non-empty document, for a cursor without
selection or in `KeepAnchor` mode: it reads no character outside the text, and the
answer `q` lies between the cursor and the end of the document, behind the cursor when
the cursor is not at the end. The answer is the end of the document, or the offset of a
word separator, or the offset right behind the first character that is no whitespace,
all characters between the cursor and that character being whitespace. -/
theorem getNextWordPosition_spec (L : Layout) (seps doc : List Char) (mode : MoveMode)
    (c : QTextCursor) (hdoc : doc ≠ [])
    (hm : mode = MoveMode.KeepAnchor ∨ c.anchor = c.position) (hlen : c.position ≤ doc.length) :
    ∃ q, TextEditor.getNextWordPosition L seps doc c mode = some q ∧
      c.position ≤ q ∧ q ≤ doc.length ∧ (c.position < doc.length → c.position < q) ∧
      (q = doc.length ∨ (∃ d, doc[q]? = some d ∧ seps.contains d = true) ∨
        ((∃ d, doc[q - 1]? = some d ∧ isSpace d = false) ∧
          ∀ j d, c.position ≤ j → j + 1 < q → doc[j]? = some d → isSpace d = true)) := by
  have hpos : 0 < doc.length := List.length_pos.mpr hdoc
  have hne : doc.isEmpty = false := by
    cases doc with
    | nil => exact absurd rfl hdoc
    | cons _ _ => rfl
  obtain ⟨hs1, hs2⟩ := nextCharacter_step L doc mode c hm
  have h1 : 1 ≤ (c.movePosition L doc MoveOperation.NextCharacter mode).position := by
    rw [hs1]; omega
  have h2 : (c.movePosition L doc MoveOperation.NextCharacter mode).position ≤ doc.length := by
    rw [hs1]; omega
  have h3 : c.position ≤ (c.movePosition L doc MoveOperation.NextCharacter mode).position := by
    rw [hs1]; omega
  have h4 : c.position < doc.length →
      (c.movePosition L doc MoveOperation.NextCharacter mode).position = c.position + 1 := by
    intro h; rw [hs1]; omega
  obtain ⟨ch, hch⟩ : ∃ ch,
      doc[(c.movePosition L doc MoveOperation.NextCharacter mode).position - 1]? = some ch :=
    ⟨_, List.getElem?_eq_getElem (by omega)⟩
  have hread : textAt doc
      (((c.movePosition L doc MoveOperation.NextCharacter mode).position : Int) - 1) = some ch := by
    rw [textAt_pred doc _ h1]
    exact hch
  cases hsp : isSpace ch with
  | true =>
    obtain ⟨c2, e1, e2, e3, e4, e5⟩ := nextWordSpaceLoop_spec L doc mode (doc.length + 1)
      (c.movePosition L doc MoveOperation.NextCharacter mode) ch hs2 h1 h2 (by omega) hch
    refine ⟨c2.position, ?_, by omega, e3, fun h => by have := h4 h; omega, ?_⟩
    · simp only [TextEditor.getNextWordPosition, hne, Bool.false_eq_true, if_false, hread, hsp,
        if_true, e1, Option.map_some']
    · rcases e5 with e5 | e5
      · exact Or.inl e5
      · refine Or.inr (Or.inr ⟨e5, ?_⟩)
        intro j d hj1 hj2 hd
        exact e4 j d (by omega) hj2 hd
  | false =>
    obtain ⟨c2, e1, e2, e3, e4⟩ := nextWordLoop_spec L seps doc mode (doc.length + 1)
      (c.movePosition L doc MoveOperation.NextCharacter mode) hs2 h2 (by omega)
    refine ⟨c2.position, ?_, by omega, e3, fun h => by have := h4 h; omega, ?_⟩
    · simp only [TextEditor.getNextWordPosition, hne, Bool.false_eq_true, if_false, hread, hsp,
        e1, Option.map_some']
    · rcases e4 with e4 | e4
      · exact Or.inl e4
      · exact Or.inr (Or.inl e4)

/-! ### replaceNext on a current match -/

/-- The forward loop of `setCursorKeywordSeletoin` leaves the text alone. -/
theorem selectNextKeyword_doc (position : Nat) (s : TextEditor) (k : SearchState) :
    ∀ l : List QTextCursor, (TextEditor.selectNextKeyword position s k l).2.1.doc = s.doc := by
  intro l
  induction l with
  | nil => rfl
  | cons m rest ih =>
    simp only [TextEditor.selectNextKeyword]
    split_ifs
    · rfl
    · exact ih

/-- The backward loop of `setCursorKeywordSeletoin` leaves the text alone. -/
theorem selectPrevKeyword_doc (position : Nat) (s : TextEditor) (k : SearchState) :
    ∀ l : List QTextCursor, (TextEditor.selectPrevKeyword position s k l).2.1.doc = s.doc := by
  intro l
  induction l with
  | nil => rfl
  | cons m rest ih =>
    simp only [TextEditor.selectPrevKeyword]
    split_ifs
    · rfl
    · exact ih

/-- Choosing the current match leaves the text alone. -/
theorem setCursorKeywordSeletoin_doc (position : Nat) (findNext : Bool) (s : TextEditor)
    (k : SearchState) :
    (TextEditor.setCursorKeywordSeletoin position findNext s k).2.1.doc = s.doc := by
  unfold TextEditor.setCursorKeywordSeletoin
  split_ifs
  · exact selectNextKeyword_doc position s k _
  · exact selectPrevKeyword_doc position s k _

/-- Match navigation leaves the text alone. -/
theorem updateCursorKeywordSelection_doc (L : Layout) (position : Nat) (findNext : Bool)
    (s : TextEditor) (k : SearchState) :
    (TextEditor.updateCursorKeywordSelection L position findNext s k).1.doc = s.doc := by
  simp only [TextEditor.updateCursorKeywordSelection]
  split_ifs <;> simp only [setCursorKeywordSeletoin_doc]

/-- Highlighting a keyword leaves the text alone. -/
theorem highlightKeyword_doc (K : CaseMap) (L : Layout) (keyword : List Char) (position : Nat)
    (s : TextEditor) (k : SearchState) :
    (TextEditor.highlightKeyword K L keyword position s k).1.doc = s.doc := by
  simp only [TextEditor.highlightKeyword, updateCursorKeywordSelection_doc]

/-- Repeated `NextCharacter` steps that keep the anchor, inside the document. -/
theorem movePositionN_nextCharacter_keep (L : Layout) (doc : List Char) (n : Nat) :
    ∀ a p : Nat, p + n ≤ doc.length →
      QTextCursor.movePositionN L doc MoveOperation.NextCharacter MoveMode.KeepAnchor n
        { anchor := a, position := p } = { anchor := a, position := p + n } := by
  induction n with
  | zero => intro a p _; rfl
  | succ n ih =>
    intro a p hp
    have hstep : ({ anchor := a, position := p } : QTextCursor).movePosition L doc
        MoveOperation.NextCharacter MoveMode.KeepAnchor = { anchor := a, position := p + 1 } := by
      have hmin : min (p + 1) doc.length = p + 1 := Nat.min_eq_left (by omega)
      simp [QTextCursor.movePosition, QTextCursor.moveTarget, hmin]
    simp only [QTextCursor.movePositionN, hstep]
    rw [ih a (p + 1) (by omega)]
    simp [Nat.add_assoc, Nat.add_comm 1 n]

/-- The replacing branch of `replaceNext`: when the current match cursor selects a span
of the length of the search text inside the document, that span is replaced by the
replacement text and nothing else changes; when it holds no selection the text stays
as it is. -/
theorem replaceNext_current_match (K : CaseMap) (L : Layout) (kw t : List Char)
    (s : TextEditor) (k : SearchState) :
    (∀ r, kw ≠ [] → k.m_cursorKeywordSelection = { anchor := r, position := r + kw.length } →
      r + kw.length ≤ s.doc.length →
      (TextEditor.replaceNext K L kw t s k).1.doc =
        s.doc.take r ++ normalizeText t ++ s.doc.drop (r + kw.length)) ∧
    (k.m_cursorKeywordSelection.hasSelection = false →
      (TextEditor.replaceNext K L kw t s k).1.doc = s.doc) := by
  constructor
  · intro r hkw hcur hr
    have hk : 0 < kw.length := List.length_pos.mpr hkw
    have hne : kw.isEmpty = false := by
      cases kw with
      | nil => exact absurd rfl hkw
      | cons _ _ => rfl
    have hsel : k.m_cursorKeywordSelection.hasSelection = true := by
      rw [hcur]
      simp only [QTextCursor.hasSelection, bne_iff_ne, ne_eq]
      omega
    have hpos : k.m_cursorKeywordSelection.position = r + kw.length := by rw [hcur]
    have h1 : ¬ r + kw.length < kw.length := by omega
    have h2 : ¬ s.doc.length < r := by omega
    have hmid : ((s.doc.drop r).take kw.length).length = kw.length := by
      rw [List.length_take, List.length_drop]; omega
    have hmne : (s.doc.drop r).take kw.length ≠ [] := by
      intro h
      rw [h] at hmid
      simp at hmid
      omega
    have hlen : (s.doc.take r).length = r := by
      rw [List.length_take]; omega
    have hdoc : s.doc = s.doc.take r ++ (s.doc.drop r).take kw.length ++
        s.doc.drop (r + kw.length) := by
      have e2 : s.doc.drop (r + kw.length) = (s.doc.drop r).drop kw.length := by
        rw [List.drop_drop]
      rw [e2, List.append_assoc, List.take_append_drop, List.take_append_drop]
    have hins := insertText_span (s.doc.take r) ((s.doc.drop r).take kw.length)
      (s.doc.drop (r + kw.length)) t hmne
    rw [← hdoc, hlen, hmid] at hins
    simp only [TextEditor.replaceNext, hne, hsel, Bool.not_true, Bool.or_self, Bool.false_eq_true,
      if_false, hpos, h1, Nat.add_sub_cancel, QTextCursor.setPosition, h2, QTextCursor.movePosition,
      QTextCursor.moveTarget, movePositionN_nextCharacter_keep L s.doc kw.length r r hr, hins,
      highlightKeyword_doc]
  · intro hsel
    simp only [TextEditor.replaceNext, hsel, Bool.not_false, Bool.or_true, if_true,
      highlightKeyword_doc]

end DeepinEditor
